import Mathlib

/-!
# photo_sorter: a verification development of `main.go`

The program walks `<cwd>/Raw`, and moves every file with a supported
extension to `<parent of cwd>/柠泽/<YYYY-MM>/<date>_<md5>.<ext>`, or records
it as a duplicate when something already sits at that path.

The embedding follows `main.go` line by line (`computeMD5`, the walk
callback `walkFn`, `main`).  The Go library functions it calls are modelled
after their documented Unix behaviour:

* strings are sequences of code points, paths use the separator `/`;
* `filepath.Clean`, `Join`, `Dir`, `Base`, `Ext`, `Rel` work on path elements;
* `time.Time.Format` works on the civil fields of the time stamp;
* `crypto/md5` is RFC 1321 on 32-bit words (naturals reduced modulo `2^32`);
* the file system is a table from absolute paths (lists of elements below
  the root) to regular files and directories; every operation can fail for
  what the table says and, in addition, through a fault oracle (`Env`),
  which stands for permissions, devices and the like;
* every operating-system call is appended to a trace kept in the world, so
  that "does not hash" and "does not rename" are statements about the trace.
-/

namespace PhotoSorter

/-! ## Strings -/

/-- A Go string, as the sequence of its code points. -/
abbrev GoString := List Char

/-- Go `strings.TrimPrefix`. -/
def TrimPrefix (s pre : GoString) : GoString :=
  if pre.isPrefixOf s then s.drop pre.length else s

/-- Whether every code point of the string is below `utf8.RuneSelf`. -/
def isASCII (s : GoString) : Bool := s.all (fun c => decide (c.toNat < 128))

/-- Whether the string holds one of `A` .. `Z`. -/
def hasUpper (s : GoString) : Bool := s.any (fun c => decide ('A' ≤ c ∧ c ≤ 'Z'))

/-- The ASCII branch of `strings.ToLower`: `c += 'a' - 'A'` on `A` .. `Z`. -/
def lowerASCII (c : Char) : Char :=
  if 'A' ≤ c ∧ c ≤ 'Z' then Char.ofNat (c.toNat + 32) else c

/-- Go `strings.ToLower`.  ASCII-only strings are lowered byte by byte; any
other string is mapped through `unicode.ToLower`, whose case tables are not
part of the program and are taken as the parameter `unicodeToLower`. -/
def ToLower (unicodeToLower : Char → Char) (s : GoString) : GoString :=
  if isASCII s then
    if hasUpper s then s.map lowerASCII else s
  else s.map unicodeToLower

/-- Go slice expression `s[:hi]` on a string of one-byte characters; `none`
is the run-time panic "slice bounds out of range". -/
def sliceTo (s : GoString) (hi : Nat) : Option GoString :=
  if hi ≤ s.length then some (s.take hi) else none

/-! ## Paths (`path/filepath` on Unix) -/

/-- The elements of a string between its separators, empty ones included. -/
def splitSep : GoString → List GoString
  | [] => [[]]
  | c :: cs =>
    if c = '/' then [] :: splitSep cs
    else
      match splitSep cs with
      | [] => [[c]]
      | e :: es => (c :: e) :: es

/-- The elements joined by the separator (`strings.Join(elems, "/")`). -/
def joinSep : List GoString → GoString
  | [] => []
  | [e] => e
  | e :: es => e ++ '/' :: joinSep es

/-- Whether the path starts at the root. -/
def isRooted (path : GoString) : Bool :=
  match path with
  | c :: _ => decide (c = '/')
  | [] => false

/-- One step of `filepath.Clean`: the element `e` read after the elements
`acc` (latest first) were kept.  Empty and `.` elements are dropped; `..`
removes the latest kept element, is dropped at the root, and is kept when
there is nothing left to remove in a relative path. -/
def cleanStep (rooted : Bool) (acc : List GoString) (e : GoString) : List GoString :=
  if e = [] ∨ e = ['.'] then acc
  else if e = ['.', '.'] then
    match acc with
    | [] => if rooted then [] else [e]
    | top :: rest => if top = ['.', '.'] then e :: acc else rest
  else e :: acc

/-- The elements `filepath.Clean` keeps, in order. -/
def cleanElems (rooted : Bool) (es : List GoString) : List GoString :=
  (es.foldl (cleanStep rooted) []).reverse

/-- The cleaned path written out: a rooted path starts with the separator,
a relative path without elements is `.`. -/
def renderPath (rooted : Bool) (es : List GoString) : GoString :=
  if rooted then '/' :: joinSep es
  else if es = [] then ['.'] else joinSep es

/-- Go `filepath.Clean`. -/
def Clean (path : GoString) : GoString :=
  if path = [] then ['.']
  else renderPath (isRooted path) (cleanElems (isRooted path) (splitSep path))

/-- Go `filepath.Join`: the elements from the first non-empty one on are
joined by the separator and cleaned. -/
def Join : List GoString → GoString
  | [] => []
  | e :: es => if e = [] then Join es else Clean (joinSep (e :: es))

/-- Go `filepath.Dir`: everything up to the last separator, cleaned. -/
def Dir (path : GoString) : GoString :=
  Clean (path.reverse.dropWhile (fun c => decide (c ≠ '/'))).reverse

/-- Go `filepath.Base`: the last element, trailing separators removed. -/
def Base (path : GoString) : GoString :=
  if path = [] then ['.']
  else
    let p := path.reverse.dropWhile (fun c => decide (c = '/'))
    let b := (p.takeWhile (fun c => decide (c ≠ '/'))).reverse
    if b = [] then ['/'] else b

/-- The backward scan of `filepath.Ext` over the reversed path: `acc` is
the suffix already passed. -/
def extScan : GoString → GoString → GoString
  | [], _ => []
  | c :: cs, acc =>
    if c = '/' then []
    else if c = '.' then c :: acc
    else extScan cs (c :: acc)

/-- Go `filepath.Ext`: the suffix starting at the last dot of the last
element, or the empty string. -/
def Ext (path : GoString) : GoString := extScan path.reverse []

/-- The errors the model distinguishes. -/
inductive Error where
  | notExist
  | notDir
  | isDir
  | exist
  | notEmpty
  | invalid
  | denied
  | rel
  | skipDir
  | skipAll
deriving DecidableEq, Repr

/-- The longest common leading elements removed from both lists. -/
def dropCommon : List GoString → List GoString → List GoString × List GoString
  | b :: bs, t :: ts => if b = t then dropCommon bs ts else (b :: bs, t :: ts)
  | bs, ts => (bs, ts)

/-- Go `filepath.Rel`: the path that leads from `basepath` to `targpath`. -/
def Rel (basepath targpath : GoString) : Except Error GoString :=
  let base := Clean basepath
  let targ := Clean targpath
  if targ = base then .ok ['.']
  else if isRooted base ≠ isRooted targ then .error .rel
  else
    let bt := dropCommon (cleanElems (isRooted base) (splitSep base))
      (cleanElems (isRooted targ) (splitSep targ))
    if bt.1.head? = some ['.', '.'] then .error .rel
    else .ok (joinSep (bt.1.map (fun _ => ['.', '.']) ++ bt.2))

/-! ## Time stamps (`time.Time.Format`) -/

/-- A time stamp in its location, by civil fields (`t.Date()`, `t.Clock()`,
`t.Nanosecond()`). -/
structure Time where
  year : Int
  month : Nat
  day : Nat
  hour : Nat
  minute : Nat
  second : Nat
  nsec : Nat
deriving DecidableEq, Repr

/-- The decimal digit of a number below ten. -/
def digitChar (n : Nat) : Char := Char.ofNat (48 + n % 10)

/-- The decimal digits of `n`, most significant first; `fuel` bounds their
number. -/
def decDigits : Nat → Nat → GoString
  | 0, _ => []
  | fuel + 1, n =>
    if n < 10 then [digitChar n]
    else decDigits fuel (n / 10) ++ [digitChar (n % 10)]

/-- Go `time.appendInt`: the decimal form of `x` appended to `b`, with a
minus sign when negative and padded with leading zeros to `width` digits. -/
def appendInt (b : GoString) (x : Int) (width : Nat) : GoString :=
  let ds := decDigits (x.natAbs + 1) x.natAbs
  b ++ (if x < 0 then ['-'] else []) ++ List.replicate (width - ds.length) '0' ++ ds

/-- The chunks `time.Format` finds in a layout. -/
inductive Chunk where
  | lit (s : GoString)
  | stdLongYear
  | stdZeroMonth
  | stdZeroDay
  | stdHour
  | stdZeroMinute
  | stdZeroSecond
deriving DecidableEq, Repr

/-- The layout `"2006-01-02_150405"` of line 74, cut into its chunks. -/
def fileDateLayout : List Chunk :=
  [.stdLongYear, .lit ['-'], .stdZeroMonth, .lit ['-'], .stdZeroDay, .lit ['_'],
   .stdHour, .stdZeroMinute, .stdZeroSecond]

/-- One chunk of the layout appended to the output of `Format`. -/
def appendChunk (t : Time) (b : GoString) : Chunk → GoString
  | .lit s => b ++ s
  | .stdLongYear => appendInt b t.year 4
  | .stdZeroMonth => appendInt b t.month 2
  | .stdZeroDay => appendInt b t.day 2
  | .stdHour => appendInt b t.hour 2
  | .stdZeroMinute => appendInt b t.minute 2
  | .stdZeroSecond => appendInt b t.second 2

/-- Go `time.Time.Format` on a layout given by its chunks. -/
def Format (t : Time) (layout : List Chunk) : GoString :=
  layout.foldl (appendChunk t) []

/-! ## MD5 (`crypto/md5`, RFC 1321) and `encoding/hex` -/

/-- A byte. -/
abbrev Byte := Fin 256

/-- The per-round left rotations. -/
def md5Shift : List Nat :=
  [7, 12, 17, 22, 7, 12, 17, 22, 7, 12, 17, 22, 7, 12, 17, 22,
   5, 9, 14, 20, 5, 9, 14, 20, 5, 9, 14, 20, 5, 9, 14, 20,
   4, 11, 16, 23, 4, 11, 16, 23, 4, 11, 16, 23, 4, 11, 16, 23,
   6, 10, 15, 21, 6, 10, 15, 21, 6, 10, 15, 21, 6, 10, 15, 21]

/-- The per-round additive constants. -/
def md5K : List Nat :=
  [0xd76aa478, 0xe8c7b756, 0x242070db, 0xc1bdceee, 0xf57c0faf, 0x4787c62a,
   0xa8304613, 0xfd469501, 0x698098d8, 0x8b44f7af, 0xffff5bb1, 0x895cd7be,
   0x6b901122, 0xfd987193, 0xa679438e, 0x49b40821, 0xf61e2562, 0xc040b340,
   0x265e5a51, 0xe9b6c7aa, 0xd62f105d, 0x02441453, 0xd8a1e681, 0xe7d3fbc8,
   0x21e1cde6, 0xc33707d6, 0xf4d50d87, 0x455a14ed, 0xa9e3e905, 0xfcefa3f8,
   0x676f02d9, 0x8d2a4c8a, 0xfffa3942, 0x8771f681, 0x6d9d6122, 0xfde5380c,
   0xa4beea44, 0x4bdecfa9, 0xf6bb4b60, 0xbebfbc70, 0x289b7ec6, 0xeaa127fa,
   0xd4ef3085, 0x04881d05, 0xd9d4d039, 0xe6db99e5, 0x1fa27cf8, 0xc4ac5665,
   0xf4292244, 0x432aff97, 0xab9423a7, 0xfc93a039, 0x655b59c3, 0x8f0ccc92,
   0xffeff47d, 0x85845dd1, 0x6fa87e4f, 0xfe2ce6e0, 0xa3014314, 0x4e0811a1,
   0xf7537e82, 0xbd3af235, 0x2ad7d2bb, 0xeb86d391]

/-- Reduction to a 32-bit word. -/
def w32 (n : Nat) : Nat := n % 2 ^ 32

/-- Bitwise complement of a 32-bit word. -/
def not32 (x : Nat) : Nat := 2 ^ 32 - 1 - w32 x

/-- Left rotation of a 32-bit word (`bits.RotateLeft32`). -/
def rotl32 (x k : Nat) : Nat := w32 (x <<< k) ||| (w32 x >>> (32 - k))

/-- The four chaining words of MD5. -/
structure Digest where
  a : Nat
  b : Nat
  c : Nat
  d : Nat
deriving DecidableEq, Repr

/-- Round `i` of the block function on the message words `m`. -/
def md5Round (m : List Nat) (s : Digest) (i : Nat) : Digest :=
  let f :=
    if i < 16 then (s.b &&& s.c) ||| (not32 s.b &&& s.d)
    else if i < 32 then (s.d &&& s.b) ||| (not32 s.d &&& s.c)
    else if i < 48 then s.b ^^^ s.c ^^^ s.d
    else s.c ^^^ (s.b ||| not32 s.d)
  let g :=
    if i < 16 then i
    else if i < 32 then (5 * i + 1) % 16
    else if i < 48 then (3 * i + 5) % 16
    else (7 * i) % 16
  let f2 := w32 (f + s.a + md5K.getD i 0 + m.getD g 0)
  ⟨s.d, w32 (s.b + rotl32 f2 (md5Shift.getD i 0)), s.b, s.c⟩

/-- A little-endian 32-bit word read from four bytes. -/
def leWord (bs : List Nat) : Nat :=
  bs.getD 0 0 + 256 * bs.getD 1 0 + 65536 * bs.getD 2 0 + 16777216 * bs.getD 3 0

/-- The first `n` little-endian words of a block. -/
def blockWords : Nat → List Nat → List Nat
  | 0, _ => []
  | n + 1, bs => leWord (bs.take 4) :: blockWords n (bs.drop 4)

/-- The block function: 64 rounds, then the feed-forward addition. -/
def md5Block (s : Digest) (block : List Nat) : Digest :=
  let m := blockWords 16 block
  let r := (List.range 64).foldl (md5Round m) s
  ⟨w32 (s.a + r.a), w32 (s.b + r.b), w32 (s.c + r.c), w32 (s.d + r.d)⟩

/-- The `n` low bytes of `x`, least significant first. -/
def leBytes : Nat → Nat → List Nat
  | 0, _ => []
  | n + 1, x => x % 256 :: leBytes n (x / 256)

/-- The padded message: a `0x80` byte, zeros up to 56 modulo 64, and the
length in bits as a 64-bit little-endian number. -/
def md5Pad (msg : List Nat) : List Nat :=
  msg ++ [0x80] ++ List.replicate ((119 - msg.length % 64) % 64) 0
    ++ leBytes 8 ((8 * msg.length) % 2 ^ 64)

/-- The block function folded over `n` consecutive 64-byte blocks. -/
def md5Blocks : Nat → Digest → List Nat → Digest
  | 0, s, _ => s
  | n + 1, s, bs => md5Blocks n (md5Block s (bs.take 64)) (bs.drop 64)

/-- The initial chaining value. -/
def md5Init : Digest := ⟨0x67452301, 0xefcdab89, 0x98badcfe, 0x10325476⟩

/-- The 16-byte MD5 digest of a byte sequence (`hash.Sum(nil)` after the
whole content was written to `md5.New()`). -/
def md5Sum (data : List Byte) : List Nat :=
  let p := md5Pad (data.map Fin.val)
  let r := md5Blocks (p.length / 64) md5Init p
  leBytes 4 r.a ++ leBytes 4 r.b ++ leBytes 4 r.c ++ leBytes 4 r.d

/-- A lower-case hexadecimal digit. -/
def hexDigit (n : Nat) : Char := "0123456789abcdef".toList.getD n '0'

/-- Go `hex.EncodeToString`. -/
def hexEncode (bs : List Nat) : GoString :=
  bs.flatMap (fun b => [hexDigit (b / 16 % 16), hexDigit (b % 16)])

/-! ## The file system -/

/-- An absolute path, as its elements below the root. -/
abbrev Path := List GoString

/-- What a path can hold: a regular file with its content and modification
time, or a directory. -/
inductive Node where
  | file (data : List Byte) (modTime : Time)
  | dir
deriving DecidableEq, Repr

/-- The part of `os.FileInfo` the program reads.  Modification times of
directories are not tracked (the program never reads them). -/
structure FileInfo where
  isDir : Bool
  modTime : Time
deriving DecidableEq, Repr

/-- The `os.FileInfo` of a node. -/
def Node.info : Node → FileInfo
  | .file _ t => ⟨false, t⟩
  | .dir => ⟨true, ⟨0, 0, 0, 0, 0, 0, 0⟩⟩

/-- The operating-system calls recorded in the trace, with the names they
were given. -/
inductive Call where
  | getwd
  | stat (name : GoString)
  | lstat (name : GoString)
  | readdir (name : GoString)
  | mkdirAll (path : GoString)
  | mkdir (path : Path)
  | open (name : GoString)
  | read (name : GoString)
  | rename (oldpath newpath : GoString)
deriving DecidableEq, Repr

/-- The world a run acts on: the working directory, the file table (the
first entry for a path counts) and the trace of the calls made so far, each
with the error it returned (`none` for success). -/
structure World where
  cwd : Path
  fs : List (Path × Node)
  calls : List (Call × Option Error)
deriving DecidableEq, Repr

/-- What the source leaves to the platform: the case tables of
`unicode.ToLower`, and which operations fail for reasons outside the file
table (permissions, devices).  The oracle is the same for a run and its
rerun. -/
structure Env where
  unicodeToLower : Char → Char
  getwdFault : Bool
  statFault : Path → Bool
  lstatFault : Path → Bool
  readdirFault : Path → Bool
  openFault : Path → Bool
  readFault : Path → Bool
  mkdirFault : Path → Bool
  renameFault : Path → Path → Bool

/-- The first entry of the table for a path. -/
def lookup : List (Path × Node) → Path → Option Node
  | [], _ => none
  | e :: rest, p => if e.1 = p then some e.2 else lookup rest p

/-- The node at an absolute path; the root is always a directory. -/
def nodeAt (fs : List (Path × Node)) (p : Path) : Option Node :=
  if p = [] then some .dir else lookup fs p

/-- Path resolution: the elements of the name, from the root or from the
working directory, with `.` and `..` followed. -/
def resolve (cwd : Path) (name : GoString) : Path :=
  if isRooted name then cleanElems true (splitSep name)
  else cleanElems true (cwd ++ splitSep name)

/-- The node a name leads to; the empty name leads nowhere. -/
def World.node (w : World) (name : GoString) : Option Node :=
  if name = [] then none else nodeAt w.fs (resolve w.cwd name)

/-- The world with one more call in its trace. -/
def World.call (w : World) (c : Call) (e : Option Error) : World :=
  { w with calls := w.calls ++ [(c, e)] }

/-- Go `os.Getwd`. -/
def Getwd (E : Env) (w : World) : World × Except Error GoString :=
  if E.getwdFault then (w.call .getwd (some .denied), .error .denied)
  else (w.call .getwd none, .ok ('/' :: joinSep w.cwd))

/-- Go `os.Stat`: fails when the oracle refuses it or the name leads
nowhere. -/
def Stat (E : Env) (name : GoString) (w : World) : World × Except Error FileInfo :=
  if E.statFault (resolve w.cwd name) then
    (w.call (.stat name) (some .denied), .error .denied)
  else
    match w.node name with
    | some n => (w.call (.stat name) none, .ok n.info)
    | none => (w.call (.stat name) (some .notExist), .error .notExist)

/-- Go `os.Lstat`, as used by `filepath.Walk`. -/
def Lstat (E : Env) (name : GoString) (w : World) : World × Except Error FileInfo :=
  if E.lstatFault (resolve w.cwd name) then
    (w.call (.lstat name) (some .denied), .error .denied)
  else
    match w.node name with
    | some n => (w.call (.lstat name) none, .ok n.info)
    | none => (w.call (.lstat name) (some .notExist), .error .notExist)

/-- Go `os.Mkdir` on a resolved path: the path must be free and its parent
a directory. -/
def Mkdir (E : Env) (p : Path) (w : World) : World × Option Error :=
  if E.mkdirFault p then (w.call (.mkdir p) (some .denied), some .denied)
  else
    match nodeAt w.fs p with
    | some _ => (w.call (.mkdir p) (some .exist), some .exist)
    | none =>
      match nodeAt w.fs p.dropLast with
      | none => (w.call (.mkdir p) (some .notExist), some .notExist)
      | some (.file _ _) => (w.call (.mkdir p) (some .notDir), some .notDir)
      | some .dir => ({ w.call (.mkdir p) none with fs := (p, .dir) :: w.fs }, none)

/-- The recursion of `os.MkdirAll` on the reversed resolved path: done when
the path is a directory, an error when it is a file, else the parent is
created first and then the path itself; a failed `Mkdir` is forgiven when the
directory is there after all. -/
def mkdirAllRev (E : Env) : List GoString → World → World × Option Error
  | [], w => (w, none)
  | n :: r, w =>
    match lookup w.fs (n :: r).reverse with
    | some .dir => (w, none)
    | some (.file _ _) => (w, some .notDir)
    | none =>
      match mkdirAllRev E r w with
      | (w1, some e) => (w1, some e)
      | (w1, none) =>
        match Mkdir E (n :: r).reverse w1 with
        | (w2, none) => (w2, none)
        | (w2, some e) =>
          match lookup w2.fs (n :: r).reverse with
          | some .dir => (w2, none)
          | _ => (w2, some e)

/-- Go `os.MkdirAll`. -/
def MkdirAll (E : Env) (path : GoString) (w : World) : World × Option Error :=
  if path = [] then (w.call (.mkdirAll path) (some .notExist), some .notExist)
  else
    match mkdirAllRev E (resolve w.cwd path).reverse w with
    | (w1, e) => (w1.call (.mkdirAll path) e, e)

/-- The table after the subtree at `o` was moved to `n`. -/
def moveTree (o n : Path) (fs : List (Path × Node)) : List (Path × Node) :=
  (fs.filter (fun e => decide (e.1 ≠ n))).map
    (fun e => if o.isPrefixOf e.1 then (n ++ e.1.drop o.length, e.2) else e)

/-- The effect of `rename(2)` on the table: a regular file replaces
whatever non-directory is at the new path; a directory can replace only an
empty directory and cannot move below itself.  The parent of the new path
must be a directory. -/
def renameTable (fs : List (Path × Node)) (o n : Path) : Except Error (List (Path × Node)) :=
  match nodeAt fs o with
  | none => .error .notExist
  | some (.file data t) =>
    match nodeAt fs n.dropLast with
    | none => .error .notExist
    | some (.file _ _) => .error .notDir
    | some .dir =>
      match nodeAt fs n with
      | some .dir => .error .isDir
      | _ => .ok ((n, .file data t) :: fs.filter (fun e => decide (e.1 ≠ o ∧ e.1 ≠ n)))
  | some .dir =>
    if o = [] then .error .invalid
    else if o = n then .ok fs
    else if o.isPrefixOf n then .error .invalid
    else
      match nodeAt fs n.dropLast with
      | none => .error .notExist
      | some (.file _ _) => .error .notDir
      | some .dir =>
        match nodeAt fs n with
        | some (.file _ _) => .error .notDir
        | some .dir =>
          if fs.any (fun e => n.isPrefixOf e.1 && decide (e.1 ≠ n)) then .error .notEmpty
          else .ok (moveTree o n fs)
        | none => .ok (moveTree o n fs)

/-- Go `os.Rename`. -/
def Rename (E : Env) (oldpath newpath : GoString) (w : World) : World × Option Error :=
  if oldpath = [] ∨ newpath = [] then
    (w.call (.rename oldpath newpath) (some .notExist), some .notExist)
  else if E.renameFault (resolve w.cwd oldpath) (resolve w.cwd newpath) then
    (w.call (.rename oldpath newpath) (some .denied), some .denied)
  else
    match renameTable w.fs (resolve w.cwd oldpath) (resolve w.cwd newpath) with
    | .error e => (w.call (.rename oldpath newpath) (some e), some e)
    | .ok fs => ({ w.call (.rename oldpath newpath) none with fs := fs }, none)

/-- Byte order on strings (`sort.Strings`). -/
def strLE : GoString → GoString → Bool
  | [], _ => true
  | _ :: _, [] => false
  | a :: as, b :: bs =>
    if a.toNat < b.toNat then true
    else if b.toNat < a.toNat then false
    else strLE as bs

/-- Insertion into a sorted list of names. -/
def insertSorted (x : GoString) : List GoString → List GoString
  | [] => [x]
  | y :: ys => if strLE x y then x :: y :: ys else y :: insertSorted x ys

/-- The names in byte order. -/
def sortStrings : List GoString → List GoString
  | [] => []
  | x :: xs => insertSorted x (sortStrings xs)

/-- The names without repetition. -/
def uniq : List GoString → List GoString
  | [] => []
  | x :: xs => if x ∈ uniq xs then uniq xs else x :: uniq xs

/-- The names of the entries directly below a directory. -/
def childNames (fs : List (Path × Node)) (d : Path) : List GoString :=
  fs.filterMap (fun e =>
    if e.1 ≠ [] ∧ e.1.dropLast = d then e.1.getLast? else none)

/-- The `readDirNames` of `filepath.Walk`: the sorted names of the entries
of a directory. -/
def readDirNames (E : Env) (dirname : GoString) (w : World) :
    World × Except Error (List GoString) :=
  if E.readdirFault (resolve w.cwd dirname) then
    (w.call (.readdir dirname) (some .denied), .error .denied)
  else
    match w.node dirname with
    | none => (w.call (.readdir dirname) (some .notExist), .error .notExist)
    | some (.file _ _) => (w.call (.readdir dirname) (some .notDir), .error .notDir)
    | some .dir =>
      (w.call (.readdir dirname) none,
        .ok (sortStrings (uniq (childNames w.fs (resolve w.cwd dirname)))))

/-! ## The program -/

/-- The function `computeMD5` of `main.go`: the file is opened, its whole
content is copied into the hash, and the digest is returned in hexadecimal.
Opening a directory succeeds and reading it fails. -/
def computeMD5 (E : Env) (filePath : GoString) (w : World) : World × Except Error GoString :=
  if E.openFault (resolve w.cwd filePath) then
    (w.call (.open filePath) (some .denied), .error .denied)
  else
    match w.node filePath with
    | none => (w.call (.open filePath) (some .notExist), .error .notExist)
    | some .dir =>
      ((w.call (.open filePath) none).call (.read filePath) (some .isDir), .error .isDir)
    | some (.file data _) =>
      if E.readFault (resolve w.cwd filePath) then
        ((w.call (.open filePath) none).call (.read filePath) (some .denied), .error .denied)
      else
        ((w.call (.open filePath) none).call (.read filePath) none,
          .ok (hexEncode (md5Sum data)))

/-- The lines `log.Printf` and `log.Fatalf` write. -/
inductive LogLine where
  | md5Failed (path : GoString) (e : Error)
  | mkdirFailed (dir : GoString) (e : Error)
  | moveFailed (path targetPath : GoString) (e : Error)
  | fatalGetwd (e : Error)
  | fatalOutputDir (dir : GoString) (e : Error)
  | fatalWalk (e : Error)
deriving DecidableEq, Repr

/-- The variables of `main` the walk callback closes over without changing
them. -/
structure Config where
  baseDir : GoString
  rawDir : GoString
  outputDir : GoString
  supportedFormats : List GoString
deriving DecidableEq, Repr

/-- The list of line 30. -/
def supportedFormats : List GoString :=
  ["jpg".toList, "jpeg".toList, "png".toList, "mp4".toList, "mov".toList, "heic".toList]

/-- Lines 21 to 30: the directories derived from the working directory. -/
def mainConfig (cwd : GoString) : Config :=
  { baseDir := Dir cwd
    rawDir := Join [cwd, "Raw".toList]
    outputDir := Join [Dir cwd, "柠泽".toList]
    supportedFormats := supportedFormats }

/-- What the callback and the walk change: the world, the duplicate list of
line 46 and the log. -/
structure State where
  world : World
  duplicateFiles : List GoString
  log : List LogLine
deriving DecidableEq, Repr

/-- How a call of the callback or of the walk ends: with a Go `error` value
(`nil` or not), with a run-time panic, or, in the model only, because the
recursion budget of the walk was used up. -/
inductive Ret where
  | nil
  | err (e : Error)
  | goPanic
  | outOfFuel
deriving DecidableEq, Repr

/-- The extension of line 60. -/
def fileExt (E : Env) (path : GoString) : GoString :=
  ToLower E.unicodeToLower (TrimPrefix (Ext path) ['.'])

/-- The loop of lines 61 to 67. -/
def isSupported (formats : List GoString) (ext : GoString) : Bool :=
  formats.any (fun format => decide (ext = format))

/-- The name of line 84: `fmt.Sprintf("%s_%s.%s", fileDate, fileMD5, ext)`. -/
def newFileName (fileDate fileMD5 ext : GoString) : GoString :=
  fileDate ++ '_' :: fileMD5 ++ '.' :: ext

/-- The directory of line 88. -/
def targetDir (cfg : Config) (yearMonth : GoString) : GoString :=
  Join [cfg.outputDir, yearMonth]

/-- The path of line 96. -/
def targetPath (cfg : Config) (yearMonth fileName : GoString) : GoString :=
  Join [targetDir cfg yearMonth, fileName]

/-- The relative path of lines 101 to 104, the target path itself when
`filepath.Rel` fails. -/
def relPath (cfg : Config) (target : GoString) : GoString :=
  match Rel cfg.baseDir target with
  | .ok r => r
  | .error _ => target

/-- The record of line 105: `fmt.Sprintf("%s => %s", base, relPath)`. -/
def duplicateRecord (base rel : GoString) : GoString :=
  base ++ " => ".toList ++ rel

/-- Lines 83 to 113 of the callback, after the hash was computed and the
year-month was cut from the date. -/
def placeFile (E : Env) (cfg : Config) (path fileName yearMonth : GoString) (s : State) :
    State × Ret :=
  match MkdirAll E (targetDir cfg yearMonth) s.world with
  | (w2, some e) =>
    ({ s with world := w2, log := s.log ++ [.mkdirFailed (targetDir cfg yearMonth) e] }, .nil)
  | (w2, none) =>
    match Stat E (targetPath cfg yearMonth fileName) w2 with
    | (w3, .ok _) =>
      ({ s with
          world := w3
          duplicateFiles := s.duplicateFiles ++
            [duplicateRecord (Base path) (relPath cfg (targetPath cfg yearMonth fileName))] },
        .nil)
    | (w3, .error _) =>
      match Rename E path (targetPath cfg yearMonth fileName) w3 with
      | (w4, some e) =>
        ({ s with
            world := w4
            log := s.log ++ [.moveFailed path (targetPath cfg yearMonth fileName) e] }, .nil)
      | (w4, none) => ({ s with world := w4 }, .nil)

/-- The walk callback of lines 49 to 114. -/
def walkFn (E : Env) (cfg : Config) (path : GoString) (info : Option FileInfo)
    (err : Option Error) (s : State) : State × Ret :=
  match err with
  | some e => (s, .err e)
  | none =>
    match info with
    | none => (s, .goPanic)
    | some info =>
      if info.isDir then (s, .nil)
      else if !isSupported cfg.supportedFormats (fileExt E path) then (s, .nil)
      else
        match computeMD5 E path s.world with
        | (w1, .error e) =>
          ({ s with world := w1, log := s.log ++ [.md5Failed path e] }, .nil)
        | (w1, .ok fileMD5) =>
          match sliceTo (Format info.modTime fileDateLayout) 7 with
          | none => ({ s with world := w1 }, .goPanic)
          | some yearMonth =>
            placeFile E cfg path
              (newFileName (Format info.modTime fileDateLayout) fileMD5 (fileExt E path))
              yearMonth { s with world := w1 }

/-- The type of a walk callback (`filepath.WalkFunc`), with the state it
acts on made explicit. -/
abbrev WalkFunc := GoString → Option FileInfo → Option Error → State → State × Ret

/-- The loop of `filepath.walk` over the names of a directory; `descend` is
the recursive call. -/
def walkLoop (E : Env) (fn : WalkFunc) (descend : GoString → FileInfo → State → State × Ret)
    (path : GoString) : List GoString → State → State × Ret
  | [], s => (s, .nil)
  | name :: names, s =>
    match Lstat E (Join [path, name]) s.world with
    | (w1, .error e) =>
      match fn (Join [path, name]) none (some e) { s with world := w1 } with
      | (s1, .nil) => walkLoop E fn descend path names s1
      | (s1, .err .skipDir) => walkLoop E fn descend path names s1
      | (s1, r) => (s1, r)
    | (w1, .ok fileInfo) =>
      match descend (Join [path, name]) fileInfo { s with world := w1 } with
      | (s1, .nil) => walkLoop E fn descend path names s1
      | (s1, .err e) =>
        if !fileInfo.isDir || decide (e ≠ .skipDir) then (s1, .err e)
        else walkLoop E fn descend path names s1
      | (s1, r) => (s1, r)

/-- Go `filepath.walk`: a non-directory is handed to the callback; for a
directory the names are read, the callback is called with the error of that
read, and unless either failed the entries are walked in order.  The first
argument bounds the depth of the recursion. -/
def walk (E : Env) (fn : WalkFunc) : Nat → GoString → FileInfo → State → State × Ret
  | 0, _, _, s => (s, .outOfFuel)
  | fuel + 1, path, info, s =>
    if !info.isDir then fn path (some info) none s
    else
      match readDirNames E path s.world with
      | (w1, .error e) => fn path (some info) (some e) { s with world := w1 }
      | (w1, .ok names) =>
        match fn path (some info) none { s with world := w1 } with
        | (s1, .nil) => walkLoop E fn (walk E fn fuel) path names s1
        | (s1, r) => (s1, r)

/-- The end of `filepath.Walk`: `SkipDir` and `SkipAll` become `nil`. -/
def walkResult : State × Ret → State × Ret
  | (s, .err .skipDir) => (s, .nil)
  | (s, .err .skipAll) => (s, .nil)
  | r => r

/-- Go `filepath.Walk`. -/
def Walk (E : Env) (fn : WalkFunc) (fuel : Nat) (root : GoString) (s : State) : State × Ret :=
  match Lstat E root s.world with
  | (w1, .error e) => walkResult (fn root none (some e) { s with world := w1 })
  | (w1, .ok info) => walkResult (walk E fn fuel root info { s with world := w1 })

/-- How a run ends: the world it leaves, what it printed, what it logged,
its exit status, and the duplicate list at the end (empty when the run
stopped before the walk). -/
structure Outcome where
  world : World
  stdout : List GoString
  log : List LogLine
  exitCode : Nat
  duplicateFiles : List GoString
deriving DecidableEq, Repr

/-- The message of line 35. -/
def missingMessage (rawDir : GoString) : GoString :=
  "错误：路径 ".toList ++ rawDir ++ " 不存在！".toList

/-- The report of lines 119 to 129. -/
def report (duplicateFiles : List GoString) : List GoString :=
  (if 0 < duplicateFiles.length then
      "以下文件是重复的，未被处理：".toList :: duplicateFiles
    else ["没有重复文件。".toList]) ++ ["整理完成！".toList]

/-- Lines 32 to 130 of `main`: the check of the source directory, the
creation of the output directory, the walk and the report.  `none` stands
for a walk that used up the recursion budget `fuel`. -/
def archive (E : Env) (cfg : Config) (fuel : Nat) (w : World) : Option Outcome :=
  match Stat E cfg.rawDir w with
  | (w1, .error _) => some ⟨w1, [missingMessage cfg.rawDir], [], 1, []⟩
  | (w1, .ok info) =>
    if !info.isDir then some ⟨w1, [missingMessage cfg.rawDir], [], 1, []⟩
    else
      match MkdirAll E cfg.outputDir w1 with
      | (w2, some e) => some ⟨w2, [], [.fatalOutputDir cfg.outputDir e], 1, []⟩
      | (w2, none) =>
        match Walk E (walkFn E cfg) fuel cfg.rawDir ⟨w2, [], []⟩ with
        | (_, .outOfFuel) => none
        | (s, .goPanic) => some ⟨s.world, [], s.log, 2, s.duplicateFiles⟩
        | (s, .err e) => some ⟨s.world, [], s.log ++ [.fatalWalk e], 1, s.duplicateFiles⟩
        | (s, .nil) => some ⟨s.world, report s.duplicateFiles, s.log, 0, s.duplicateFiles⟩

/-- The function `main` of `main.go`. -/
def main (E : Env) (fuel : Nat) (w : World) : Option Outcome :=
  match Getwd E w with
  | (w1, .error e) => some ⟨w1, [], [.fatalGetwd e], 1, []⟩
  | (w1, .ok cwd) => archive E (mainConfig cwd) fuel w1

/-! ## Notions used in the statements -/

/-- A name an entry of a directory can have. -/
def properName (n : GoString) : Prop :=
  n ≠ [] ∧ n ≠ ['.'] ∧ n ≠ ['.', '.'] ∧ '/' ∉ n

instance (n : GoString) : Decidable (properName n) := by
  unfold properName; infer_instance

/-- The kept elements of a cleaned path, latest first: no empty or `.`
element, no separator inside an element, no `..` in a rooted path, and in a
relative path `..` only at the start. -/
def StackOK (r : Bool) (acc : List GoString) : Prop :=
  (∀ e ∈ acc, e ≠ [] ∧ e ≠ ['.'] ∧ '/' ∉ e) ∧ (r = true → ['.', '.'] ∉ acc) ∧
    List.Chain' (fun x y => x = ['.', '.'] → y = ['.', '.']) acc

/-- The text `time.appendInt` adds for `x` at width `width`. -/
def intText (x : Int) (width : Nat) : GoString :=
  (if x < 0 then ['-'] else []) ++
    List.replicate (width - (decDigits (x.natAbs + 1) x.natAbs).length) '0' ++
    decDigits (x.natAbs + 1) x.natAbs

/-- The characters a formatted file date is made of. -/
def dateChars : List Char := "0123456789-_".toList

/-- The characters of a hexadecimal digest. -/
def hexChars : List Char := "0123456789abcdef".toList

/-- The later world has the working directory of the earlier one and its
trace continues the earlier trace. -/
def Extends (w w1 : World) : Prop :=
  w1.cwd = w.cwd ∧ ∃ l, w1.calls = w.calls ++ l

/-- The civil fields of a time stamp are in their ranges. -/
def Time.wellFormed (t : Time) : Prop :=
  1 ≤ t.month ∧ t.month ≤ 12 ∧ 1 ≤ t.day ∧ t.day ≤ 31 ∧ t.hour < 24 ∧ t.minute < 60 ∧
    t.second < 60 ∧ t.nsec < 1000000000

instance (t : Time) : Decidable t.wellFormed := by
  unfold Time.wellFormed; infer_instance

/-- An environment in which nothing fails for outside reasons; only ASCII
letters have a lower case. -/
def exEnv : Env :=
  { unicodeToLower := lowerASCII
    getwdFault := false
    statFault := fun _ => false
    lstatFault := fun _ => false
    readdirFault := fun _ => false
    openFault := fun _ => false
    readFault := fun _ => false
    mkdirFault := fun _ => false
    renameFault := fun _ _ => false }

/-- The time 2023-10-05 14:30:00. -/
def exTime : Time := ⟨2023, 10, 5, 14, 30, 0, 0⟩

/-- A path given by its elements. -/
def exPath (l : List String) : Path := l.map String.toList

/-- The content `ABC`. -/
def exABC : List Byte := [65, 66, 67]

/-- A world with the working directory `/home/u` and the photo
`/home/u/Raw/photo.JPG`. -/
def exWorld : World :=
  { cwd := exPath ["home", "u"]
    fs := [(exPath ["home"], .dir), (exPath ["home", "u"], .dir),
      (exPath ["home", "u", "Raw"], .dir),
      (exPath ["home", "u", "Raw", "photo.JPG"], .file exABC exTime)]
    calls := [] }

/-- The state of the callback at the start of a walk of `exWorld`. -/
def exState : State := ⟨exWorld, [], []⟩

/-- The configuration `main` builds in the working directory `/home/u`. -/
def exCfg : Config := mainConfig "/home/u".toList

/-- The name `/home/u/Raw/photo.JPG`. -/
def exPhoto : GoString := "/home/u/Raw/photo.JPG".toList

/-- The name `/home/u/Raw/notes.txt`. -/
def exNotes : GoString := "/home/u/Raw/notes.txt".toList

/-- The later world continues the earlier one without any call of
`os.Rename`. -/
def Quiet (w w1 : World) : Prop :=
  w1.cwd = w.cwd ∧ ∃ l, w1.calls = w.calls ++ l ∧ ∀ c ∈ l, ∀ a b, c.1 ≠ Call.rename a b

/-- The year-month of line 87 for a modification time. -/
def yearMonthOf (t : Time) : GoString := (Format t fileDateLayout).take 7

/-- The new name of line 84 for a path, a content and a modification time. -/
def nameOf (E : Env) (path : GoString) (data : List Byte) (t : Time) : GoString :=
  newFileName (Format t fileDateLayout) (hexEncode (md5Sum data)) (fileExt E path)

/-- The target path of line 96 for a path, a content and a modification
time. -/
def destOf (E : Env) (cfg : Config) (path : GoString) (data : List Byte) (t : Time) :
    GoString :=
  targetPath cfg (yearMonthOf t) (nameOf E path data t)

/-- The world after the file at `path` was opened and read. -/
def hashed (w : World) (path : GoString) : World :=
  (w.call (.open path) none).call (.read path) none

/-- The world `exWorld` after an earlier run archived a file with the
content `ABC` and the time 2023-10-05 14:30:00: the target path of
`photo.JPG` is taken, here by a file of another content. -/
def exWorldTaken : World :=
  { cwd := exPath ["home", "u"]
    fs := [(exPath ["home"], .dir), (exPath ["home", "u"], .dir),
      (exPath ["home", "u", "Raw"], .dir),
      (exPath ["home", "u", "Raw", "photo.JPG"], .file exABC exTime),
      (exPath ["home", "柠泽"], .dir), (exPath ["home", "柠泽", "2023-10"], .dir),
      (exPath ["home", "柠泽", "2023-10",
        "2023-10-05_143000_902fbdd2b1df0c4f70b4a5d23525e932.jpg"], .file [1] exTime)]
    calls := [] }

/-- Two time stamps agree to the second. -/
def sameSecond (t1 t2 : Time) : Prop :=
  t1.year = t2.year ∧ t1.month = t2.month ∧ t1.day = t2.day ∧ t1.hour = t2.hour ∧
    t1.minute = t2.minute ∧ t1.second = t2.second

instance (t1 t2 : Time) : Decidable (sameSecond t1 t2) := by
  unfold sameSecond; infer_instance

/-- The name `/home/u/Raw/copy.jpg`. -/
def exCopy : GoString := "/home/u/Raw/copy.jpg".toList

/-- The time 2023-10-05 14:30:00 and half a second. -/
def exTimeLater : Time := ⟨2023, 10, 5, 14, 30, 0, 500000000⟩

/-- The world `exWorld` with a copy of the photo, `/home/u/Raw/copy.jpg`,
of the same content and the same second. -/
def exWorldTwo : World :=
  { cwd := exPath ["home", "u"]
    fs := [(exPath ["home"], .dir), (exPath ["home", "u"], .dir),
      (exPath ["home", "u", "Raw"], .dir),
      (exPath ["home", "u", "Raw", "photo.JPG"], .file exABC exTime),
      (exPath ["home", "u", "Raw", "copy.jpg"], .file exABC exTimeLater)]
    calls := [] }

/-- How a step of the walk below the source root `R` may change the state:
the working directory stays, trace, log and duplicate list only grow, below
`R` entries can only disappear, elsewhere a path that is taken stays taken
(a rename may replace the file there), and directories stay. -/
structure Frame (R : Path) (s s1 : State) : Prop where
  cwd : s1.world.cwd = s.world.cwd
  calls : ∃ l, s1.world.calls = s.world.calls ++ l
  log : ∃ l, s1.log = s.log ++ l
  dups : ∃ l, s1.duplicateFiles = s.duplicateFiles ++ l
  under : ∀ k n, R <+: k → nodeAt s1.world.fs k = some n → nodeAt s.world.fs k = some n
  outside : ∀ k, ¬ R <+: k → nodeAt s.world.fs k ≠ none → nodeAt s1.world.fs k ≠ none
  dirs : ∀ k, nodeAt s.world.fs k = some .dir → nodeAt s1.world.fs k = some .dir

/-- The source root `R` and the output directory `O` are apart: no path
`O/<year-month>/...` lies at or below `R`. -/
def Sep (R O : Path) : Prop :=
  ∀ (ym : GoString) (x : List GoString), ym.length = 7 → ¬ R <+: O ++ ym :: x

/-- The absolute path a rooted name stands for. -/
def absPath (x : GoString) : Path := cleanElems true (splitSep x)

/-- The clean rooted name of an absolute path. -/
def strOf (k : Path) : GoString := '/' :: joinSep k

/-- A clean rooted name other than the root. -/
def CleanAbs (p : GoString) : Prop :=
  isRooted p = true ∧ Clean p = p ∧ p ≠ ['/']

instance (p : GoString) : Decidable (CleanAbs p) := by
  unfold CleanAbs; infer_instance

/-- The errors a traversal can meet: `os.Lstat` or the reading of a
directory failed. -/
def TravErr (e : Error) : Prop := e = .denied ∨ e = .notExist ∨ e = .notDir

/-- How a walk with the callback of `main` can end, seen from its start
state `s`: the working directory stays, the trace grows, and the result is
`nil`, or the model's out-of-fuel, or an error that a failed `os.Lstat` or a
failed reading of a directory put in the trace. -/
def WalkOk (s : State) (res : State × Ret) : Prop :=
  res.1.world.cwd = s.world.cwd ∧
    ∃ l, res.1.world.calls = s.world.calls ++ l ∧
      (res.2 = .nil ∨ res.2 = .outOfFuel ∨
        ∃ e, res.2 = .err e ∧ TravErr e ∧
          ∃ p, (Call.lstat p, some e) ∈ l ∨ (Call.readdir p, some e) ∈ l)

/-- A world in which the working directory `/home/u` has no `Raw`: the
photo lies next to where it should be. -/
def exWorldNoRaw : World :=
  { cwd := exPath ["home", "u"]
    fs := [(exPath ["home"], .dir), (exPath ["home", "u"], .dir),
      (exPath ["home", "u", "photo.jpg"], .file exABC exTime)]
    calls := [] }

/-- Below the source root `R` the table is that of a file system: whatever
lies on the way from `R` to an entry is a directory, and the names on that
way are names an entry can have. -/
def Tidy (R : Path) (fs : List (Path × Node)) : Prop :=
  ∀ k nd, R <+: k → nodeAt fs k = some nd →
    ∀ P n, R <+: P → P ++ [n] <+: k → properName n ∧ nodeAt fs P = some .dir

/-- The configuration fits a walk below the source root `R`: the formats
are those of line 30, the output directory is rooted, and it lies apart from
`R`. -/
structure Apart (cfg : Config) (R : Path) : Prop where
  fmt : cfg.supportedFormats = supportedFormats
  root : isRooted cfg.outputDir = true
  sep : Sep R (absPath cfg.outputDir)

/-- The walk stands at the name `p` at or below the source root `R`, with
the file information `info` of the entry there. -/
structure At (R : Path) (p : GoString) (info : FileInfo) (s : State) : Prop where
  clean : CleanAbs p
  below : R <+: absPath p
  tidy : Tidy R s.world.fs
  node : ∃ nd, nodeAt s.world.fs (absPath p) = some nd ∧ nd.info = info

/-- Every entry at or below `P` lies less than `B` elements deep. -/
def Depth (fs : List (Path × Node)) (P : Path) (B : Nat) : Prop :=
  ∀ k nd, P <+: k → nodeAt fs k = some nd → k.length < B

/-- The record of line 105 for the file with content `d` and modification
time `t` at the absolute path `k`. -/
def recordOf (E : Env) (cfg : Config) (k : Path) (d : List Byte) (t : Time) : GoString :=
  duplicateRecord (Base (strOf k)) (relPath cfg (destOf E cfg (strOf k) d t))

/-- The world is one a file system can be in: the elements of the working
directory are names an entry can have, and so are the elements of every path
of the table, below directories all the way. -/
def World.wellFormed (w : World) : Prop :=
  (∀ c ∈ w.cwd, properName c) ∧
    ∀ e ∈ w.fs, ∀ i < e.1.length,
      properName (e.1.getD i []) ∧ nodeAt w.fs (e.1.take i) = some .dir

instance (w : World) : Decidable w.wellFormed := by
  unfold World.wellFormed; infer_instance

/-- The source root of a run in the working directory `cwd`. -/
def rawPath (cwd : Path) : Path := cwd ++ ["Raw".toList]

/-- The output directory of a run in the working directory `cwd`. -/
def outPath (cwd : Path) : Path := cwd.dropLast ++ ["柠泽".toList]

/-- An environment in which the directory `/home/u/Raw/a` cannot be read;
nothing else fails. -/
def exEnvBlocked : Env :=
  { exEnv with readdirFault := fun k => decide (k = exPath ["home", "u", "Raw", "a"]) }

/-- A world with the directory `/home/u/Raw/a` and, after it in the order
of the walk, the photo `/home/u/Raw/b.jpg`. -/
def exWorldBlocked : World :=
  { cwd := exPath ["home", "u"]
    fs := [(exPath ["home"], .dir), (exPath ["home", "u"], .dir),
      (exPath ["home", "u", "Raw"], .dir),
      (exPath ["home", "u", "Raw", "a"], .dir),
      (exPath ["home", "u", "Raw", "b.jpg"], .file exABC exTime)]
    calls := [] }

/-- The outcome of a run that did not end. -/
def noOutcome : Outcome := ⟨⟨[], [], []⟩, [], [], 3, []⟩

/-- The first run in `exWorldTwo`. -/
def exFirstRun : Outcome := (main exEnv 5 exWorldTwo).getD noOutcome

/-- The first run in `exWorldBlocked`. -/
def exBlockedRun : Outcome := (main exEnvBlocked 5 exWorldBlocked).getD noOutcome

/-- A recursion budget that exceeds the depth of every entry of the
table. -/
def fuelFor (w : World) : Nat := (w.fs.map (fun e => e.1.length)).foldr max 0 + 1

/-- The time 2024-02-03 08:05:09. -/
def exTime2 : Time := ⟨2024, 2, 3, 8, 5, 9, 0⟩

/-- An environment in which `a.jpg` cannot be opened, the target directory
`2023-10` cannot be made and `c.mov` cannot be renamed. -/
def exEnvMixed : Env :=
  { exEnv with
    openFault := fun k => decide (k = exPath ["home", "u", "Raw", "a.jpg"])
    mkdirFault := fun k => decide (k = exPath ["home", "柠泽", "2023-10"])
    renameFault := fun a _ => decide (a = exPath ["home", "u", "Raw", "c.mov"]) }

/-- A world with three photos below `/home/u/Raw`. -/
def exWorldMixed : World :=
  { cwd := exPath ["home", "u"]
    fs := [(exPath ["home"], .dir), (exPath ["home", "u"], .dir),
      (exPath ["home", "u", "Raw"], .dir),
      (exPath ["home", "u", "Raw", "a.jpg"], .file exABC exTime),
      (exPath ["home", "u", "Raw", "b.png"], .file exABC exTime),
      (exPath ["home", "u", "Raw", "c.mov"], .file exABC exTime2)]
    calls := [] }

/-- The line reports a failed hash, a failed directory creation or a failed
rename (lines 79, 93, 109 and 42); the two other lines report a failed
`os.Getwd` and a failed traversal. -/
def LogLine.isFailure : LogLine → Bool
  | .md5Failed _ _ => true
  | .mkdirFailed _ _ => true
  | .moveFailed _ _ _ => true
  | .fatalOutputDir _ _ => true
  | .fatalGetwd _ => false
  | .fatalWalk _ => false

/-- What a second walk does with what the first one left, seen from its
start state `s`: it ends as the first one did, in `r`; the file table, the
working directory and the log are what they were; nothing was renamed; and
the duplicate list has grown by records among which, when the walk ended
without an error, there is one for every supported file at or below one of
the paths `roots`. -/
def Replayed (E : Env) (cfg : Config) (roots : List Path) (r : Ret) (s : State)
    (res : State × Ret) : Prop :=
  res.2 = r ∧ res.1.world.fs = s.world.fs ∧ res.1.log = s.log ∧
    Quiet s.world res.1.world ∧
    ∃ l, res.1.duplicateFiles = s.duplicateFiles ++ l ∧
      (r = .nil → ∀ P ∈ roots, ∀ k d t, P <+: k → nodeAt s.world.fs k = some (.file d t) →
        fileExt E (strOf k) ∈ cfg.supportedFormats → recordOf E cfg k d t ∈ l)

/-- What the second walk finds outside the source root `R`, in the table
`fs2`, given what the first walk left there, in the table `fs1`: the
directories are directories and the paths that were taken are taken. -/
def Outside (R : Path) (fs1 fs2 : List (Path × Node)) : Prop :=
  ∀ k, ¬ R <+: k →
    (nodeAt fs1 k = some .dir → nodeAt fs2 k = some .dir) ∧
    (nodeAt fs1 k ≠ none → nodeAt fs2 k ≠ none)

/-- The call is an `os.Lstat` or a reading of a directory that failed: what
the walk hands to the callback as a traversal error. -/
def traversalFailure : Call × Option Error → Bool
  | (.lstat _, some _) => true
  | (.readdir _, some _) => true
  | _ => false

/-- The run in `exWorldMixed`. -/
def exMixedRun : Outcome := (main exEnvMixed 5 exWorldMixed).getD noOutcome

/-- The target path of `photo.JPG` and of `copy.jpg` (content `ABC`,
2023-10-05 14:30:00). -/
def exDest : GoString :=
  "/home/柠泽/2023-10/2023-10-05_143000_902fbdd2b1df0c4f70b4a5d23525e932.jpg".toList

/-- The same as a path. -/
def exDestPath : Path :=
  exPath ["home", "柠泽", "2023-10", "2023-10-05_143000_902fbdd2b1df0c4f70b4a5d23525e932.jpg"]

/-- An environment in which the target path `exDest` cannot be examined and
nothing can be renamed to it, as in a target directory without search
permission. -/
def exEnvNoAccess : Env :=
  { exEnv with
    statFault := fun k => decide (k = exDestPath)
    renameFault := fun _ b => decide (b = exDestPath) }

/-- An environment in which `os.Stat` of the target path `exDest` fails and
nothing else. -/
def exEnvNoStat : Env :=
  { exEnv with statFault := fun k => decide (k = exDestPath) }

/-- The state after the callback handled `photo.JPG` in `exWorldTaken`, the
target path not being accessible. -/
def exNoAccessStep : State :=
  (walkFn exEnvNoAccess exCfg exPhoto (some ⟨false, exTime⟩) none ⟨exWorldTaken, [], []⟩).1

/-- The state after the callback handled `photo.JPG` in `exWorldTaken`,
`os.Stat` of the target path failing. -/
def exNoStatStep : State :=
  (walkFn exEnvNoStat exCfg exPhoto (some ⟨false, exTime⟩) none ⟨exWorldTaken, [], []⟩).1

/-- The state after the callback handled `copy.jpg` in `exWorldTwo`,
`os.Stat` of the target path failing. -/
def exTwoFirst : State :=
  (walkFn exEnvNoStat exCfg exCopy (some ⟨false, exTimeLater⟩) none ⟨exWorldTwo, [], []⟩).1

/-- The state after the callback then handled `photo.JPG`. -/
def exTwoSecond : State :=
  (walkFn exEnvNoStat exCfg exPhoto (some ⟨false, exTime⟩) none exTwoFirst).1

/-! ## Paths: splitting, joining and cleaning -/

theorem splitSep_ne_nil (s : GoString) : splitSep s ≠ [] := by
  induction s with
  | nil => simp [splitSep]
  | cons c cs ih =>
    unfold splitSep
    split_ifs
    · simp
    · cases h : splitSep cs <;> simp

theorem splitSep_append_sep (a b : GoString) :
    splitSep (a ++ '/' :: b) = splitSep a ++ splitSep b := by
  induction a with
  | nil => simp [splitSep]
  | cons c cs ih =>
    by_cases hc : c = '/'
    · simp [splitSep, hc, ih]
    · have h1 : splitSep (c :: cs ++ '/' :: b) =
          match splitSep (cs ++ '/' :: b) with
          | [] => [[c]]
          | e :: es => (c :: e) :: es := by
        simp [splitSep, hc]
      have h2 : splitSep (c :: cs) =
          match splitSep cs with
          | [] => [[c]]
          | e :: es => (c :: e) :: es := by
        simp [splitSep, hc]
      rw [h1, h2, ih]
      cases h : splitSep cs with
      | nil => exact absurd h (splitSep_ne_nil cs)
      | cons e es => simp

theorem splitSep_noSep (e : GoString) (h : '/' ∉ e) : splitSep e = [e] := by
  induction e with
  | nil => simp [splitSep]
  | cons c cs ih =>
    simp only [List.mem_cons, not_or] at h
    have hc : c ≠ '/' := fun hh => h.1 hh.symm
    simp [splitSep, hc, ih h.2]

theorem noSep_of_mem_splitSep (s : GoString) : ∀ e ∈ splitSep s, '/' ∉ e := by
  induction s with
  | nil => simp [splitSep]
  | cons c cs ih =>
    by_cases hc : c = '/'
    · intro e he
      simp only [splitSep, hc, if_true, List.mem_cons] at he
      rcases he with rfl | he
      · simp
      · exact ih e he
    · intro e he
      have h2 : splitSep (c :: cs) =
          match splitSep cs with
          | [] => [[c]]
          | e :: es => (c :: e) :: es := by
        simp [splitSep, hc]
      rw [h2] at he
      cases h : splitSep cs with
      | nil => exact absurd h (splitSep_ne_nil cs)
      | cons e0 es =>
        rw [h] at he ih
        simp only [List.mem_cons] at he
        rcases he with rfl | he
        · have := ih e0 (by simp)
          simp only [List.mem_cons, not_or]
          exact ⟨fun hh => hc hh.symm, this⟩
        · exact ih e (by simp [he])

theorem joinSep_cons_cons (e e2 : GoString) (es : List GoString) :
    joinSep (e :: e2 :: es) = e ++ '/' :: joinSep (e2 :: es) := rfl

theorem splitSep_joinSep (es : List GoString) (hne : es ≠ [])
    (h : ∀ e ∈ es, '/' ∉ e) : splitSep (joinSep es) = es := by
  induction es with
  | nil => exact absurd rfl hne
  | cons e es ih =>
    cases es with
    | nil => simpa [joinSep] using splitSep_noSep e (h e (by simp))
    | cons e2 es =>
      rw [joinSep_cons_cons, splitSep_append_sep, splitSep_noSep e (h e (by simp)),
        ih (by simp) (fun x hx => h x (by simp [hx]))]
      rfl

theorem joinSep_append_singleton (es : List GoString) (hne : es ≠ []) (e : GoString) :
    joinSep (es ++ [e]) = joinSep es ++ '/' :: e := by
  induction es with
  | nil => exact absurd rfl hne
  | cons a es ih =>
    cases es with
    | nil => simp [joinSep]
    | cons b es =>
      have := ih (by simp)
      simp only [List.cons_append] at this ⊢
      rw [joinSep_cons_cons, this, joinSep_cons_cons]
      simp

theorem cleanStep_proper (r : Bool) (acc : List GoString) (e : GoString) (h : properName e) :
    cleanStep r acc e = e :: acc := by
  obtain ⟨h1, h2, h3, _⟩ := h
  simp [cleanStep, h1, h2, h3]

theorem cleanElems_append_proper (r : Bool) (es : List GoString) (e : GoString)
    (h : properName e) : cleanElems r (es ++ [e]) = cleanElems r es ++ [e] := by
  simp [cleanElems, List.foldl_append, cleanStep_proper r _ e h]

theorem cleanElems_proper (r : Bool) (es : List GoString) (h : ∀ e ∈ es, properName e) :
    cleanElems r es = es := by
  induction es using List.reverseRecOn with
  | nil => rfl
  | append_singleton es e ih =>
    rw [cleanElems_append_proper r es e (h e (by simp)), ih (fun x hx => h x (by simp [hx]))]

theorem stackOK_nil (r : Bool) : StackOK r [] := by
  simp [StackOK]

theorem stackOK_tail (r : Bool) (a : GoString) (acc : List GoString)
    (h : StackOK r (a :: acc)) : StackOK r acc := by
  obtain ⟨h1, h2, h3⟩ := h
  refine ⟨fun e he => h1 e (by simp [he]), fun hr hm => h2 hr (by simp [hm]), ?_⟩
  exact h3.tail

theorem cleanStep_drop (r : Bool) (acc : List GoString) (e : GoString)
    (h : e = [] ∨ e = ['.']) : cleanStep r acc e = acc := by
  simp [cleanStep, h]

theorem cleanStep_dd_nil (r : Bool) :
    cleanStep r [] ['.', '.'] = if r then [] else [['.', '.']] := by
  simp [cleanStep]

theorem cleanStep_dd_cons (r : Bool) (top : GoString) (rest : List GoString) :
    cleanStep r (top :: rest) ['.', '.'] =
      if top = ['.', '.'] then ['.', '.'] :: top :: rest else rest := by
  simp [cleanStep]

theorem cleanStep_push (r : Bool) (acc : List GoString) (e : GoString)
    (h1 : e ≠ []) (h2 : e ≠ ['.']) (h3 : e ≠ ['.', '.']) : cleanStep r acc e = e :: acc := by
  simp [cleanStep, h1, h2, h3]

theorem stackOK_cleanStep (r : Bool) (acc : List GoString) (e : GoString)
    (h : StackOK r acc) (he : '/' ∉ e) : StackOK r (cleanStep r acc e) := by
  by_cases h1 : e = [] ∨ e = ['.']
  · rw [cleanStep_drop r acc e h1]; exact h
  · simp only [not_or] at h1
    by_cases h2 : e = ['.', '.']
    · subst h2
      cases acc with
      | nil =>
        rw [cleanStep_dd_nil]
        cases r
        · simp [StackOK]
        · simpa using stackOK_nil true
      | cons top rest =>
        rw [cleanStep_dd_cons]
        by_cases h3 : top = ['.', '.']
        · rw [if_pos h3]
          subst h3
          obtain ⟨a1, a2, a3⟩ := h
          refine ⟨?_, ?_, ?_⟩
          · intro x hx
            simp only [List.mem_cons] at hx
            rcases hx with rfl | hx
            · simp
            · exact a1 x (by simpa using hx)
          · intro hr
            exact absurd (by simp) (a2 hr)
          · exact List.Chain'.cons (fun _ => rfl) a3
        · rw [if_neg h3]
          exact stackOK_tail r top rest h
    · rw [cleanStep_push r acc e h1.1 h1.2 h2]
      obtain ⟨a1, a2, a3⟩ := h
      refine ⟨?_, ?_, ?_⟩
      · intro x hx
        simp only [List.mem_cons] at hx
        rcases hx with rfl | hx
        · exact ⟨h1.1, h1.2, he⟩
        · exact a1 x hx
      · intro hr hm
        simp only [List.mem_cons] at hm
        rcases hm with hm | hm
        · exact h2 hm.symm
        · exact a2 hr hm
      · cases acc with
        | nil => simp
        | cons a acc => exact List.Chain'.cons (fun hh => absurd hh h2) a3

theorem stackOK_foldl (r : Bool) (es : List GoString) :
    ∀ acc, StackOK r acc → (∀ e ∈ es, '/' ∉ e) →
      StackOK r (es.foldl (cleanStep r) acc) := by
  induction es with
  | nil => intro acc h _; exact h
  | cons e es ih =>
    intro acc h hs
    simp only [List.foldl_cons]
    exact ih _ (stackOK_cleanStep r acc e h (hs e (by simp))) (fun x hx => hs x (by simp [hx]))

theorem foldl_cleanStep_stackOK (r : Bool) (es : List GoString) :
    ∀ acc, StackOK r (es.reverse ++ acc) → es.foldl (cleanStep r) acc = es.reverse ++ acc := by
  induction es with
  | nil => intro acc _; rfl
  | cons e es ih =>
    intro acc h
    have h' : StackOK r (es.reverse ++ e :: acc) := by simpa using h
    have hstep : cleanStep r acc e = e :: acc := by
      obtain ⟨a1, a2, a3⟩ := h'
      have he := a1 e (by simp)
      by_cases h2 : e = ['.', '.']
      · subst h2
        have hr : r = false := by
          cases r
          · rfl
          · exact absurd (by simp) (a2 rfl)
        have hc : List.Chain' (fun x y : GoString => x = ['.', '.'] → y = ['.', '.'])
            (['.', '.'] :: acc) := a3.right_of_append
        cases acc with
        | nil => rw [cleanStep_dd_nil, hr]; rfl
        | cons top rest =>
          have : top = ['.', '.'] := (List.chain'_cons.mp hc).1 rfl
          rw [cleanStep_dd_cons, if_pos this]
      · exact cleanStep_push r acc e he.1 he.2.1 h2
    simp only [List.foldl_cons, hstep]
    rw [ih (e :: acc) h']
    simp

theorem stackOK_cleanElems (r : Bool) (s : GoString) :
    StackOK r (cleanElems r (splitSep s)).reverse := by
  simp only [cleanElems, List.reverse_reverse]
  exact stackOK_foldl r _ [] (stackOK_nil r) (noSep_of_mem_splitSep s)

theorem cleanElems_of_stackOK (r : Bool) (es : List GoString) (h : StackOK r es.reverse) :
    cleanElems r es = es := by
  simp [cleanElems, foldl_cleanStep_stackOK r es [] (by simpa using h)]

theorem cleanElems_nil_cons (r : Bool) (es : List GoString) :
    cleanElems r ([] :: es) = cleanElems r es := by
  simp [cleanElems, cleanStep]

theorem isRooted_joinSep (es : List GoString) (h : ∀ e ∈ es, e ≠ [] ∧ '/' ∉ e) :
    isRooted (joinSep es) = false := by
  cases es with
  | nil => rfl
  | cons e es =>
    have he := h e (by simp)
    cases e with
    | nil => exact absurd rfl he.1
    | cons c cs =>
      have hc : c ≠ '/' := fun hh => he.2 (by simp [hh])
      cases es with
      | nil => simp [joinSep, isRooted, hc]
      | cons e2 es => simp [joinSep, isRooted, hc]

theorem isRooted_renderPath (r : Bool) (es : List GoString) (h : StackOK r es.reverse) :
    isRooted (renderPath r es) = r := by
  cases r
  · simp only [renderPath, Bool.false_eq_true, if_false]
    split_ifs
    · rfl
    · exact isRooted_joinSep es (fun e he => by
        have := h.1 e (by simpa using he); exact ⟨this.1, this.2.2⟩)
  · simp [renderPath, isRooted]

/-- The elements of a rendered clean path are the elements it was rendered
from. -/
theorem elems_renderPath (r : Bool) (es : List GoString) (h : StackOK r es.reverse) :
    cleanElems r (splitSep (renderPath r es)) = es := by
  have hsep : ∀ e ∈ es, '/' ∉ e := fun e he => (h.1 e (by simpa using he)).2.2
  cases r
  · simp only [renderPath, Bool.false_eq_true, if_false]
    split_ifs with h0
    · subst h0; simp [splitSep, cleanElems, cleanStep]
    · rw [splitSep_joinSep es h0 hsep]
      exact cleanElems_of_stackOK false es h
  · simp only [renderPath, if_true]
    have : splitSep ('/' :: joinSep es) = [] :: splitSep (joinSep es) := by simp [splitSep]
    rw [this, cleanElems_nil_cons]
    by_cases h0 : es = []
    · subst h0; simp [joinSep, splitSep, cleanElems, cleanStep]
    · rw [splitSep_joinSep es h0 hsep]
      exact cleanElems_of_stackOK true es h

theorem isRooted_Clean (x : GoString) : isRooted (Clean x) = isRooted x := by
  unfold Clean
  split_ifs with h
  · subst h; rfl
  · exact isRooted_renderPath _ _ (stackOK_cleanElems _ x)

/-- Cleaning keeps the elements of a path. -/
theorem elems_Clean (x : GoString) :
    cleanElems (isRooted x) (splitSep (Clean x)) = cleanElems (isRooted x) (splitSep x) := by
  unfold Clean
  split_ifs with h
  · subst h; simp [splitSep, cleanElems, cleanStep, isRooted]
  · exact elems_renderPath _ _ (stackOK_cleanElems _ x)

theorem joinSep_ne_nil (es : List GoString) (hne : es ≠ []) (h : ∀ e ∈ es, e ≠ []) :
    joinSep es ≠ [] := by
  cases es with
  | nil => exact absurd rfl hne
  | cons e es =>
    cases es with
    | nil => simpa [joinSep] using h e (by simp)
    | cons e2 es => simp [joinSep, h e (by simp)]

theorem renderPath_ne_nil (r : Bool) (es : List GoString) (h : ∀ e ∈ es, e ≠ []) :
    renderPath r es ≠ [] := by
  unfold renderPath
  split_ifs with h1 h2
  · simp
  · simp
  · exact joinSep_ne_nil es h2 h

theorem Clean_ne_nil (x : GoString) : Clean x ≠ [] := by
  unfold Clean
  split_ifs
  · simp
  · exact renderPath_ne_nil _ _ (fun e he =>
      ((stackOK_cleanElems (isRooted x) x).1 e (by simpa using he)).1)

theorem Clean_eq_render (x : GoString) (h : x ≠ []) :
    Clean x = renderPath (isRooted x) (cleanElems (isRooted x) (splitSep x)) := by
  simp [Clean, h]

/-- `filepath.Clean` is idempotent. -/
theorem Clean_idem (x : GoString) : Clean (Clean x) = Clean x := by
  rw [Clean_eq_render (Clean x) (Clean_ne_nil x), isRooted_Clean, elems_Clean]
  by_cases h : x = []
  · subst h; rfl
  · rw [Clean_eq_render x h]

theorem Join_pair (p n : GoString) (hp : p ≠ []) : Join [p, n] = Clean (p ++ '/' :: n) := by
  simp [Join, hp, joinSep]

theorem isRooted_append (x y : GoString) (hx : x ≠ []) : isRooted (x ++ y) = isRooted x := by
  cases x with
  | nil => exact absurd rfl hx
  | cons c cs => rfl

theorem elems_append_proper (r : Bool) (x n : GoString) (hn : properName n) :
    cleanElems r (splitSep (x ++ '/' :: n)) = cleanElems r (splitSep x) ++ [n] := by
  rw [splitSep_append_sep, splitSep_noSep n hn.2.2.2, cleanElems_append_proper r _ n hn]

theorem isRooted_Join (p n : GoString) (hp : isRooted p = true) :
    isRooted (Join [p, n]) = true := by
  have hne : p ≠ [] := by rintro rfl; simp [isRooted] at hp
  rw [Join_pair p n hne, isRooted_Clean, isRooted_append p _ hne, hp]

/-- The elements of a joined path: those of the directory, then the name. -/
theorem elems_Join (p n : GoString) (hp : p ≠ []) (hn : properName n) :
    cleanElems (isRooted p) (splitSep (Join [p, n])) =
      cleanElems (isRooted p) (splitSep p) ++ [n] := by
  rw [Join_pair p n hp]
  have h := elems_Clean (p ++ '/' :: n)
  rw [isRooted_append p _ hp] at h
  rw [h, elems_append_proper _ p n hn]

theorem resolve_rooted (cwd : Path) (x : GoString) (h : isRooted x = true) :
    resolve cwd x = cleanElems true (splitSep x) := by
  simp [resolve, h]

/-- Joining a proper name to a rooted path adds one element to what the
path resolves to. -/
theorem resolve_Join (cwd : Path) (p n : GoString) (hp : isRooted p = true)
    (hn : properName n) : resolve cwd (Join [p, n]) = resolve cwd p ++ [n] := by
  have hne : p ≠ [] := by rintro rfl; simp [isRooted] at hp
  rw [resolve_rooted cwd _ (isRooted_Join p n hp), resolve_rooted cwd p hp]
  have := elems_Join p n hne hn
  rwa [hp] at this

theorem renderPath_append_singleton (r : Bool) (es : List GoString) (hne : es ≠ [])
    (n : GoString) : renderPath r (es ++ [n]) = renderPath r es ++ '/' :: n := by
  cases r
  · simp [renderPath, hne, joinSep_append_singleton es hne n]
  · simp [renderPath, joinSep_append_singleton es hne n]

/-- Joining a proper name to a clean path other than `/` and `.` appends the
separator and the name. -/
theorem Join_clean (p n : GoString) (hc : Clean p = p) (h1 : p ≠ ['/']) (h2 : p ≠ ['.'])
    (hn : properName n) : Join [p, n] = p ++ '/' :: n := by
  have hne : p ≠ [] := by rw [← hc]; exact Clean_ne_nil p
  have hp : p = renderPath (isRooted p) (cleanElems (isRooted p) (splitSep p)) := by
    conv_lhs => rw [← hc, Clean_eq_render p hne]
  have hes : cleanElems (isRooted p) (splitSep p) ≠ [] := by
    intro h0
    rw [h0] at hp
    cases hr : isRooted p
    · rw [hr] at hp; exact h2 (by simpa [renderPath] using hp)
    · rw [hr] at hp; exact h1 (by simpa [renderPath, joinSep] using hp)
  rw [Join_pair p n hne, Clean_eq_render _ (by simp), isRooted_append p _ hne,
    elems_append_proper _ p n hn, renderPath_append_singleton _ _ hes n, ← hp]

/-- A path joined with a proper name is clean and is neither `/` nor `.`. -/
theorem Join_shape (p n : GoString) (hp : p ≠ []) (hn : properName n) :
    Clean (Join [p, n]) = Join [p, n] ∧ Join [p, n] ≠ ['/'] ∧ Join [p, n] ≠ ['.'] := by
  have he := elems_Join p n hp hn
  have hr : isRooted (Join [p, n]) = isRooted p := by
    rw [Join_pair p n hp, isRooted_Clean, isRooted_append p _ hp]
  refine ⟨by rw [Join_pair p n hp, Clean_idem], ?_, ?_⟩
  · intro h
    rw [h] at he hr
    rw [← hr] at he
    simp [splitSep, cleanElems, cleanStep, isRooted] at he
  · intro h
    rw [h] at he hr
    rw [← hr] at he
    simp [splitSep, cleanElems, cleanStep, isRooted] at he

/-! ## Dates, digests and the names built from them -/

theorem appendInt_eq (b : GoString) (x : Int) (w : Nat) : appendInt b x w = b ++ intText x w := by
  simp [appendInt, intText]

theorem digitChar_mem (n : Nat) : digitChar n ∈ "0123456789".toList := by
  have h : n % 10 < 10 := Nat.mod_lt n (by decide)
  unfold digitChar
  interval_cases n % 10 <;> decide

theorem digitChar_mod (n : Nat) : digitChar (n % 10) = digitChar n := by
  simp [digitChar]

theorem decDigits_chars (f : Nat) : ∀ n, ∀ c ∈ decDigits f n, c ∈ "0123456789".toList := by
  induction f with
  | zero => intro n c hc; simp [decDigits] at hc
  | succ f ih =>
    intro n c hc
    unfold decDigits at hc
    split_ifs at hc
    · simp only [List.mem_singleton] at hc; subst hc; exact digitChar_mem n
    · simp only [List.mem_append, List.mem_singleton] at hc
      rcases hc with hc | hc
      · exact ih _ c hc
      · subst hc; exact digitChar_mem _

theorem intText_chars (x : Int) (w : Nat) : ∀ c ∈ intText x w, c ∈ dateChars := by
  intro c hc
  simp only [intText, List.mem_append, List.mem_replicate] at hc
  rcases hc with (hc | hc) | hc
  · split_ifs at hc
    · simp only [List.mem_singleton] at hc; subst hc; decide
    · simp at hc
  · rw [hc.2]; decide
  · have := decDigits_chars _ _ c hc
    revert this
    generalize c = d
    intro hd
    simp only [dateChars]
    have : ∀ d ∈ "0123456789".toList, d ∈ "0123456789-_".toList := by decide
    exact this d hd

theorem intText_length (x : Int) (w : Nat) : w ≤ (intText x w).length := by
  simp only [intText, List.length_append, List.length_replicate]
  omega

theorem decDigits_of_lt (f n : Nat) (hf : 0 < f) (h : n < 10) :
    decDigits f n = [digitChar n] := by
  obtain ⟨k, rfl⟩ : ∃ k, f = k + 1 := ⟨f - 1, by omega⟩
  simp [decDigits, h]

theorem decDigits_of_ge (f n : Nat) (hf : 0 < f) (h : 10 ≤ n) :
    decDigits f n = decDigits (f - 1) (n / 10) ++ [digitChar n] := by
  obtain ⟨k, rfl⟩ : ∃ k, f = k + 1 := ⟨f - 1, by omega⟩
  have : ¬ n < 10 := by omega
  simp [decDigits, this, digitChar_mod]

theorem digitChar_zero_of_lt (n k : Nat) (h : n < k) : digitChar (n / k) = '0' := by
  rw [Nat.div_eq_of_lt h]; rfl

/-- A year from 0 to 9999 is written with exactly four digits. -/
theorem intText_four (y : Int) (h0 : 0 ≤ y) (h1 : y ≤ 9999) :
    intText y 4 = [digitChar (y.natAbs / 1000), digitChar (y.natAbs / 100),
      digitChar (y.natAbs / 10), digitChar y.natAbs] := by
  have hneg : ¬ y < 0 := by omega
  have hn : y.natAbs < 10000 := by omega
  simp only [intText, hneg, if_false, List.nil_append]
  generalize y.natAbs = n at hn ⊢
  by_cases c1 : n < 10
  · rw [decDigits_of_lt _ n (by omega) c1]
    simp [digitChar_zero_of_lt n 1000 (by omega), digitChar_zero_of_lt n 100 (by omega),
      digitChar_zero_of_lt n 10 (by omega), List.replicate]
  · rw [decDigits_of_ge _ n (by omega) (by omega)]
    by_cases c2 : n / 10 < 10
    · rw [decDigits_of_lt _ _ (by omega) c2]
      simp [digitChar_zero_of_lt n 1000 (by omega), digitChar_zero_of_lt n 100 (by omega),
        List.replicate]
    · rw [decDigits_of_ge _ _ (by omega) (by omega)]
      by_cases c3 : n / 10 / 10 < 10
      · rw [decDigits_of_lt _ _ (by omega) c3]
        simp [digitChar_zero_of_lt n 1000 (by omega), List.replicate, Nat.div_div_eq_div_mul]
      · rw [decDigits_of_ge _ _ (by omega) (by omega)]
        have c4 : n / 10 / 10 / 10 < 10 := by omega
        rw [decDigits_of_lt _ _ (by omega) c4]
        simp [List.replicate, Nat.div_div_eq_div_mul]

/-- A number below 100 is written with exactly two digits. -/
theorem intText_two (m : Nat) (h : m < 100) :
    intText (m : Int) 2 = [digitChar (m / 10), digitChar m] := by
  have hneg : ¬ (m : Int) < 0 := by omega
  simp only [intText, hneg, if_false, List.nil_append, Int.natAbs_ofNat]
  by_cases c1 : m < 10
  · rw [decDigits_of_lt _ m (by omega) c1]
    simp [digitChar_zero_of_lt m 10 (by omega), List.replicate]
  · rw [decDigits_of_ge _ m (by omega) (by omega)]
    have c2 : m / 10 < 10 := by omega
    rw [decDigits_of_lt _ _ (by omega) c2]
    simp [List.replicate]

/-- The formatted file date, field by field. -/
theorem Format_fileDate (t : Time) :
    Format t fileDateLayout =
      intText t.year 4 ++ '-' :: intText t.month 2 ++ '-' :: intText t.day 2 ++
        '_' :: intText t.hour 2 ++ intText t.minute 2 ++ intText t.second 2 := by
  simp [Format, fileDateLayout, appendChunk, appendInt_eq]

theorem Format_fileDate_length (t : Time) : 17 ≤ (Format t fileDateLayout).length := by
  rw [Format_fileDate]
  have h1 := intText_length t.year 4
  have h2 := intText_length t.month 2
  have h3 := intText_length t.day 2
  have h4 := intText_length t.hour 2
  have h5 := intText_length t.minute 2
  have h6 := intText_length t.second 2
  simp only [List.length_append, List.length_cons]
  omega

theorem Format_fileDate_chars (t : Time) : ∀ c ∈ Format t fileDateLayout, c ∈ dateChars := by
  intro c hc
  rw [Format_fileDate] at hc
  simp only [List.mem_append, List.mem_cons] at hc
  have hd : '-' ∈ dateChars := by decide
  have hu : '_' ∈ dateChars := by decide
  rcases hc with ((((hc | rfl | hc) | rfl | hc) | rfl | hc) | hc) | hc
  all_goals first | exact intText_chars _ _ c hc | exact hd | exact hu

theorem sliceTo_fileDate (t : Time) :
    sliceTo (Format t fileDateLayout) 7 = some ((Format t fileDateLayout).take 7) := by
  have := Format_fileDate_length t
  simp only [sliceTo]
  rw [if_pos (by omega)]

theorem hexDigit_mem (n : Nat) (h : n < 16) : hexDigit n ∈ hexChars := by
  interval_cases n <;> decide

theorem hexEncode_chars (bs : List Nat) : ∀ c ∈ hexEncode bs, c ∈ hexChars := by
  intro c hc
  simp only [hexEncode, List.mem_flatMap, List.mem_cons, List.mem_singleton] at hc
  obtain ⟨b, _, hc⟩ := hc
  rcases hc with rfl | rfl | hc
  · exact hexDigit_mem _ (Nat.mod_lt _ (by decide))
  · exact hexDigit_mem _ (Nat.mod_lt _ (by decide))
  · simp at hc

theorem hexEncode_length (bs : List Nat) : (hexEncode bs).length = 2 * bs.length := by
  induction bs with
  | nil => rfl
  | cons b bs ih =>
    have : hexEncode (b :: bs) =
        hexDigit (b / 16 % 16) :: hexDigit (b % 16) :: hexEncode bs := by
      simp [hexEncode]
    rw [this]
    simp only [List.length_cons, ih]
    omega

theorem md5Sum_length (data : List Byte) : (md5Sum data).length = 16 := by
  simp [md5Sum, leBytes]

/-- The hexadecimal MD5 digest has 32 characters. -/
theorem hexDigest_length (data : List Byte) : (hexEncode (md5Sum data)).length = 32 := by
  rw [hexEncode_length, md5Sum_length]

theorem isSupported_iff (formats : List GoString) (ext : GoString) :
    isSupported formats ext = true ↔ ext ∈ formats := by
  simp only [isSupported, List.any_eq_true, decide_eq_true_eq]
  constructor
  · rintro ⟨f, hf, rfl⟩; exact hf
  · intro h; exact ⟨ext, h, rfl⟩

theorem take7_length (t : Time) : ((Format t fileDateLayout).take 7).length = 7 := by
  have := Format_fileDate_length t
  simp only [List.length_take]
  omega

/-- The year-month cut from a file date is a proper directory name. -/
theorem yearMonth_proper (t : Time) : properName ((Format t fileDateLayout).take 7) := by
  have hl := take7_length t
  have hs : '/' ∉ dateChars := by decide
  refine ⟨?_, ?_, ?_, ?_⟩
  · intro h; rw [h] at hl; simp at hl
  · intro h; rw [h] at hl; simp at hl
  · intro h; rw [h] at hl; simp at hl
  · intro h
    exact hs (Format_fileDate_chars t _ (List.mem_of_mem_take h))

theorem supported_noSep : ∀ e ∈ supportedFormats, '/' ∉ e := by decide

/-- The name given to an archived file is a proper file name. -/
theorem newFileName_proper (t : Time) (data : List Byte) (ext : GoString)
    (he : ext ∈ supportedFormats) :
    properName (newFileName (Format t fileDateLayout) (hexEncode (md5Sum data)) ext) := by
  have hl := Format_fileDate_length t
  have hlen : 2 < (newFileName (Format t fileDateLayout) (hexEncode (md5Sum data)) ext).length := by
    simp only [newFileName, List.length_append, List.length_cons]
    omega
  refine ⟨?_, ?_, ?_, ?_⟩
  · intro h; rw [h] at hlen; simp at hlen
  · intro h; rw [h] at hlen; simp at hlen
  · intro h; rw [h] at hlen; simp at hlen
  · intro h
    simp only [newFileName, List.mem_append, List.mem_cons] at h
    have hs : '/' ∉ dateChars := by decide
    have hx : '/' ∉ hexChars := by decide
    rcases h with (h | h | h) | h | h
    · exact hs (Format_fileDate_chars t _ h)
    · exact absurd h (by decide)
    · exact hx (hexEncode_chars _ _ h)
    · exact absurd h (by decide)
    · exact supported_noSep ext he h

theorem extScan_dot (a : GoString) : ∀ (b acc : GoString), '.' ∉ a → '/' ∉ a →
    extScan (a ++ '.' :: b) acc = '.' :: (a.reverse ++ acc) := by
  induction a with
  | nil => intro b acc _ _; simp [extScan]
  | cons c cs ih =>
    intro b acc h1 h2
    simp only [List.mem_cons, not_or] at h1 h2
    have c1 : c ≠ '/' := fun h => h2.1 h.symm
    have c2 : c ≠ '.' := fun h => h1.1 h.symm
    have hstep : extScan (c :: cs ++ '.' :: b) acc = extScan (cs ++ '.' :: b) (c :: acc) := by
      simp [extScan, c1, c2]
    rw [hstep, ih b (c :: acc) h1.2 h2.2]
    simp

/-- The extension of a path that ends in a dot and a text without dot or
separator is that dot and text. -/
theorem Ext_dot (pre e : GoString) (h1 : '.' ∉ e) (h2 : '/' ∉ e) :
    Ext (pre ++ '.' :: e) = '.' :: e := by
  have : (pre ++ '.' :: e).reverse = e.reverse ++ '.' :: pre.reverse := by simp
  rw [Ext, this, extScan_dot e.reverse _ _ (by simpa using h1) (by simpa using h2)]
  simp

theorem TrimPrefix_dot (e : GoString) : TrimPrefix ('.' :: e) ['.'] = e := by
  simp [TrimPrefix, List.isPrefixOf]

theorem ToLower_nil (u : Char → Char) : ToLower u [] = [] := by
  simp [ToLower, isASCII, hasUpper]

theorem fileExt_dot (E : Env) (pre e : GoString) (h1 : '.' ∉ e) (h2 : '/' ∉ e) :
    fileExt E (pre ++ '.' :: e) = ToLower E.unicodeToLower e := by
  rw [fileExt, Ext_dot pre e h1 h2, TrimPrefix_dot]

theorem fileExt_of_Ext_nil (E : Env) (path : GoString) (h : Ext path = []) :
    fileExt E path = [] := by
  rw [fileExt, h]; simp [TrimPrefix, List.isPrefixOf, ToLower_nil]

/-! ## The trace only grows -/

theorem Extends.same (w : World) : Extends w w := ⟨rfl, [], by simp⟩

theorem Extends.chain {a b c : World} (h1 : Extends a b) (h2 : Extends b c) : Extends a c := by
  obtain ⟨c1, l1, e1⟩ := h1
  obtain ⟨c2, l2, e2⟩ := h2
  exact ⟨c2.trans c1, l1 ++ l2, by rw [e2, e1, List.append_assoc]⟩

theorem extends_call (w : World) (c : Call) (e : Option Error) : Extends w (w.call c e) :=
  ⟨rfl, [(c, e)], rfl⟩

theorem extends_setFs (w : World) (fs : List (Path × Node)) : Extends w { w with fs := fs } :=
  ⟨rfl, [], by simp⟩

theorem Stat_extends (E : Env) (name : GoString) (w : World) :
    Extends w (Stat E name w).1 := by
  unfold Stat
  split_ifs
  · exact extends_call _ _ _
  · split <;> exact extends_call _ _ _

theorem Lstat_extends (E : Env) (name : GoString) (w : World) : Extends w (Lstat E name w).1 := by
  unfold Lstat; split_ifs
  · exact extends_call _ _ _
  · split <;> exact extends_call _ _ _

theorem Mkdir_extends (E : Env) (p : Path) (w : World) : Extends w (Mkdir E p w).1 := by
  unfold Mkdir; split_ifs
  · exact extends_call _ _ _
  · split
    · exact extends_call _ _ _
    · split
      · exact extends_call _ _ _
      · exact extends_call _ _ _
      · exact ⟨rfl, [(.mkdir p, none)], rfl⟩

theorem mkdirAllRev_extends (E : Env) (r : List GoString) :
    ∀ w, Extends w (mkdirAllRev E r w).1 := by
  induction r with
  | nil => intro w; exact Extends.same w
  | cons n r ih =>
    intro w
    unfold mkdirAllRev
    split
    · exact Extends.same w
    · exact Extends.same w
    · have h1 := ih w
      split
      · next w1 e he => rw [he] at h1; exact h1
      · next w1 he =>
        rw [he] at h1
        have h2 := Mkdir_extends E (n :: r).reverse w1
        split
        · next w2 hm => rw [hm] at h2; exact h1.chain h2
        · next w2 e hm =>
          rw [hm] at h2
          split <;> exact h1.chain h2

theorem MkdirAll_extends (E : Env) (path : GoString) (w : World) :
    Extends w (MkdirAll E path w).1 := by
  unfold MkdirAll
  split_ifs
  · exact extends_call _ _ _
  · exact (mkdirAllRev_extends E _ w).chain (extends_call _ _ _)

theorem Rename_extends (E : Env) (a b : GoString) (w : World) : Extends w (Rename E a b w).1 := by
  unfold Rename
  split_ifs
  · exact extends_call _ _ _
  · exact extends_call _ _ _
  · split
    · exact extends_call _ _ _
    · exact ⟨rfl, [(.rename a b, none)], rfl⟩

theorem readDirNames_extends (E : Env) (d : GoString) (w : World) :
    Extends w (readDirNames E d w).1 := by
  unfold readDirNames
  split_ifs
  · exact extends_call _ _ _
  · split <;> exact extends_call _ _ _

/-- The hash starts by opening the file: that call is the next in the trace. -/
theorem computeMD5_calls (E : Env) (p : GoString) (w : World) :
    (computeMD5 E p w).1.cwd = w.cwd ∧ (computeMD5 E p w).1.fs = w.fs ∧
    ∃ e l, (computeMD5 E p w).1.calls = w.calls ++ (Call.open p, e) :: l := by
  unfold computeMD5
  by_cases h1 : E.openFault (resolve w.cwd p) = true
  · rw [if_pos h1]; exact ⟨rfl, rfl, _, [], rfl⟩
  · rw [if_neg h1]
    cases hn : w.node p with
    | none => exact ⟨rfl, rfl, _, [], rfl⟩
    | some nd =>
      cases nd with
      | dir => exact ⟨rfl, rfl, none, [(.read p, some .isDir)], by simp [World.call]⟩
      | file data t =>
        by_cases h2 : E.readFault (resolve w.cwd p) = true
        · simp only [h2, if_true]
          exact ⟨rfl, rfl, none, [(.read p, some .denied)], by simp [World.call]⟩
        · simp only [h2, if_false]
          exact ⟨rfl, rfl, none, [(.read p, none)], by simp [World.call]⟩

theorem computeMD5_extends (E : Env) (p : GoString) (w : World) :
    Extends w (computeMD5 E p w).1 := by
  obtain ⟨h1, _, e, l, h3⟩ := computeMD5_calls E p w
  exact ⟨h1, _, h3⟩

/-- Placing a file never returns an error and never panics. -/
theorem placeFile_ret (E : Env) (cfg : Config) (path name ym : GoString) (s : State) :
    (placeFile E cfg path name ym s).2 = .nil := by
  unfold placeFile
  split
  · rfl
  · split
    · rfl
    · split <;> rfl

theorem placeFile_extends (E : Env) (cfg : Config) (path name ym : GoString) (s : State) :
    Extends s.world (placeFile E cfg path name ym s).1.world := by
  unfold placeFile
  have h1 := MkdirAll_extends E (targetDir cfg ym) s.world
  split
  · next w2 e he => rw [he] at h1; exact h1
  · next w2 he =>
    rw [he] at h1
    have h2 := Stat_extends E (targetPath cfg ym name) w2
    split
    · next w3 _ hs => rw [hs] at h2; exact h1.chain h2
    · next w3 _ hs =>
      rw [hs] at h2
      have h3 := Rename_extends E path (targetPath cfg ym name) w3
      split
      · next w4 e hr => rw [hr] at h3; exact (h1.chain h2).chain h3
      · next w4 hr => rw [hr] at h3; exact (h1.chain h2).chain h3

/-! ## The walk callback: classification and naming -/

theorem walkFn_noPanic (E : Env) (cfg : Config) (path : GoString) (info : FileInfo)
    (err : Option Error) (s : State) : (walkFn E cfg path (some info) err s).2 ≠ .goPanic := by
  unfold walkFn
  cases err with
  | some e => simp
  | none =>
    simp only
    split_ifs
    · simp
    · simp
    · split
      · simp
      · rw [sliceTo_fileDate]
        simp only
        rw [placeFile_ret]
        simp

/-- C10: the slice `fileDate[:7]` of line 87 is always in range.  For every
modification time the formatted date has at least 7 characters, so the slice
succeeds and the callback never panics; the slice is a prefix of the new file
name; and for a year from 0 to 9999 the date has 17 characters and the slice
is the year in four digits (thousands, hundreds, tens, units), a hyphen, and
the month in two digits. -/
theorem C10_yearMonth_slice_in_range (t : Time) :
    7 ≤ (Format t fileDateLayout).length ∧
    sliceTo (Format t fileDateLayout) 7 = some ((Format t fileDateLayout).take 7) ∧
    (∀ (E : Env) (cfg : Config) (path : GoString) (isDir : Bool) (err : Option Error)
      (s : State), (walkFn E cfg path (some ⟨isDir, t⟩) err s).2 ≠ Ret.goPanic) ∧
    (∀ fileMD5 ext : GoString,
      (Format t fileDateLayout).take 7 <+: newFileName (Format t fileDateLayout) fileMD5 ext) ∧
    (0 ≤ t.year → t.year ≤ 9999 → t.wellFormed →
      (Format t fileDateLayout).length = 17 ∧
      sliceTo (Format t fileDateLayout) 7 =
        some [digitChar (t.year.natAbs / 1000), digitChar (t.year.natAbs / 100),
          digitChar (t.year.natAbs / 10), digitChar t.year.natAbs, '-',
          digitChar (t.month / 10), digitChar t.month]) := by
  refine ⟨by have := Format_fileDate_length t; omega, sliceTo_fileDate t,
    fun E cfg path isDir err s => walkFn_noPanic E cfg path _ err s, ?_, ?_⟩
  · intro fileMD5 ext
    unfold newFileName
    exact (List.take_prefix 7 (Format t fileDateLayout)).trans
      ((List.prefix_append (Format t fileDateLayout) _).trans (List.prefix_append _ _))
  · intro h0 h1 hw
    obtain ⟨_, hm, _, hd, hh, hmi, hs, _⟩ := hw
    rw [sliceTo_fileDate, Format_fileDate, intText_four t.year h0 h1,
      intText_two t.month (by omega), intText_two t.day (by omega),
      intText_two t.hour (by omega), intText_two t.minute (by omega),
      intText_two t.second (by omega)]
    simp

/-- C10 at the time 2023-10-05 14:30:00: the date has 17 characters and the
slice is `2023-10`. -/
theorem C10_yearMonth_slice_witness :
    (Format exTime fileDateLayout).length = 17 ∧
    sliceTo (Format exTime fileDateLayout) 7 =
      some [digitChar (exTime.year.natAbs / 1000), digitChar (exTime.year.natAbs / 100),
        digitChar (exTime.year.natAbs / 10), digitChar exTime.year.natAbs, '-',
        digitChar (exTime.month / 10), digitChar exTime.month] ∧
    [digitChar (exTime.year.natAbs / 1000), digitChar (exTime.year.natAbs / 100),
        digitChar (exTime.year.natAbs / 10), digitChar exTime.year.natAbs, '-',
        digitChar (exTime.month / 10), digitChar exTime.month] = "2023-10".toList :=
  ⟨((C10_yearMonth_slice_in_range exTime).2.2.2.2 (by decide) (by decide) (by decide)).1,
   ((C10_yearMonth_slice_in_range exTime).2.2.2.2 (by decide) (by decide) (by decide)).2,
   by decide⟩

theorem walkFn_unsupported (E : Env) (cfg : Config) (path : GoString) (info : FileInfo)
    (s : State) (h : info.isDir = true ∨ fileExt E path ∉ cfg.supportedFormats) :
    walkFn E cfg path (some info) none s = (s, .nil) := by
  unfold walkFn
  simp only
  by_cases hd : info.isDir = true
  · rw [if_pos hd]
  · rw [if_neg hd]
    have hs : fileExt E path ∉ cfg.supportedFormats := h.resolve_left hd
    have : isSupported cfg.supportedFormats (fileExt E path) = false := by
      rw [Bool.eq_false_iff]; intro hh; exact hs ((isSupported_iff _ _).mp hh)
    rw [this]; rfl

/-- The callback on a supported regular file: the hash, and unless it fails
the placing of the file under its new name. -/
theorem walkFn_supported (E : Env) (cfg : Config) (path : GoString) (info : FileInfo)
    (s : State) (hd : info.isDir = false) (hs : fileExt E path ∈ cfg.supportedFormats) :
    walkFn E cfg path (some info) none s =
      match computeMD5 E path s.world with
      | (w1, .error e) => ({ s with world := w1, log := s.log ++ [.md5Failed path e] }, .nil)
      | (w1, .ok fileMD5) =>
        placeFile E cfg path
          (newFileName (Format info.modTime fileDateLayout) fileMD5 (fileExt E path))
          ((Format info.modTime fileDateLayout).take 7) { s with world := w1 } := by
  unfold walkFn
  simp only [hd, (isSupported_iff _ _).mpr hs, Bool.false_eq_true, if_false, Bool.not_true]
  rcases computeMD5 E path s.world with ⟨w1, e | m⟩
  · rfl
  · simp only [sliceTo_fileDate]

theorem walkFn_extends (E : Env) (cfg : Config) (path : GoString) (info : Option FileInfo)
    (err : Option Error) (s : State) :
    Extends s.world (walkFn E cfg path info err s).1.world := by
  cases err with
  | some e => exact Extends.same _
  | none =>
    cases info with
    | none => exact Extends.same _
    | some info =>
      by_cases h : info.isDir = true ∨ fileExt E path ∉ cfg.supportedFormats
      · rw [walkFn_unsupported E cfg path info s h]; exact Extends.same _
      · simp only [not_or, not_not, Bool.not_eq_true] at h
        rw [walkFn_supported E cfg path info s h.1 h.2]
        have h1 := computeMD5_extends E path s.world
        split
        · next w1 e he => rw [he] at h1; exact h1
        · next w1 m he =>
          rw [he] at h1
          exact h1.chain (placeFile_extends E cfg path _ _ _)

theorem ToLower_ascii (u : Char → Char) (e : GoString) (h : isASCII e = true) :
    ToLower u e = e.map lowerASCII := by
  simp only [ToLower, h, if_true]
  split_ifs with hu
  · rfl
  · induction e with
    | nil => rfl
    | cons c cs ih =>
      simp only [hasUpper, List.any_cons, Bool.or_eq_true, not_or, decide_eq_true_eq] at hu
      simp only [isASCII, List.all_cons, Bool.and_eq_true] at h
      have hc : lowerASCII c = c := by simp [lowerASCII, hu.1]
      have := ih h.2 (by simpa [hasUpper] using hu.2)
      simp only [List.map_cons, hc]
      rw [← this]

theorem mem_calls_of_extends {w w1 : World} (h : Extends w w1) (c : Call × Option Error)
    (hc : c ∈ w.calls) : c ∈ w1.calls := by
  obtain ⟨_, l, hl⟩ := h
  rw [hl]; exact List.mem_append_left _ hc

theorem MkdirAll_call (E : Env) (path : GoString) (w : World) :
    (Call.mkdirAll path, (MkdirAll E path w).2) ∈ (MkdirAll E path w).1.calls := by
  unfold MkdirAll
  split_ifs
  · simp [World.call]
  · simp [World.call]

theorem Stat_call (E : Env) (name : GoString) (w : World) :
    ∃ r, (Call.stat name, r) ∈ (Stat E name w).1.calls := by
  unfold Stat
  split_ifs
  · exact ⟨some .denied, by simp [World.call]⟩
  · split
    · exact ⟨none, by simp [World.call]⟩
    · exact ⟨some .notExist, by simp [World.call]⟩

theorem placeFile_mkdirFailed (E : Env) (cfg : Config) (path name ym : GoString) (s : State)
    (w2 : World) (e : Error) (h : MkdirAll E (targetDir cfg ym) s.world = (w2, some e)) :
    placeFile E cfg path name ym s =
      ({ s with world := w2, log := s.log ++ [.mkdirFailed (targetDir cfg ym) e] }, .nil) := by
  simp [placeFile, h]

theorem placeFile_duplicate (E : Env) (cfg : Config) (path name ym : GoString) (s : State)
    (w2 w3 : World) (fi : FileInfo) (h : MkdirAll E (targetDir cfg ym) s.world = (w2, none))
    (hs : Stat E (targetPath cfg ym name) w2 = (w3, .ok fi)) :
    placeFile E cfg path name ym s =
      ({ s with
          world := w3
          duplicateFiles := s.duplicateFiles ++
            [duplicateRecord (Base path) (relPath cfg (targetPath cfg ym name))] }, .nil) := by
  simp [placeFile, h, hs]

theorem placeFile_moveFailed (E : Env) (cfg : Config) (path name ym : GoString) (s : State)
    (w2 w3 w4 : World) (er e : Error)
    (h : MkdirAll E (targetDir cfg ym) s.world = (w2, none))
    (hs : Stat E (targetPath cfg ym name) w2 = (w3, .error er))
    (hr : Rename E path (targetPath cfg ym name) w3 = (w4, some e)) :
    placeFile E cfg path name ym s =
      ({ s with
          world := w4
          log := s.log ++ [.moveFailed path (targetPath cfg ym name) e] }, .nil) := by
  simp [placeFile, h, hs, hr]

theorem placeFile_moved (E : Env) (cfg : Config) (path name ym : GoString) (s : State)
    (w2 w3 w4 : World) (er : Error)
    (h : MkdirAll E (targetDir cfg ym) s.world = (w2, none))
    (hs : Stat E (targetPath cfg ym name) w2 = (w3, .error er))
    (hr : Rename E path (targetPath cfg ym name) w3 = (w4, none)) :
    placeFile E cfg path name ym s = ({ s with world := w4 }, .nil) := by
  simp [placeFile, h, hs, hr]

/-- Placing a file asks for the target directory, and once that exists
looks at the target path. -/
theorem placeFile_calls (E : Env) (cfg : Config) (path name ym : GoString) (s : State) :
    ∃ r, (Call.mkdirAll (targetDir cfg ym), r) ∈ (placeFile E cfg path name ym s).1.world.calls ∧
      (r = none → ∃ r2, (Call.stat (targetPath cfg ym name), r2) ∈
        (placeFile E cfg path name ym s).1.world.calls) := by
  have hm := MkdirAll_call E (targetDir cfg ym) s.world
  rcases hmk : MkdirAll E (targetDir cfg ym) s.world with ⟨w2, _ | e⟩
  · rw [hmk] at hm
    obtain ⟨r2, hr2⟩ := Stat_call E (targetPath cfg ym name) w2
    have hst := Stat_extends E (targetPath cfg ym name) w2
    rcases hs : Stat E (targetPath cfg ym name) w2 with ⟨w3, er | fi⟩
    · rw [hs] at hr2 hst
      have hrn := Rename_extends E path (targetPath cfg ym name) w3
      rcases hr : Rename E path (targetPath cfg ym name) w3 with ⟨w4, _ | e⟩
      · rw [hr] at hrn
        rw [placeFile_moved E cfg path name ym s w2 w3 w4 er hmk hs hr]
        exact ⟨none, mem_calls_of_extends (hst.chain hrn) _ hm,
          fun _ => ⟨r2, mem_calls_of_extends hrn _ hr2⟩⟩
      · rw [hr] at hrn
        rw [placeFile_moveFailed E cfg path name ym s w2 w3 w4 er e hmk hs hr]
        exact ⟨none, mem_calls_of_extends (hst.chain hrn) _ hm,
          fun _ => ⟨r2, mem_calls_of_extends hrn _ hr2⟩⟩
    · rw [hs] at hr2 hst
      rw [placeFile_duplicate E cfg path name ym s w2 w3 fi hmk hs]
      exact ⟨none, mem_calls_of_extends hst _ hm, fun _ => ⟨r2, hr2⟩⟩
  · rw [hmk] at hm
    rw [placeFile_mkdirFailed E cfg path name ym s w2 e hmk]
    exact ⟨some e, hm, fun h => by simp at h⟩

theorem properName_outDir : properName "柠泽".toList := by decide

theorem mainConfig_outputDir (cwd : GoString) :
    Clean (mainConfig cwd).outputDir = (mainConfig cwd).outputDir ∧
      (mainConfig cwd).outputDir ≠ ['/'] ∧ (mainConfig cwd).outputDir ≠ ['.'] :=
  Join_shape (Dir cwd) _ (Clean_ne_nil _) properName_outDir

/-- The target directory of line 88 is the output directory, the separator
and the year-month. -/
theorem targetDir_eq (cwd ym : GoString) (hym : properName ym) :
    targetDir (mainConfig cwd) ym = (mainConfig cwd).outputDir ++ '/' :: ym := by
  obtain ⟨h1, h2, h3⟩ := mainConfig_outputDir cwd
  exact Join_clean _ ym h1 h2 h3 hym

/-- The target path of line 96 is the target directory, the separator and
the file name. -/
theorem targetPath_eq (cwd ym name : GoString) (hym : properName ym) (hn : properName name) :
    targetPath (mainConfig cwd) ym name =
      (mainConfig cwd).outputDir ++ '/' :: ym ++ '/' :: name := by
  have hne : (mainConfig cwd).outputDir ≠ [] := by
    rw [← (mainConfig_outputDir cwd).1]; exact Clean_ne_nil _
  obtain ⟨h1, h2, h3⟩ := Join_shape (mainConfig cwd).outputDir ym hne hym
  have := Join_clean _ name h1 h2 h3 hn
  rw [targetPath, targetDir, this, ← targetDir, targetDir_eq cwd ym hym]

/-- The hash of a readable regular file. -/
theorem computeMD5_file (E : Env) (path : GoString) (w : World) (data : List Byte) (t : Time)
    (hnode : w.node path = some (.file data t))
    (hopen : E.openFault (resolve w.cwd path) = false)
    (hread : E.readFault (resolve w.cwd path) = false) :
    computeMD5 E path w =
      ((w.call (.open path) none).call (.read path) none, .ok (hexEncode (md5Sum data))) := by
  simp [computeMD5, hnode, hopen, hread]

/-- C2: for a qualifying file (a regular file with a supported extension
that can be read) with modification time `t`, content `data` and lower-cased
extension `e`, the callback of `main` goes on with the target path
`<outputDir>/<D[:7]>/<D>_<H>.<e>`, where `D` is `t` formatted with the layout
`2006-01-02_150405` and `H` is the hexadecimal MD5 digest of the content, 32
characters out of `0123456789abcdef`: the target directory it asks for is
`<outputDir>/<D[:7]>`, and once that exists the path it looks at is the one
above. -/
theorem C2_destination_path (E : Env) (cwd path : GoString) (info : FileInfo) (s : State)
    (data : List Byte)
    (hdir : info.isDir = false)
    (hsup : fileExt E path ∈ supportedFormats)
    (hnode : s.world.node path = some (.file data info.modTime))
    (hopen : E.openFault (resolve s.world.cwd path) = false)
    (hread : E.readFault (resolve s.world.cwd path) = false) :
    walkFn E (mainConfig cwd) path (some info) none s =
      placeFile E (mainConfig cwd) path
        (Format info.modTime fileDateLayout ++ '_' :: hexEncode (md5Sum data) ++
          '.' :: fileExt E path)
        ((Format info.modTime fileDateLayout).take 7)
        { s with world := (s.world.call (.open path) none).call (.read path) none } ∧
    targetPath (mainConfig cwd) ((Format info.modTime fileDateLayout).take 7)
        (Format info.modTime fileDateLayout ++ '_' :: hexEncode (md5Sum data) ++
          '.' :: fileExt E path) =
      (mainConfig cwd).outputDir ++ '/' :: (Format info.modTime fileDateLayout).take 7 ++
        '/' :: (Format info.modTime fileDateLayout ++ '_' :: hexEncode (md5Sum data) ++
          '.' :: fileExt E path) ∧
    (hexEncode (md5Sum data)).length = 32 ∧
    (∀ c ∈ hexEncode (md5Sum data), c ∈ "0123456789abcdef".toList) ∧
    (∃ r, (Call.mkdirAll ((mainConfig cwd).outputDir ++
          '/' :: (Format info.modTime fileDateLayout).take 7), r) ∈
        (walkFn E (mainConfig cwd) path (some info) none s).1.world.calls ∧
      (r = none → ∃ r2,
        (Call.stat ((mainConfig cwd).outputDir ++
            '/' :: (Format info.modTime fileDateLayout).take 7 ++
            '/' :: (Format info.modTime fileDateLayout ++ '_' :: hexEncode (md5Sum data) ++
              '.' :: fileExt E path)), r2) ∈
          (walkFn E (mainConfig cwd) path (some info) none s).1.world.calls)) := by
  have hw := walkFn_supported E (mainConfig cwd) path info s hdir hsup
  rw [computeMD5_file E path s.world data info.modTime hnode hopen hread] at hw
  simp only at hw
  have hym := yearMonth_proper info.modTime
  have hn := newFileName_proper info.modTime data (fileExt E path) hsup
  have htp := targetPath_eq cwd _ _ hym hn
  have htd := targetDir_eq cwd _ hym
  refine ⟨hw, htp, hexDigest_length data, fun c hc => hexEncode_chars _ c hc, ?_⟩
  have := placeFile_calls E (mainConfig cwd) path
    (newFileName (Format info.modTime fileDateLayout) (hexEncode (md5Sum data)) (fileExt E path))
    ((Format info.modTime fileDateLayout).take 7)
    { s with world := (s.world.call (.open path) none).call (.read path) none }
  rw [htp] at this
  obtain ⟨r, h1, h2⟩ := this
  rw [htd] at h1
  rw [hw]
  exact ⟨r, h1, h2⟩

set_option maxRecDepth 100000 in
/-- C2 at the scenario of the specification: `photo.JPG` with content
`ABC` and modification time 2023-10-05 14:30:00, in the working directory
`/home/u`.  The extension is `jpg`, the digest is
`902fbdd2b1df0c4f70b4a5d23525e932`, and the target path is
`/home/柠泽/2023-10/2023-10-05_143000_902fbdd2b1df0c4f70b4a5d23525e932.jpg`. -/
theorem C2_destination_path_witness :
    fileExt exEnv exPhoto = "jpg".toList ∧
    hexEncode (md5Sum exABC) = "902fbdd2b1df0c4f70b4a5d23525e932".toList ∧
    targetPath (mainConfig "/home/u".toList) ((Format exTime fileDateLayout).take 7)
        (Format exTime fileDateLayout ++ '_' :: hexEncode (md5Sum exABC) ++
          '.' :: fileExt exEnv exPhoto) =
      "/home/柠泽/2023-10/2023-10-05_143000_902fbdd2b1df0c4f70b4a5d23525e932.jpg".toList :=
  ⟨by decide, by decide,
   (C2_destination_path exEnv "/home/u".toList exPhoto ⟨false, exTime⟩ exState exABC
      rfl (by decide) (by decide) rfl rfl).2.1.trans (by decide)⟩

/-! ## The file table under the operations -/

theorem lookup_cons (e : Path × Node) (fs : List (Path × Node)) (k : Path) :
    lookup (e :: fs) k = if e.1 = k then some e.2 else lookup fs k := rfl

theorem lookup_filter (fs : List (Path × Node)) (q : Path → Bool) (k : Path) :
    lookup (fs.filter (fun e => q e.1)) k = if q k then lookup fs k else none := by
  induction fs with
  | nil => simp [lookup]
  | cons e fs ih =>
    by_cases hq : q e.1 = true
    · rw [List.filter_cons_of_pos (by simpa using hq), lookup_cons, lookup_cons, ih]
      by_cases hk : e.1 = k
      · subst hk; simp [hq]
      · simp [hk]
    · rw [List.filter_cons_of_neg (by simpa using hq), lookup_cons, ih]
      by_cases hk : e.1 = k
      · subst hk; simp [hq]
      · simp [hk]

theorem nodeAt_cons (p : Path) (n : Node) (fs : List (Path × Node)) (k : Path) (hp : p ≠ []) :
    nodeAt ((p, n) :: fs) k = if k = p then some n else nodeAt fs k := by
  unfold nodeAt
  by_cases hk : k = []
  · subst hk; simp [Ne.symm hp]
  · simp only [hk, if_false, lookup_cons]
    by_cases h : p = k
    · subst h; simp
    · simp [h, Ne.symm h]

theorem node_eq (w : World) (name : GoString) (h : name ≠ []) :
    w.node name = nodeAt w.fs (resolve w.cwd name) := by
  simp [World.node, h]

theorem Stat_fs (E : Env) (name : GoString) (w : World) : (Stat E name w).1.fs = w.fs := by
  unfold Stat
  split_ifs
  · rfl
  · split <;> rfl

theorem Stat_ok_iff (E : Env) (name : GoString) (w : World) :
    (∃ fi, (Stat E name w).2 = .ok fi) ↔
      E.statFault (resolve w.cwd name) = false ∧ w.node name ≠ none := by
  unfold Stat
  by_cases hf : E.statFault (resolve w.cwd name) = true
  · simp [hf]
  · rw [if_neg hf]
    have hf2 : E.statFault (resolve w.cwd name) = false := by simpa using hf
    cases h : w.node name <;> simp [hf2]

theorem Stat_error (E : Env) (name : GoString) (w : World) (e : Error)
    (h : (Stat E name w).2 = .error e) :
    E.statFault (resolve w.cwd name) = true ∨ w.node name = none := by
  unfold Stat at h
  by_cases hf : E.statFault (resolve w.cwd name) = true
  · exact Or.inl hf
  · rw [if_neg hf] at h
    right
    cases hn : w.node name with
    | none => rfl
    | some n => rw [hn] at h; simp at h

theorem Stat_node (E : Env) (name : GoString) (w : World) (nd : Node)
    (hf : E.statFault (resolve w.cwd name) = false) (h : w.node name = some nd) :
    Stat E name w = (w.call (.stat name) none, .ok nd.info) := by
  simp [Stat, hf, h]

theorem Stat_absent (E : Env) (name : GoString) (w : World) (h : w.node name = none) :
    ∃ er, Stat E name w = (w.call (.stat name) (some er), .error er) := by
  unfold Stat
  split_ifs
  · exact ⟨_, rfl⟩
  · rw [h]; exact ⟨_, rfl⟩

/-- What `os.Mkdir` does to the table. -/
theorem Mkdir_spec (E : Env) (p : Path) (w : World) :
    ((Mkdir E p w).2 = none ∧ nodeAt w.fs p = none ∧ p ≠ [] ∧ nodeAt w.fs p.dropLast = some .dir ∧
        E.mkdirFault p = false ∧ (Mkdir E p w).1.fs = (p, .dir) :: w.fs) ∨
      ((Mkdir E p w).2 ≠ none ∧ (Mkdir E p w).1.fs = w.fs) := by
  unfold Mkdir
  by_cases hf : E.mkdirFault p = true
  · right; simp [hf, World.call]
  · rw [if_neg hf]
    cases h1 : nodeAt w.fs p with
    | some n => right; simp [World.call]
    | none =>
      have hp : p ≠ [] := by rintro rfl; simp [nodeAt] at h1
      cases h2 : nodeAt w.fs p.dropLast with
      | none => right; simp [World.call]
      | some n =>
        cases n with
        | file d t => right; simp [World.call]
        | dir => left; simp [World.call, hp, Bool.eq_false_iff.mpr hf]

/-- What the recursion of `os.MkdirAll` does to the table: nothing that was
there changes, what is new is a directory on the way to the path, and after
a success the path is a directory. -/
theorem mkdirAllRev_spec (E : Env) (r : List GoString) :
    ∀ w, (∀ k n, nodeAt w.fs k = some n → nodeAt (mkdirAllRev E r w).1.fs k = some n) ∧
      (∀ k n, nodeAt (mkdirAllRev E r w).1.fs k = some n →
        nodeAt w.fs k = some n ∨ (n = .dir ∧ k <+: r.reverse ∧ nodeAt w.fs k = none)) ∧
      ((mkdirAllRev E r w).2 = none → nodeAt (mkdirAllRev E r w).1.fs r.reverse = some .dir) := by
  induction r with
  | nil =>
    intro w
    exact ⟨fun k n h => h, fun k n h => Or.inl h, fun _ => by simp [mkdirAllRev, nodeAt]⟩
  | cons n r ih =>
    intro w
    have hne : (n :: r).reverse ≠ [] := by simp
    have hlk : nodeAt w.fs (n :: r).reverse = lookup w.fs (n :: r).reverse := by
      simp [nodeAt]
    unfold mkdirAllRev
    cases h0 : lookup w.fs (n :: r).reverse with
    | some nd =>
      cases nd with
      | dir => simp only; exact ⟨fun k n h => h, fun k n h => Or.inl h, fun _ => by rw [hlk, h0]⟩
      | file d t => simp only; exact ⟨fun k n h => h, fun k n h => Or.inl h, fun h => by simp at h⟩
    | none =>
      simp only
      obtain ⟨i1, i2, i3⟩ := ih w
      rcases hr : mkdirAllRev E r w with ⟨w1, _ | e⟩
      · rw [hr] at i1 i2 i3
        simp only at i1 i2 i3 ⊢
        have hpre : r.reverse <+: (n :: r).reverse := by simp
        rcases Mkdir_spec E (n :: r).reverse w1 with ⟨m1, m2, _, m4, _, m6⟩ | ⟨m1, m2⟩
        · rcases hm : Mkdir E (n :: r).reverse w1 with ⟨w2, _ | e⟩
          · rw [hm] at m6
            simp only at m6 ⊢
            refine ⟨?_, ?_, ?_⟩
            · intro k nd hk
              rw [m6, nodeAt_cons _ _ _ _ hne]
              have := i1 k nd hk
              by_cases hkp : k = (n :: r).reverse
              · subst hkp; rw [m2] at this; simp at this
              · rw [if_neg hkp]; exact this
            · intro k nd hk
              rw [m6, nodeAt_cons _ _ _ _ hne] at hk
              by_cases hkp : k = (n :: r).reverse
              · subst hkp
                rw [if_pos rfl] at hk
                right
                refine ⟨by simpa using hk.symm, List.prefix_refl _, ?_⟩
                rw [hlk, h0]
              · rw [if_neg hkp] at hk
                rcases i2 k nd hk with h | ⟨h1, h2, h3⟩
                · exact Or.inl h
                · exact Or.inr ⟨h1, h2.trans hpre, h3⟩
            · intro _
              rw [m6, nodeAt_cons _ _ _ _ hne, if_pos rfl]
          · rw [hm] at m1; simp at m1
        · rcases hm : Mkdir E (n :: r).reverse w1 with ⟨w2, _ | e⟩
          · rw [hm] at m1; simp at m1
          · rw [hm] at m2
            simp only at m2 ⊢
            have key : (∀ k nd, nodeAt w.fs k = some nd → nodeAt w2.fs k = some nd) ∧
                (∀ k nd, nodeAt w2.fs k = some nd →
                  nodeAt w.fs k = some nd ∨
                    (nd = .dir ∧ k <+: (n :: r).reverse ∧ nodeAt w.fs k = none)) := by
              rw [m2]
              refine ⟨i1, ?_⟩
              intro k nd hk
              rcases i2 k nd hk with h | ⟨h1, h2, h3⟩
              · exact Or.inl h
              · exact Or.inr ⟨h1, h2.trans hpre, h3⟩
            cases h5 : lookup w2.fs (n :: r).reverse with
            | none => simp only; exact ⟨key.1, key.2, fun h => by simp at h⟩
            | some nd =>
              cases nd with
              | file d t => simp only; exact ⟨key.1, key.2, fun h => by simp at h⟩
              | dir =>
                simp only
                exact ⟨key.1, key.2, fun _ => by rw [nodeAt, if_neg hne]; exact h5⟩
      · rw [hr] at i1 i2 i3
        simp only at i1 i2 i3 ⊢
        have hpre : r.reverse <+: (n :: r).reverse := by simp
        refine ⟨i1, ?_, fun h => by simp at h⟩
        intro k nd hk
        rcases i2 k nd hk with h | ⟨h1, h2, h3⟩
        · exact Or.inl h
        · exact Or.inr ⟨h1, h2.trans hpre, h3⟩

theorem mkdirAllRev_of_dir (E : Env) (r : List GoString) (w : World)
    (h : nodeAt w.fs r.reverse = some .dir) : mkdirAllRev E r w = (w, none) := by
  cases r with
  | nil => rfl
  | cons n r =>
    have hne : (n :: r).reverse ≠ [] := by simp
    have : lookup w.fs (n :: r).reverse = some .dir := by
      rw [nodeAt, if_neg hne] at h; exact h
    unfold mkdirAllRev
    rw [this]

theorem Quiet.idle (w : World) : Quiet w w := ⟨rfl, [], by simp, by simp⟩

theorem Quiet.append {a b c : World} (h1 : Quiet a b) (h2 : Quiet b c) : Quiet a c := by
  obtain ⟨c1, l1, e1, n1⟩ := h1
  obtain ⟨c2, l2, e2, n2⟩ := h2
  refine ⟨c2.trans c1, l1 ++ l2, by rw [e2, e1, List.append_assoc], ?_⟩
  intro c hc
  rcases List.mem_append.mp hc with h | h
  · exact n1 c h
  · exact n2 c h

theorem Quiet.extends {a b : World} (h : Quiet a b) : Extends a b :=
  ⟨h.1, h.2.choose, h.2.choose_spec.1⟩

theorem quiet_call (w : World) (c : Call) (e : Option Error) (h : ∀ a b, c ≠ Call.rename a b) :
    Quiet w (w.call c e) :=
  ⟨rfl, [(c, e)], rfl, by simpa using h⟩

theorem Stat_quiet (E : Env) (name : GoString) (w : World) : Quiet w (Stat E name w).1 := by
  unfold Stat
  split_ifs
  · exact quiet_call _ _ _ (by simp)
  · split <;> exact quiet_call _ _ _ (by simp)

theorem Lstat_quiet (E : Env) (name : GoString) (w : World) : Quiet w (Lstat E name w).1 := by
  unfold Lstat; split_ifs
  · exact quiet_call _ _ _ (by simp)
  · split <;> exact quiet_call _ _ _ (by simp)

theorem Mkdir_quiet (E : Env) (p : Path) (w : World) : Quiet w (Mkdir E p w).1 := by
  unfold Mkdir; split_ifs
  · exact quiet_call _ _ _ (by simp)
  · split
    · exact quiet_call _ _ _ (by simp)
    · split
      · exact quiet_call _ _ _ (by simp)
      · exact quiet_call _ _ _ (by simp)
      · exact ⟨rfl, [(.mkdir p, none)], rfl, by simp⟩

theorem mkdirAllRev_quiet (E : Env) (r : List GoString) :
    ∀ w, Quiet w (mkdirAllRev E r w).1 := by
  induction r with
  | nil => intro w; exact Quiet.idle w
  | cons n r ih =>
    intro w
    unfold mkdirAllRev
    split
    · exact Quiet.idle w
    · exact Quiet.idle w
    · have h1 := ih w
      split
      · next w1 e he => rw [he] at h1; exact h1
      · next w1 he =>
        rw [he] at h1
        have h2 := Mkdir_quiet E (n :: r).reverse w1
        split
        · next w2 hm => rw [hm] at h2; exact h1.append h2
        · next w2 e hm =>
          rw [hm] at h2
          split <;> exact h1.append h2

theorem MkdirAll_quiet (E : Env) (path : GoString) (w : World) :
    Quiet w (MkdirAll E path w).1 := by
  unfold MkdirAll
  split_ifs
  · exact quiet_call _ _ _ (by simp)
  · exact (mkdirAllRev_quiet E _ w).append (quiet_call _ _ _ (by simp))

theorem readDirNames_quiet (E : Env) (d : GoString) (w : World) :
    Quiet w (readDirNames E d w).1 := by
  unfold readDirNames
  split_ifs
  · exact quiet_call _ _ _ (by simp)
  · split <;> exact quiet_call _ _ _ (by simp)

theorem computeMD5_quiet (E : Env) (p : GoString) (w : World) :
    Quiet w (computeMD5 E p w).1 := by
  unfold computeMD5
  have h2 : ∀ e1 e2, Quiet w ((w.call (.open p) e1).call (.read p) e2) := fun e1 e2 =>
    (quiet_call w (.open p) e1 (by simp)).append (quiet_call _ (.read p) e2 (by simp))
  by_cases h1 : E.openFault (resolve w.cwd p) = true
  · rw [if_pos h1]; exact quiet_call _ _ _ (by simp)
  · rw [if_neg h1]
    cases hn : w.node p with
    | none => exact quiet_call _ _ _ (by simp)
    | some nd =>
      cases nd with
      | dir => exact h2 _ _
      | file data t =>
        by_cases h3 : E.readFault (resolve w.cwd p) = true
        · simp only [h3, if_true]; exact h2 _ _
        · simp only [h3, if_false]; exact h2 _ _

theorem computeMD5_error_of_fault (E : Env) (p : GoString) (w : World)
    (h : E.openFault (resolve w.cwd p) = true ∨ E.readFault (resolve w.cwd p) = true) :
    ∃ e, (computeMD5 E p w).2 = .error e := by
  unfold computeMD5
  by_cases h1 : E.openFault (resolve w.cwd p) = true
  · rw [if_pos h1]; exact ⟨_, rfl⟩
  · rw [if_neg h1]
    have h3 := h.resolve_left h1
    cases hn : w.node p with
    | none => exact ⟨_, rfl⟩
    | some nd =>
      cases nd with
      | dir => exact ⟨_, rfl⟩
      | file data t => simp only [h3, if_true]; exact ⟨_, rfl⟩

/-- What `os.MkdirAll` does to the table. -/
theorem MkdirAll_spec (E : Env) (path : GoString) (w : World) :
    (∀ k n, nodeAt w.fs k = some n → nodeAt (MkdirAll E path w).1.fs k = some n) ∧
    (∀ k n, nodeAt (MkdirAll E path w).1.fs k = some n →
      nodeAt w.fs k = some n ∨
        (n = .dir ∧ k <+: resolve w.cwd path ∧ nodeAt w.fs k = none)) ∧
    ((MkdirAll E path w).2 = none →
      path ≠ [] ∧ nodeAt (MkdirAll E path w).1.fs (resolve w.cwd path) = some .dir) := by
  unfold MkdirAll
  by_cases hp : path = []
  · rw [if_pos hp]
    exact ⟨fun k n h => h, fun k n h => Or.inl h, fun h => by simp at h⟩
  · rw [if_neg hp]
    obtain ⟨a1, a2, a3⟩ := mkdirAllRev_spec E (resolve w.cwd path).reverse w
    simp only [List.reverse_reverse] at a2 a3
    rcases hm : mkdirAllRev E (resolve w.cwd path).reverse w with ⟨w1, e⟩
    rw [hm] at a1 a2 a3
    exact ⟨a1, a2, fun h => ⟨hp, a3 h⟩⟩

theorem MkdirAll_of_dir (E : Env) (path : GoString) (w : World) (hp : path ≠ [])
    (h : nodeAt w.fs (resolve w.cwd path) = some .dir) :
    MkdirAll E path w = (w.call (.mkdirAll path) none, none) := by
  unfold MkdirAll
  rw [if_neg hp, mkdirAllRev_of_dir E _ w (by simpa using h)]

/-- What `os.Rename` does to the table when it moves a regular file to a
free path: nothing on an error, else the file is at the new path, the old
path is free, and nothing else changed. -/
theorem Rename_file_spec (E : Env) (a b : GoString) (w : World) (d : List Byte) (t : Time)
    (ha : w.node a = some (.file d t)) (hb : w.node b = none) (hbne : b ≠ []) :
    ((Rename E a b w).2 ≠ none ∧ (Rename E a b w).1.fs = w.fs) ∨
    ((Rename E a b w).2 = none ∧
      E.renameFault (resolve w.cwd a) (resolve w.cwd b) = false ∧
      nodeAt w.fs (resolve w.cwd b).dropLast = some .dir ∧
      resolve w.cwd a ≠ resolve w.cwd b ∧
      ∀ k, nodeAt (Rename E a b w).1.fs k =
        if k = resolve w.cwd b then some (.file d t)
        else if k = resolve w.cwd a then none else nodeAt w.fs k) := by
  have hane : a ≠ [] := by rintro rfl; simp [World.node] at ha
  rw [node_eq w a hane] at ha
  rw [node_eq w b hbne] at hb
  have hab : resolve w.cwd a ≠ resolve w.cwd b := by
    intro h; rw [h, hb] at ha; simp at ha
  have hbn : resolve w.cwd b ≠ [] := by
    intro h; rw [h] at hb; simp [nodeAt] at hb
  unfold Rename
  rw [if_neg (by simp [hane, hbne])]
  by_cases hf : E.renameFault (resolve w.cwd a) (resolve w.cwd b) = true
  · rw [if_pos hf]; left; simp [World.call]
  · rw [if_neg hf]
    cases hp : nodeAt w.fs (resolve w.cwd b).dropLast with
    | none =>
      have : renameTable w.fs (resolve w.cwd a) (resolve w.cwd b) = .error .notExist := by
        simp [renameTable, ha, hp]
      rw [this]; left; simp [World.call]
    | some nd =>
      cases nd with
      | file d2 t2 =>
        have : renameTable w.fs (resolve w.cwd a) (resolve w.cwd b) = .error .notDir := by
          simp [renameTable, ha, hp]
        rw [this]; left; simp [World.call]
      | dir =>
        have : renameTable w.fs (resolve w.cwd a) (resolve w.cwd b) =
            .ok ((resolve w.cwd b, Node.file d t) ::
              w.fs.filter (fun e => decide (e.1 ≠ resolve w.cwd a ∧ e.1 ≠ resolve w.cwd b))) := by
          simp [renameTable, ha, hp, hb]
        rw [this]
        right
        refine ⟨rfl, Bool.eq_false_iff.mpr hf, rfl, hab, ?_⟩
        intro k
        show nodeAt ((resolve w.cwd b, Node.file d t) ::
          w.fs.filter (fun e => decide (e.1 ≠ resolve w.cwd a ∧ e.1 ≠ resolve w.cwd b))) k = _
        rw [nodeAt_cons _ _ _ _ hbn]
        by_cases hk : k = resolve w.cwd b
        · simp [hk]
        · rw [if_neg hk, if_neg hk]
          by_cases hka : k = resolve w.cwd a
          · rw [if_pos hka]
            have hkn : k ≠ [] := by
              rintro rfl; rw [← hka] at ha; simp [nodeAt] at ha
            rw [nodeAt, if_neg hkn,
              lookup_filter w.fs (fun q => decide (q ≠ resolve w.cwd a ∧ q ≠ resolve w.cwd b))]
            simp [hka]
          · rw [if_neg hka]
            unfold nodeAt
            by_cases hkn : k = []
            · simp [hkn]
            · rw [if_neg hkn, if_neg hkn,
                lookup_filter w.fs (fun q => decide (q ≠ resolve w.cwd a ∧ q ≠ resolve w.cwd b))]
              simp [hk, hka]

/-- What `os.Rename` does to the table when it moves a regular file,
whatever is at the new path: nothing on an error, else the file is at the new
path, where no directory was, the old path is free, and nothing else
changed. -/
theorem Rename_file_any (E : Env) (a b : GoString) (w : World) (d : List Byte) (t : Time)
    (ha : w.node a = some (.file d t)) (hbne : b ≠ []) :
    ((Rename E a b w).2 ≠ none ∧ (Rename E a b w).1.fs = w.fs) ∨
    ((Rename E a b w).2 = none ∧ nodeAt w.fs (resolve w.cwd b) ≠ some .dir ∧
      ∀ k, nodeAt (Rename E a b w).1.fs k =
        if k = resolve w.cwd b then some (.file d t)
        else if k = resolve w.cwd a then none else nodeAt w.fs k) := by
  have hane : a ≠ [] := by rintro rfl; simp [World.node] at ha
  rw [node_eq w a hane] at ha
  unfold Rename
  rw [if_neg (by simp [hane, hbne])]
  by_cases hf : E.renameFault (resolve w.cwd a) (resolve w.cwd b) = true
  · rw [if_pos hf]; left; simp [World.call]
  · rw [if_neg hf]
    have herr : ∀ e, renameTable w.fs (resolve w.cwd a) (resolve w.cwd b) = .error e →
        ((match renameTable w.fs (resolve w.cwd a) (resolve w.cwd b) with
          | .error e => (w.call (.rename a b) (some e), some e)
          | .ok fs => ({ w.call (.rename a b) none with fs := fs }, none)).2 ≠ none ∧
         (match renameTable w.fs (resolve w.cwd a) (resolve w.cwd b) with
          | .error e => (w.call (.rename a b) (some e), some e)
          | .ok fs => ({ w.call (.rename a b) none with fs := fs }, none)).1.fs = w.fs) := by
      intro e he; rw [he]; simp [World.call]
    cases hp : nodeAt w.fs (resolve w.cwd b).dropLast with
    | none => exact Or.inl (herr .notExist (by simp [renameTable, ha, hp]))
    | some nd =>
      cases nd with
      | file d2 t2 => exact Or.inl (herr .notDir (by simp [renameTable, ha, hp]))
      | dir =>
        by_cases hbd : nodeAt w.fs (resolve w.cwd b) = some .dir
        · exact Or.inl (herr .isDir (by simp [renameTable, ha, hp, hbd]))
        · have hbn : resolve w.cwd b ≠ [] := by
            intro h; rw [h] at hbd; simp [nodeAt] at hbd
          have : renameTable w.fs (resolve w.cwd a) (resolve w.cwd b) =
              .ok ((resolve w.cwd b, Node.file d t) ::
                w.fs.filter
                  (fun e => decide (e.1 ≠ resolve w.cwd a ∧ e.1 ≠ resolve w.cwd b))) := by
            cases hx : nodeAt w.fs (resolve w.cwd b) with
            | none => simp [renameTable, ha, hp, hx]
            | some x =>
              cases x with
              | dir => exact absurd hx hbd
              | file d3 t3 => simp [renameTable, ha, hp, hx]
          rw [this]
          right
          refine ⟨rfl, hbd, ?_⟩
          intro k
          show nodeAt ((resolve w.cwd b, Node.file d t) ::
            w.fs.filter
              (fun e => decide (e.1 ≠ resolve w.cwd a ∧ e.1 ≠ resolve w.cwd b))) k = _
          rw [nodeAt_cons _ _ _ _ hbn]
          by_cases hk : k = resolve w.cwd b
          · simp [hk]
          · rw [if_neg hk, if_neg hk]
            by_cases hka : k = resolve w.cwd a
            · rw [if_pos hka]
              have hkn : k ≠ [] := by
                rintro rfl; rw [← hka] at ha; simp [nodeAt] at ha
              rw [nodeAt, if_neg hkn,
                lookup_filter w.fs
                  (fun q => decide (q ≠ resolve w.cwd a ∧ q ≠ resolve w.cwd b))]
              simp [hka]
            · rw [if_neg hka]
              unfold nodeAt
              by_cases hkn : k = []
              · simp [hkn]
              · rw [if_neg hkn, if_neg hkn,
                  lookup_filter w.fs
                    (fun q => decide (q ≠ resolve w.cwd a ∧ q ≠ resolve w.cwd b))]
                simp [hk, hka]

theorem Rename_success (E : Env) (a b : GoString) (w : World) (d : List Byte) (t : Time)
    (ha : w.node a = some (.file d t)) (hb : w.node b = none) (hbne : b ≠ [])
    (hf : E.renameFault (resolve w.cwd a) (resolve w.cwd b) = false)
    (hp : nodeAt w.fs (resolve w.cwd b).dropLast = some .dir) :
    (Rename E a b w).2 = none := by
  have hane : a ≠ [] := by rintro rfl; simp [World.node] at ha
  rw [node_eq w a hane] at ha
  rw [node_eq w b hbne] at hb
  simp [Rename, hane, hbne, hf, renameTable, ha, hp, hb]

theorem Rename_call (E : Env) (a b : GoString) (w : World) :
    (Rename E a b w).1.calls = w.calls ++ [(Call.rename a b, (Rename E a b w).2)] := by
  unfold Rename
  split_ifs
  · rfl
  · rfl
  · split <;> rfl

/-! ## Target paths and the duplicate record -/

theorem Join_ne_nil (p n : GoString) (hn : n ≠ []) : Join [p, n] ≠ [] := by
  by_cases hp : p = []
  · subst hp
    simp only [Join, if_true, hn, if_false]
    exact Clean_ne_nil _
  · rw [Join_pair p n hp]; exact Clean_ne_nil _

theorem targetDir_ne_nil (cfg : Config) (ym : GoString) (h : properName ym) :
    targetDir cfg ym ≠ [] := Join_ne_nil _ _ h.1

theorem targetPath_ne_nil (cfg : Config) (ym name : GoString) (h : properName name) :
    targetPath cfg ym name ≠ [] := Join_ne_nil _ _ h.1

theorem isRooted_Join_eq (p n : GoString) (hp : p ≠ []) :
    isRooted (Join [p, n]) = isRooted p := by
  rw [Join_pair p n hp, isRooted_Clean, isRooted_append p _ hp]

/-- With a rooted output directory the target directory resolves to the
output directory and the year-month below it. -/
theorem resolve_targetDir (cwd : Path) (cfg : Config) (ym : GoString)
    (hr : isRooted cfg.outputDir = true) (hym : properName ym) :
    resolve cwd (targetDir cfg ym) = resolve cwd cfg.outputDir ++ [ym] :=
  resolve_Join cwd _ _ hr hym

/-- With a rooted output directory the target path resolves to the target
directory and the file name below it. -/
theorem resolve_targetPath (cwd : Path) (cfg : Config) (ym name : GoString)
    (hr : isRooted cfg.outputDir = true) (hn : properName name) :
    resolve cwd (targetPath cfg ym name) = resolve cwd (targetDir cfg ym) ++ [name] :=
  resolve_Join cwd _ _ (isRooted_Join _ _ hr) hn

theorem dropCommon_append (b x : List GoString) : dropCommon b (b ++ x) = ([], x) := by
  induction b with
  | nil => cases x <;> rfl
  | cons a b ih => simp [dropCommon, ih]

theorem Dir_clean (cwd : GoString) : Clean (Dir cwd) = Dir cwd := by
  unfold Dir; exact Clean_idem _

theorem Dir_ne_nil (cwd : GoString) : Dir cwd ≠ [] := by
  unfold Dir; exact Clean_ne_nil _

/-- The relative path recorded for a duplicate: the target path from the
parent of the output directory on. -/
theorem relPath_mainConfig (cwd ym name : GoString) (hym : properName ym)
    (hn : properName name) :
    relPath (mainConfig cwd) (targetPath (mainConfig cwd) ym name) =
      "柠泽".toList ++ '/' :: ym ++ '/' :: name := by
  have hb := Dir_ne_nil cwd
  have ho : Join [Dir cwd, "柠泽".toList] ≠ [] := Join_ne_nil _ _ (by decide)
  have htd : Join [Join [Dir cwd, "柠泽".toList], ym] ≠ [] := Join_ne_nil _ _ hym.1
  have r1 := isRooted_Join_eq (Dir cwd) "柠泽".toList hb
  have r2 := isRooted_Join_eq _ ym ho
  have r3 := isRooted_Join_eq _ name htd
  have e1 := elems_Join (Dir cwd) "柠泽".toList hb properName_outDir
  have e2 := elems_Join _ ym ho hym
  have e3 := elems_Join _ name htd hn
  rw [r2, r1] at e3
  rw [r1] at e2
  rw [e2, e1] at e3
  have hroot : isRooted (targetPath (mainConfig cwd) ym name) = isRooted (Dir cwd) := by
    show isRooted (Join [Join [Join [Dir cwd, "柠泽".toList], ym], name]) = _
    rw [r3, r2, r1]
  have hclean : Clean (targetPath (mainConfig cwd) ym name) = targetPath (mainConfig cwd) ym name :=
    (Join_shape _ name htd hn).1
  have hne : targetPath (mainConfig cwd) ym name ≠ Dir cwd := by
    intro h
    have : cleanElems (isRooted (Dir cwd)) (splitSep (targetPath (mainConfig cwd) ym name)) =
        cleanElems (isRooted (Dir cwd)) (splitSep (Dir cwd)) := by rw [h]
    rw [show targetPath (mainConfig cwd) ym name =
      Join [Join [Join [Dir cwd, "柠泽".toList], ym], name] from rfl, e3] at this
    have := congrArg List.length this
    simp at this
  have hrel : Rel (Dir cwd) (targetPath (mainConfig cwd) ym name) =
      .ok ("柠泽".toList ++ '/' :: ym ++ '/' :: name) := by
    unfold Rel
    simp only [Dir_clean, hclean, hne, if_false, hroot, ne_eq, not_true_eq_false]
    rw [show targetPath (mainConfig cwd) ym name =
      Join [Join [Join [Dir cwd, "柠泽".toList], ym], name] from rfl, e3]
    simp only [List.append_assoc, dropCommon_append]
    simp [joinSep]
  show (match Rel (Dir cwd) (targetPath (mainConfig cwd) ym name) with
    | .ok r => r
    | .error _ => targetPath (mainConfig cwd) ym name) = _
  rw [hrel]

/-! ## The walk callback on a qualifying file -/

theorem hashed_quiet (w : World) (path : GoString) : Quiet w (hashed w path) :=
  (quiet_call w (.open path) none (by simp)).append (quiet_call _ (.read path) none (by simp))

theorem nameOf_proper (E : Env) (cfg : Config) (path : GoString) (data : List Byte) (t : Time)
    (hfmt : cfg.supportedFormats = supportedFormats)
    (hsup : fileExt E path ∈ cfg.supportedFormats) : properName (nameOf E path data t) :=
  newFileName_proper t data _ (hfmt ▸ hsup)

theorem destOf_ne_nil (E : Env) (cfg : Config) (path : GoString) (data : List Byte) (t : Time)
    (hfmt : cfg.supportedFormats = supportedFormats)
    (hsup : fileExt E path ∈ cfg.supportedFormats) : destOf E cfg path data t ≠ [] :=
  targetPath_ne_nil cfg _ _ (nameOf_proper E cfg path data t hfmt hsup)

/-- The callback on a qualifying file whose hash succeeds goes on to place
the file. -/
theorem walkFn_hashed (E : Env) (cfg : Config) (path : GoString) (info : FileInfo) (s : State)
    (data : List Byte) (hdir : info.isDir = false)
    (hsup : fileExt E path ∈ cfg.supportedFormats)
    (hnode : s.world.node path = some (.file data info.modTime))
    (hopen : E.openFault (resolve s.world.cwd path) = false)
    (hread : E.readFault (resolve s.world.cwd path) = false) :
    walkFn E cfg path (some info) none s =
      placeFile E cfg path (nameOf E path data info.modTime) (yearMonthOf info.modTime)
        { s with world := hashed s.world path } := by
  rw [walkFn_supported E cfg path info s hdir hsup,
    computeMD5_file E path s.world data info.modTime hnode hopen hread]
  rfl

/-- Placing a file whose target directory can be made and whose target path
is taken: a duplicate is recorded, nothing is renamed, nothing that exists
changes. -/
theorem placeFile_taken (E : Env) (cfg : Config) (path name ym : GoString) (s : State)
    (hn : name ≠ [])
    (hmk : (MkdirAll E (targetDir cfg ym) s.world).2 = none)
    (hsf : E.statFault (resolve s.world.cwd (targetPath cfg ym name)) = false)
    (hex : s.world.node (targetPath cfg ym name) ≠ none) :
    (placeFile E cfg path name ym s).2 = .nil ∧
    (placeFile E cfg path name ym s).1.duplicateFiles =
      s.duplicateFiles ++ [duplicateRecord (Base path) (relPath cfg (targetPath cfg ym name))] ∧
    (placeFile E cfg path name ym s).1.log = s.log ∧
    Quiet s.world (placeFile E cfg path name ym s).1.world ∧
    (∀ k n, nodeAt s.world.fs k = some n →
      nodeAt (placeFile E cfg path name ym s).1.world.fs k = some n) ∧
    (∀ k n, nodeAt (placeFile E cfg path name ym s).1.world.fs k = some n →
      nodeAt s.world.fs k = some n ∨
        (n = .dir ∧ k <+: resolve s.world.cwd (targetDir cfg ym) ∧
          nodeAt s.world.fs k = none)) ∧
    nodeAt (placeFile E cfg path name ym s).1.world.fs
      (resolve s.world.cwd (targetDir cfg ym)) = some .dir := by
  obtain ⟨m1, m2, m3⟩ := MkdirAll_spec E (targetDir cfg ym) s.world
  have mq := MkdirAll_quiet E (targetDir cfg ym) s.world
  rcases hm : MkdirAll E (targetDir cfg ym) s.world with ⟨w2, e⟩
  rw [hm] at m1 m2 m3 mq hmk
  simp only at hmk m1 m2 m3 mq
  subst hmk
  have htp : targetPath cfg ym name ≠ [] := Join_ne_nil _ _ hn
  have hex2 : w2.node (targetPath cfg ym name) ≠ none := by
    rw [node_eq _ _ htp] at hex ⊢
    rw [mq.1]
    cases h : nodeAt s.world.fs (resolve s.world.cwd (targetPath cfg ym name)) with
    | none => exact absurd h hex
    | some n => rw [m1 _ n h]; simp
  obtain ⟨fi, hfi⟩ := (Stat_ok_iff E _ w2).mpr ⟨by rw [mq.1]; exact hsf, hex2⟩
  have sq := Stat_quiet E (targetPath cfg ym name) w2
  have sf := Stat_fs E (targetPath cfg ym name) w2
  rcases hs : Stat E (targetPath cfg ym name) w2 with ⟨w3, r⟩
  rw [hs] at hfi sq sf
  simp only at hfi sq sf
  subst hfi
  rw [placeFile_duplicate E cfg path name ym s w2 w3 fi hm hs]
  refine ⟨rfl, rfl, rfl, mq.append sq, ?_, ?_, ?_⟩
  · intro k n h; show nodeAt w3.fs k = some n; rw [sf]; exact m1 k n h
  · intro k n h; exact m2 k n (by rw [← sf]; exact h)
  · show nodeAt w3.fs _ = _; rw [sf]; exact (m3 rfl).2

/-- Placing a file whose target directory can be made, whose target path is
free and whose rename is not refused: the file is at the target path, the
source path is free, nothing else changes except for new directories. -/
theorem placeFile_free (E : Env) (cfg : Config) (path name ym : GoString) (s : State)
    (data : List Byte) (t : Time)
    (hroot : isRooted cfg.outputDir = true) (hn : properName name)
    (hsrc : s.world.node path = some (.file data t))
    (hmk : (MkdirAll E (targetDir cfg ym) s.world).2 = none)
    (hfree : s.world.node (targetPath cfg ym name) = none)
    (hrf : E.renameFault (resolve s.world.cwd path)
      (resolve s.world.cwd (targetPath cfg ym name)) = false) :
    (placeFile E cfg path name ym s).2 = .nil ∧
    (placeFile E cfg path name ym s).1.duplicateFiles = s.duplicateFiles ∧
    (placeFile E cfg path name ym s).1.log = s.log ∧
    Extends s.world (placeFile E cfg path name ym s).1.world ∧
    (Call.rename path (targetPath cfg ym name), none) ∈
      (placeFile E cfg path name ym s).1.world.calls ∧
    nodeAt (placeFile E cfg path name ym s).1.world.fs
      (resolve s.world.cwd (targetPath cfg ym name)) = some (.file data t) ∧
    nodeAt (placeFile E cfg path name ym s).1.world.fs (resolve s.world.cwd path) = none ∧
    (∀ k, k ≠ resolve s.world.cwd path → k ≠ resolve s.world.cwd (targetPath cfg ym name) →
      nodeAt (placeFile E cfg path name ym s).1.world.fs k = nodeAt s.world.fs k ∨
        (nodeAt s.world.fs k = none ∧
          nodeAt (placeFile E cfg path name ym s).1.world.fs k = some .dir ∧
          k <+: resolve s.world.cwd (targetDir cfg ym))) ∧
    nodeAt (placeFile E cfg path name ym s).1.world.fs
      (resolve s.world.cwd (targetDir cfg ym)) = some .dir := by
  obtain ⟨m1, m2, m3⟩ := MkdirAll_spec E (targetDir cfg ym) s.world
  have mq := MkdirAll_quiet E (targetDir cfg ym) s.world
  rcases hm : MkdirAll E (targetDir cfg ym) s.world with ⟨w2, e⟩
  rw [hm] at m1 m2 m3 mq hmk
  simp only at hmk m1 m2 m3 mq
  subst hmk
  have htp : targetPath cfg ym name ≠ [] := Join_ne_nil _ _ hn.1
  have hpne : path ≠ [] := by rintro rfl; simp [World.node] at hsrc
  have hres := resolve_targetPath s.world.cwd cfg ym name hroot hn
  -- the target path is still free after the directories were made
  have hfree2 : w2.node (targetPath cfg ym name) = none := by
    rw [node_eq _ _ htp] at hfree ⊢
    rw [mq.1]
    cases h : nodeAt w2.fs (resolve s.world.cwd (targetPath cfg ym name)) with
    | none => rfl
    | some n =>
      rcases m2 _ n h with h1 | ⟨_, h2, _⟩
      · rw [hfree] at h1; simp at h1
      · rw [hres] at h2
        have := h2.length_le
        simp at this
  have hsrc2 : w2.node path = some (.file data t) := by
    rw [node_eq _ _ hpne] at hsrc ⊢
    rw [mq.1]; exact m1 _ _ hsrc
  have sq := Stat_quiet E (targetPath cfg ym name) w2
  have sf := Stat_fs E (targetPath cfg ym name) w2
  have hst : ∃ er, (Stat E (targetPath cfg ym name) w2).2 = .error er := by
    obtain ⟨er, her⟩ := Stat_absent E _ w2 hfree2
    exact ⟨er, by rw [her]⟩
  obtain ⟨er, her⟩ := hst
  rcases hs : Stat E (targetPath cfg ym name) w2 with ⟨w3, r⟩
  rw [hs] at her sq sf
  simp only at her sq sf
  subst her
  have hc3 : w3.cwd = s.world.cwd := sq.1.trans mq.1
  have hsrc3 : w3.node path = some (.file data t) := by
    rw [node_eq _ _ hpne] at hsrc2 ⊢
    rw [sf, sq.1]; exact hsrc2
  have hfree3 : w3.node (targetPath cfg ym name) = none := by
    rw [node_eq _ _ htp] at hfree2 ⊢
    rw [sf, sq.1]; exact hfree2
  have hpar : nodeAt w3.fs (resolve w3.cwd (targetPath cfg ym name)).dropLast = some .dir := by
    rw [hc3, hres, sf]
    simpa using (m3 rfl).2
  have hok := Rename_success E path (targetPath cfg ym name) w3 data t hsrc3 hfree3 htp
    (by rw [hc3]; exact hrf) hpar
  have hcall := Rename_call E path (targetPath cfg ym name) w3
  have hext := Rename_extends E path (targetPath cfg ym name) w3
  rcases Rename_file_spec E path (targetPath cfg ym name) w3 data t hsrc3 hfree3 htp with
    ⟨h1, _⟩ | ⟨_, _, _, _, hk⟩
  · exact absurd hok h1
  · rcases hr : Rename E path (targetPath cfg ym name) w3 with ⟨w4, e4⟩
    rw [hr] at hok hcall hext hk
    simp only at hok hcall hext hk
    subst hok
    rw [placeFile_moved E cfg path name ym s w2 w3 w4 er hm hs hr]
    rw [hc3] at hk
    have hab : resolve s.world.cwd path ≠ resolve s.world.cwd (targetPath cfg ym name) := by
      intro h
      rw [node_eq _ _ hpne, h] at hsrc
      rw [node_eq _ _ htp, hsrc] at hfree
      simp at hfree
    refine ⟨rfl, rfl, rfl, (mq.extends.chain sq.extends).chain hext, ?_, ?_, ?_, ?_, ?_⟩
    · show _ ∈ w4.calls; rw [hcall]; simp
    · show nodeAt w4.fs _ = _; rw [hk]; simp
    · show nodeAt w4.fs _ = _; rw [hk]; simp [hab]
    · intro k hk1 hk2
      show nodeAt w4.fs k = _ ∨ (_ ∧ nodeAt w4.fs k = _ ∧ _)
      rw [hk, if_neg hk2, if_neg hk1, sf]
      cases h : nodeAt w2.fs k with
      | none =>
        left
        cases h0 : nodeAt s.world.fs k with
        | none => rfl
        | some n => rw [m1 k n h0] at h; simp at h
      | some n =>
        rcases m2 k n h with h1 | ⟨h1, h2, h3⟩
        · left; exact h1.symm
        · right; exact ⟨h3, by rw [h1], h2⟩
    · show nodeAt w4.fs _ = _
      have htd := (m3 rfl).2
      have h1 : resolve s.world.cwd (targetDir cfg ym) ≠
          resolve s.world.cwd (targetPath cfg ym name) := by
        rw [hres]; intro h
        have := congrArg List.length h
        simp at this
      have h2 : resolve s.world.cwd (targetDir cfg ym) ≠ resolve s.world.cwd path := by
        intro h
        rw [node_eq _ _ hpne, mq.1, ← h, htd] at hsrc2
        simp at hsrc2
      rw [hk, if_neg h1, if_neg h2, sf]
      exact htd

/-- The duplicate branch when `os.Stat` works: for a qualifying file whose
hash and target directory succeed, if something already exists at the computed
target path, whatever it is, and `os.Stat` of that path is not refused, the
callback returns `nil` and renames nothing (no `os.Rename` among its calls):
the source file is still at its path with its content, every entry that
existed is unchanged (so the entry at the target path is not overwritten),
nothing is logged, and the duplicate list is the old list followed by the one
record `<base name of the source> => 柠泽/<year-month>/<new name>`, the target
path relative to the parent of the output directory. -/
theorem duplicate_recorded (E : Env) (cwd path : GoString) (info : FileInfo) (s : State)
    (data : List Byte)
    (hdir : info.isDir = false)
    (hsup : fileExt E path ∈ supportedFormats)
    (hnode : s.world.node path = some (.file data info.modTime))
    (hopen : E.openFault (resolve s.world.cwd path) = false)
    (hread : E.readFault (resolve s.world.cwd path) = false)
    (hmk : (MkdirAll E (targetDir (mainConfig cwd) (yearMonthOf info.modTime))
      (hashed s.world path)).2 = none)
    (hsf : E.statFault
      (resolve s.world.cwd (destOf E (mainConfig cwd) path data info.modTime)) = false)
    (hex : s.world.node (destOf E (mainConfig cwd) path data info.modTime) ≠ none) :
    (walkFn E (mainConfig cwd) path (some info) none s).2 = .nil ∧
    (∃ l, (walkFn E (mainConfig cwd) path (some info) none s).1.world.calls =
        s.world.calls ++ l ∧ ∀ c ∈ l, ∀ a b, c.1 ≠ Call.rename a b) ∧
    (walkFn E (mainConfig cwd) path (some info) none s).1.world.node path =
      some (.file data info.modTime) ∧
    (walkFn E (mainConfig cwd) path (some info) none s).1.world.node
        (destOf E (mainConfig cwd) path data info.modTime) =
      s.world.node (destOf E (mainConfig cwd) path data info.modTime) ∧
    (∀ k n, nodeAt s.world.fs k = some n →
      nodeAt (walkFn E (mainConfig cwd) path (some info) none s).1.world.fs k = some n) ∧
    (walkFn E (mainConfig cwd) path (some info) none s).1.duplicateFiles =
      s.duplicateFiles ++
        [Base path ++ " => ".toList ++
          ("柠泽".toList ++ '/' :: yearMonthOf info.modTime ++
            '/' :: nameOf E path data info.modTime)] ∧
    (walkFn E (mainConfig cwd) path (some info) none s).1.log = s.log := by
  have hfmt : (mainConfig cwd).supportedFormats = supportedFormats := rfl
  have hn := nameOf_proper E (mainConfig cwd) path data info.modTime hfmt hsup
  have hpne : path ≠ [] := by rintro rfl; simp [World.node] at hnode
  have hd := destOf_ne_nil E (mainConfig cwd) path data info.modTime hfmt hsup
  rw [walkFn_hashed E (mainConfig cwd) path info s data hdir hsup hnode hopen hread]
  obtain ⟨a1, a2, a3, a4, a5, _, _⟩ := placeFile_taken E (mainConfig cwd) path
    (nameOf E path data info.modTime) (yearMonthOf info.modTime)
    { s with world := hashed s.world path } hn.1 hmk hsf hex
  have hq := (hashed_quiet s.world path).append a4
  have hnodes : ∀ name, name ≠ [] → ∀ n, s.world.node name = some n →
      (placeFile E (mainConfig cwd) path (nameOf E path data info.modTime)
        (yearMonthOf info.modTime) { s with world := hashed s.world path }).1.world.node name =
        some n := by
    intro name hne n h
    rw [node_eq _ _ hne] at h ⊢
    rw [hq.1]
    exact a5 _ _ h
  refine ⟨a1, hq.2, hnodes path hpne _ hnode, ?_, a5, ?_, a3⟩
  · cases h : s.world.node (destOf E (mainConfig cwd) path data info.modTime) with
    | none => exact absurd h hex
    | some n => exact hnodes _ hd n h
  · have hym : properName (yearMonthOf info.modTime) := yearMonth_proper info.modTime
    rw [a2, relPath_mainConfig cwd (yearMonthOf info.modTime) _ hym hn]
    rfl

/-- C4: for a qualifying file whose hash and target directory succeed, if
nothing exists at the computed target path and the rename is not refused,
then after the callback the target path holds the file with its content and
modification time, the source path holds nothing, every other path holds what
it held before or is a newly made directory on the way to the target
directory (so every other file is unchanged), and the duplicate list and the
log are unchanged; the callback returns `nil`. -/
theorem C4_file_moved (E : Env) (cfg : Config) (path : GoString) (info : FileInfo) (s : State)
    (data : List Byte)
    (hfmt : cfg.supportedFormats = supportedFormats)
    (hroot : isRooted cfg.outputDir = true)
    (hdir : info.isDir = false)
    (hsup : fileExt E path ∈ cfg.supportedFormats)
    (hnode : s.world.node path = some (.file data info.modTime))
    (hopen : E.openFault (resolve s.world.cwd path) = false)
    (hread : E.readFault (resolve s.world.cwd path) = false)
    (hmk : (MkdirAll E (targetDir cfg (yearMonthOf info.modTime)) (hashed s.world path)).2 = none)
    (hfree : s.world.node (destOf E cfg path data info.modTime) = none)
    (hrf : E.renameFault (resolve s.world.cwd path)
      (resolve s.world.cwd (destOf E cfg path data info.modTime)) = false) :
    (walkFn E cfg path (some info) none s).2 = .nil ∧
    (walkFn E cfg path (some info) none s).1.world.node (destOf E cfg path data info.modTime) =
      some (.file data info.modTime) ∧
    (walkFn E cfg path (some info) none s).1.world.node path = none ∧
    (∀ k, k ≠ resolve s.world.cwd path →
      k ≠ resolve s.world.cwd (destOf E cfg path data info.modTime) →
      nodeAt (walkFn E cfg path (some info) none s).1.world.fs k = nodeAt s.world.fs k ∨
        (nodeAt s.world.fs k = none ∧
          nodeAt (walkFn E cfg path (some info) none s).1.world.fs k = some .dir ∧
          k <+: resolve s.world.cwd (targetDir cfg (yearMonthOf info.modTime)))) ∧
    (walkFn E cfg path (some info) none s).1.duplicateFiles = s.duplicateFiles ∧
    (walkFn E cfg path (some info) none s).1.log = s.log := by
  have hn := nameOf_proper E cfg path data info.modTime hfmt hsup
  have hpne : path ≠ [] := by rintro rfl; simp [World.node] at hnode
  have hd := destOf_ne_nil E cfg path data info.modTime hfmt hsup
  rw [walkFn_hashed E cfg path info s data hdir hsup hnode hopen hread]
  obtain ⟨a1, a2, a3, a4, _, a6, a7, a8, _⟩ := placeFile_free E cfg path
    (nameOf E path data info.modTime) (yearMonthOf info.modTime)
    { s with world := hashed s.world path } data info.modTime hroot hn hnode hmk hfree hrf
  have hc := (hashed_quiet s.world path).extends.chain a4
  refine ⟨a1, ?_, ?_, a8, a2, a3⟩
  · rw [node_eq _ _ hd, hc.1]; exact a6
  · rw [node_eq _ _ hpne, hc.1]; exact a7

set_option maxRecDepth 100000 in
/-- C4 at `photo.JPG` (content `ABC`, 2023-10-05 14:30:00) in a world
without archive: afterwards the file is at
`/home/柠泽/2023-10/<date>_<digest>.jpg` and `photo.JPG` is gone. -/
theorem C4_file_moved_witness :
    (walkFn exEnv exCfg exPhoto (some ⟨false, exTime⟩) none exState).1.world.node
        (destOf exEnv exCfg exPhoto exABC exTime) = some (.file exABC exTime) ∧
    (walkFn exEnv exCfg exPhoto (some ⟨false, exTime⟩) none exState).1.world.node exPhoto =
      none ∧
    destOf exEnv exCfg exPhoto exABC exTime =
      "/home/柠泽/2023-10/2023-10-05_143000_902fbdd2b1df0c4f70b4a5d23525e932.jpg".toList :=
  ⟨(C4_file_moved exEnv exCfg exPhoto ⟨false, exTime⟩ exState exABC rfl (by decide) rfl
      (by decide) (by decide) rfl rfl (by decide) (by decide) rfl).2.1,
   (C4_file_moved exEnv exCfg exPhoto ⟨false, exTime⟩ exState exABC rfl (by decide) rfl
      (by decide) (by decide) rfl rfl (by decide) (by decide) rfl).2.2.1,
   by decide⟩

theorem Format_sameSecond (t1 t2 : Time) (h : sameSecond t1 t2) :
    Format t1 fileDateLayout = Format t2 fileDateLayout := by
  obtain ⟨h1, h2, h3, h4, h5, h6⟩ := h
  rw [Format_fileDate, Format_fileDate, h1, h2, h3, h4, h5, h6]

/-- Files with the same content, the same extension and the same second of
modification have the same target path: the deduplication key. -/
theorem destOf_congr (E : Env) (cfg : Config) (p1 p2 : GoString) (data : List Byte)
    (t1 t2 : Time) (hext : fileExt E p2 = fileExt E p1) (ht : sameSecond t1 t2) :
    yearMonthOf t2 = yearMonthOf t1 ∧ destOf E cfg p2 data t2 = destOf E cfg p1 data t1 := by
  have := Format_sameSecond t1 t2 ht
  simp [destOf, yearMonthOf, nameOf, hext, this]

theorem yearMonthOf_proper (t : Time) : properName (yearMonthOf t) := yearMonth_proper t

theorem hashed_fs (w : World) (p : GoString) : (hashed w p).fs = w.fs := rfl

theorem hashed_cwd (w : World) (p : GoString) : (hashed w p).cwd = w.cwd := rfl

/-- Two copies when `os.Stat` works: of two qualifying files with the same content, the same second of
modification and the same extension, processed one after the other from a
state in which their common target path is free, with hashing, directory
creation and the rename succeeding and `os.Stat` of the target path not
refused, the first is moved to the target path,
and the second stays at its path with its content, leaves the moved file
alone, renames nothing and adds exactly one record to the duplicate list: its
base name and that target path (in the relative form of the report). -/
theorem second_copy_recorded (E : Env) (cfg : Config) (p1 p2 : GoString)
    (info1 info2 : FileInfo) (s : State) (data : List Byte)
    (hfmt : cfg.supportedFormats = supportedFormats)
    (hroot : isRooted cfg.outputDir = true)
    (hdir1 : info1.isDir = false) (hdir2 : info2.isDir = false)
    (hsup : fileExt E p1 ∈ cfg.supportedFormats)
    (hext : fileExt E p2 = fileExt E p1)
    (htime : sameSecond info1.modTime info2.modTime)
    (hnode1 : s.world.node p1 = some (.file data info1.modTime))
    (hnode2 : s.world.node p2 = some (.file data info2.modTime))
    (hne : resolve s.world.cwd p1 ≠ resolve s.world.cwd p2)
    (hopen1 : E.openFault (resolve s.world.cwd p1) = false)
    (hread1 : E.readFault (resolve s.world.cwd p1) = false)
    (hopen2 : E.openFault (resolve s.world.cwd p2) = false)
    (hread2 : E.readFault (resolve s.world.cwd p2) = false)
    (hmk : (MkdirAll E (targetDir cfg (yearMonthOf info1.modTime)) (hashed s.world p1)).2 = none)
    (hfree : s.world.node (destOf E cfg p1 data info1.modTime) = none)
    (hsf : E.statFault (resolve s.world.cwd (destOf E cfg p1 data info1.modTime)) = false)
    (hrf : E.renameFault (resolve s.world.cwd p1)
      (resolve s.world.cwd (destOf E cfg p1 data info1.modTime)) = false) :
    destOf E cfg p2 data info2.modTime = destOf E cfg p1 data info1.modTime ∧
    (walkFn E cfg p1 (some info1) none s).2 = .nil ∧
    (walkFn E cfg p1 (some info1) none s).1.world.node (destOf E cfg p1 data info1.modTime) =
      some (.file data info1.modTime) ∧
    (walkFn E cfg p1 (some info1) none s).1.world.node p1 = none ∧
    (walkFn E cfg p1 (some info1) none s).1.duplicateFiles = s.duplicateFiles ∧
    (walkFn E cfg p2 (some info2) none (walkFn E cfg p1 (some info1) none s).1).2 = .nil ∧
    (walkFn E cfg p2 (some info2) none (walkFn E cfg p1 (some info1) none s).1).1.world.node p2 =
      some (.file data info2.modTime) ∧
    (walkFn E cfg p2 (some info2) none (walkFn E cfg p1 (some info1) none s).1).1.world.node
        (destOf E cfg p1 data info1.modTime) = some (.file data info1.modTime) ∧
    (∃ l, (walkFn E cfg p2 (some info2) none
          (walkFn E cfg p1 (some info1) none s).1).1.world.calls =
        (walkFn E cfg p1 (some info1) none s).1.world.calls ++ l ∧
        ∀ c ∈ l, ∀ a b, c.1 ≠ Call.rename a b) ∧
    (walkFn E cfg p2 (some info2) none (walkFn E cfg p1 (some info1) none s).1).1.duplicateFiles =
      s.duplicateFiles ++
        [duplicateRecord (Base p2) (relPath cfg (destOf E cfg p1 data info1.modTime))] := by
  obtain ⟨hym, hdest⟩ := destOf_congr E cfg p1 p2 data info1.modTime info2.modTime hext htime
  have hsup2 : fileExt E p2 ∈ cfg.supportedFormats := hext ▸ hsup
  have hn1 := nameOf_proper E cfg p1 data info1.modTime hfmt hsup
  have hn2 := nameOf_proper E cfg p2 data info2.modTime hfmt hsup2
  have hp1 : p1 ≠ [] := by rintro rfl; simp [World.node] at hnode1
  have hp2 : p2 ≠ [] := by rintro rfl; simp [World.node] at hnode2
  have hd := destOf_ne_nil E cfg p1 data info1.modTime hfmt hsup
  -- the first file
  have hw1 := walkFn_hashed E cfg p1 info1 s data hdir1 hsup hnode1 hopen1 hread1
  obtain ⟨a1, a2, _, a4, _, a6, a7, a8, a9⟩ := placeFile_free E cfg p1
    (nameOf E p1 data info1.modTime) (yearMonthOf info1.modTime)
    { s with world := hashed s.world p1 } data info1.modTime hroot hn1 hnode1 hmk hfree hrf
  rw [← hw1] at a1 a2 a4 a6 a7 a8 a9
  have hc := (hashed_quiet s.world p1).extends.chain a4
  generalize (walkFn E cfg p1 (some info1) none s) = r1 at a1 a2 a4 a6 a7 a8 a9 hc ⊢
  simp only [hashed_fs, hashed_cwd] at a6 a7 a8 a9
  have hdst1 : r1.1.world.node (destOf E cfg p1 data info1.modTime) =
      some (.file data info1.modTime) := by
    rw [node_eq _ _ hd, hc.1]; exact a6
  -- the second file is still there
  have hnode2' : r1.1.world.node p2 = some (.file data info2.modTime) := by
    rw [node_eq _ _ hp2] at hnode2 ⊢
    rw [hc.1]
    have hk2 : resolve s.world.cwd p2 ≠ resolve s.world.cwd (destOf E cfg p1 data info1.modTime) := by
      intro h
      rw [node_eq _ _ hd, ← h, hnode2] at hfree
      simp at hfree
    rcases a8 _ (Ne.symm hne) hk2 with h | ⟨h, _⟩
    · rw [h]; exact hnode2
    · rw [hnode2] at h; simp at h
  have hmk2 : (MkdirAll E (targetDir cfg (yearMonthOf info2.modTime))
      (hashed r1.1.world p2)).2 = none := by
    rw [hym, MkdirAll_of_dir E (targetDir cfg (yearMonthOf info1.modTime)) _
      (targetDir_ne_nil cfg _ (yearMonthOf_proper info1.modTime))
      (by rw [hashed_fs, hashed_cwd, hc.1]; exact a9)]
  have hex2 : r1.1.world.node (destOf E cfg p2 data info2.modTime) ≠ none := by
    rw [hdest, hdst1]; simp
  have hw2 := walkFn_hashed E cfg p2 info2 r1.1 data hdir2 hsup2 hnode2'
    (by rw [hc.1]; exact hopen2) (by rw [hc.1]; exact hread2)
  obtain ⟨b1, b2, _, b4, b5, _, _⟩ := placeFile_taken E cfg p2
    (nameOf E p2 data info2.modTime) (yearMonthOf info2.modTime)
    { r1.1 with world := hashed r1.1.world p2 } hn2.1 hmk2
    (by
      show E.statFault (resolve r1.1.world.cwd (destOf E cfg p2 data info2.modTime)) = false
      rw [hdest, hc.1]; exact hsf) hex2
  rw [← hw2] at b1 b2 b4 b5
  have hq := (hashed_quiet r1.1.world p2).append b4
  generalize (walkFn E cfg p2 (some info2) none r1.1) = r2 at b1 b2 b4 b5 hq ⊢
  simp only [hashed_fs] at b5
  refine ⟨hdest, a1, hdst1, ?_, a2, b1, ?_, ?_, hq.2, ?_⟩
  · rw [node_eq _ _ hp1, hc.1]; exact a7
  · rw [node_eq _ _ hp2] at hnode2' ⊢
    rw [hq.1]; exact b5 _ _ hnode2'
  · rw [node_eq _ _ hd] at hdst1 ⊢
    rw [hq.1]; exact b5 _ _ hdst1
  · rw [b2]
    show r1.1.duplicateFiles ++ _ = _
    rw [a2]
    show s.duplicateFiles ++ [duplicateRecord (Base p2) (relPath cfg
      (destOf E cfg p2 data info2.modTime))] = _
    rw [hdest]

/-! ## What the callback can change -/

theorem Frame.refl (R : Path) (s : State) : Frame R s s :=
  ⟨rfl, ⟨[], by simp⟩, ⟨[], by simp⟩, ⟨[], by simp⟩, fun _ _ _ h => h, fun _ _ h => h,
    fun _ h => h⟩

theorem Frame.trans {R : Path} {a b c : State} (h1 : Frame R a b) (h2 : Frame R b c) :
    Frame R a c := by
  obtain ⟨l1, e1⟩ := h1.calls
  obtain ⟨l2, e2⟩ := h2.calls
  obtain ⟨m1, f1⟩ := h1.log
  obtain ⟨m2, f2⟩ := h2.log
  obtain ⟨d1, g1⟩ := h1.dups
  obtain ⟨d2, g2⟩ := h2.dups
  exact ⟨h2.cwd.trans h1.cwd, ⟨l1 ++ l2, by rw [e2, e1, List.append_assoc]⟩,
    ⟨m1 ++ m2, by rw [f2, f1, List.append_assoc]⟩,
    ⟨d1 ++ d2, by rw [g2, g1, List.append_assoc]⟩,
    fun k n hk h => h1.under k n hk (h2.under k n hk h),
    fun k hk h => h2.outside k hk (h1.outside k hk h),
    fun k h => h2.dirs k (h1.dirs k h)⟩

/-- A step that only adds to the trace. -/
theorem Frame.of_extends (R : Path) (s : State) (w1 : World) (h : Extends s.world w1)
    (hfs : w1.fs = s.world.fs) : Frame R s { s with world := w1 } :=
  ⟨h.1, h.2, ⟨[], by simp⟩, ⟨[], by simp⟩, fun _ _ _ hh => by simpa [hfs] using hh,
    fun _ _ hh => by simpa [hfs] using hh, fun _ hh => by simpa [hfs] using hh⟩

/-- Below `R`, and off the place `P` a step is confined to, the step changes
nothing. -/
theorem Frame.keeps {R P : Path} {s s1 : State} (h1 : Frame R s s1) (h2 : Frame P s s1)
    (k : Path) (hk : R <+: k) (hn : ¬ P <+: k) :
    nodeAt s1.world.fs k = nodeAt s.world.fs k := by
  cases h : nodeAt s1.world.fs k with
  | some n => exact (h1.under k n hk h).symm
  | none =>
    cases h0 : nodeAt s.world.fs k with
    | none => rfl
    | some n => exact absurd h (h2.outside k hn (by rw [h0]; simp))

/-- Everything placing a file can do to the state, whatever fails. -/
theorem placeFile_frame (E : Env) (cfg : Config) (path name ym : GoString) (s : State)
    (data : List Byte) (t : Time) (hn : properName name)
    (hsrc : s.world.node path = some (.file data t)) :
    Extends s.world (placeFile E cfg path name ym s).1.world ∧
    (∃ l, (placeFile E cfg path name ym s).1.log = s.log ++ l) ∧
    (∃ l, (placeFile E cfg path name ym s).1.duplicateFiles = s.duplicateFiles ++ l) ∧
    (∀ k n, nodeAt s.world.fs k = some n → k ≠ resolve s.world.cwd path →
      nodeAt (placeFile E cfg path name ym s).1.world.fs k = some n ∨
        (k = resolve s.world.cwd (targetPath cfg ym name) ∧ n ≠ .dir ∧
          nodeAt (placeFile E cfg path name ym s).1.world.fs k ≠ none)) ∧
    (∀ k n, nodeAt (placeFile E cfg path name ym s).1.world.fs k = some n →
      nodeAt s.world.fs k = some n ∨
        (n = .dir ∧ k <+: resolve s.world.cwd (targetDir cfg ym)) ∨
        k = resolve s.world.cwd (targetPath cfg ym name)) ∧
    ((placeFile E cfg path name ym s).1.log = s.log →
      ((placeFile E cfg path name ym s).1.duplicateFiles = s.duplicateFiles ++
          [duplicateRecord (Base path) (relPath cfg (targetPath cfg ym name))] ∧
        Quiet s.world (placeFile E cfg path name ym s).1.world ∧
        nodeAt (placeFile E cfg path name ym s).1.world.fs
          (resolve s.world.cwd (targetDir cfg ym)) = some .dir ∧
        nodeAt (placeFile E cfg path name ym s).1.world.fs
          (resolve s.world.cwd (targetPath cfg ym name)) ≠ none ∧
        E.statFault (resolve s.world.cwd (targetPath cfg ym name)) = false ∧
        ∀ k n, nodeAt s.world.fs k = some n →
          nodeAt (placeFile E cfg path name ym s).1.world.fs k = some n) ∨
      ((placeFile E cfg path name ym s).1.duplicateFiles = s.duplicateFiles ∧
        nodeAt (placeFile E cfg path name ym s).1.world.fs
          (resolve s.world.cwd (targetPath cfg ym name)) = some (.file data t) ∧
        (resolve s.world.cwd path ≠ resolve s.world.cwd (targetPath cfg ym name) →
          nodeAt (placeFile E cfg path name ym s).1.world.fs (resolve s.world.cwd path) =
            none))) ∧
    ((placeFile E cfg path name ym s).1.log ≠ s.log →
      (placeFile E cfg path name ym s).1.duplicateFiles = s.duplicateFiles ∧
      ∀ k n, nodeAt s.world.fs k = some n →
        nodeAt (placeFile E cfg path name ym s).1.world.fs k = some n) := by
  obtain ⟨m1, m2, m3⟩ := MkdirAll_spec E (targetDir cfg ym) s.world
  have mq := MkdirAll_quiet E (targetDir cfg ym) s.world
  have htp : targetPath cfg ym name ≠ [] := Join_ne_nil _ _ hn.1
  have hpne : path ≠ [] := by rintro rfl; simp [World.node] at hsrc
  have m2' : ∀ k n, nodeAt (MkdirAll E (targetDir cfg ym) s.world).1.fs k = some n →
      nodeAt s.world.fs k = some n ∨
        (n = .dir ∧ k <+: resolve s.world.cwd (targetDir cfg ym)) ∨
        k = resolve s.world.cwd (targetPath cfg ym name) := by
    intro k n h
    rcases m2 k n h with h | ⟨h1, h2, _⟩
    · exact Or.inl h
    · exact Or.inr (Or.inl ⟨h1, h2⟩)
  rcases hm : MkdirAll E (targetDir cfg ym) s.world with ⟨w2, _ | e⟩
  · -- the directory is there
    rw [hm] at m1 m2' m3 mq
    simp only at m1 m2' m3 mq
    have sq := Stat_quiet E (targetPath cfg ym name) w2
    have sf := Stat_fs E (targetPath cfg ym name) w2
    rcases hs : Stat E (targetPath cfg ym name) w2 with ⟨w3, er | fi⟩
    · -- the target path is free, or cannot be examined: rename
      rw [hs] at sq sf
      simp only at sq sf
      have hc3 : w3.cwd = s.world.cwd := sq.1.trans mq.1
      have hsrc3 : w3.node path = some (.file data t) := by
        rw [node_eq _ _ hpne] at hsrc ⊢
        rw [sf, hc3]; exact m1 _ _ hsrc
      have hext := Rename_extends E path (targetPath cfg ym name) w3
      rcases Rename_file_any E path (targetPath cfg ym name) w3 data t hsrc3 htp with
        ⟨h1, h2⟩ | ⟨h1, hnd, hk⟩
      · rcases hr : Rename E path (targetPath cfg ym name) w3 with ⟨w4, _ | e⟩
        · rw [hr] at h1; simp at h1
        · rw [hr] at h2 hext
          simp only at h2 hext
          rw [placeFile_moveFailed E cfg path name ym s w2 w3 w4 er e hm hs hr]
          refine ⟨(mq.extends.chain sq.extends).chain hext, ⟨_, rfl⟩, ⟨[], by simp⟩, ?_, ?_,
            fun h => by simp at h, fun _ => ⟨rfl, ?_⟩⟩
          · intro k n h _; left; show nodeAt w4.fs k = some n; rw [h2, sf]; exact m1 k n h
          · intro k n h; exact m2' k n (by rw [← sf, ← h2]; exact h)
          · intro k n h; show nodeAt w4.fs k = some n; rw [h2, sf]; exact m1 k n h
      · rcases hr : Rename E path (targetPath cfg ym name) w3 with ⟨w4, _ | e⟩
        · rw [hr] at hk hext
          simp only at hk hext
          rw [hc3] at hk hnd
          rw [placeFile_moved E cfg path name ym s w2 w3 w4 er hm hs hr]
          refine ⟨(mq.extends.chain sq.extends).chain hext, ⟨[], by simp⟩, ⟨[], by simp⟩, ?_, ?_,
            fun _ => Or.inr ⟨rfl, ?_, ?_⟩, fun h => absurd rfl h⟩
          · intro k n h hks
            show nodeAt w4.fs k = some n ∨ _
            by_cases hkt : k = resolve s.world.cwd (targetPath cfg ym name)
            · right
              refine ⟨hkt, ?_, ?_⟩
              · rintro rfl
                rw [sf, ← hkt, m1 k _ h] at hnd
                exact hnd rfl
              · show nodeAt w4.fs k ≠ none
                rw [hk, if_pos hkt]; simp
            · left
              rw [hk, if_neg hkt, if_neg hks, sf]; exact m1 k n h
          · intro k n h
            have h' : nodeAt w4.fs k = some n := h
            rw [hk] at h'
            by_cases hkt : k = resolve s.world.cwd (targetPath cfg ym name)
            · exact Or.inr (Or.inr hkt)
            · rw [if_neg hkt] at h'
              by_cases hks : k = resolve s.world.cwd path
              · rw [if_pos hks] at h'; simp at h'
              · rw [if_neg hks, sf] at h'; exact m2' k n h'
          · show nodeAt w4.fs _ = _
            rw [hk, if_pos rfl]
          · intro hab
            show nodeAt w4.fs _ = none
            rw [hk, if_neg hab, if_pos rfl]
        · rw [hr] at h1; simp at h1
    · -- the target path is taken: duplicate
      rw [hs] at sq sf
      simp only at sq sf
      obtain ⟨hsf2, hex2⟩ := (Stat_ok_iff E _ w2).mp ⟨fi, by rw [hs]⟩
      rw [placeFile_duplicate E cfg path name ym s w2 w3 fi hm hs]
      have hpres : ∀ k n, nodeAt s.world.fs k = some n → nodeAt w3.fs k = some n := by
        intro k n h; rw [sf]; exact m1 k n h
      refine ⟨mq.extends.chain sq.extends, ⟨[], by simp⟩, ⟨_, rfl⟩,
        fun k n h _ => Or.inl (hpres k n h),
        ?_, fun _ => Or.inl ⟨rfl, mq.append sq, ?_, ?_, ?_, hpres⟩, fun h => absurd rfl h⟩
      · intro k n h; exact m2' k n (by rw [← sf]; exact h)
      · show nodeAt w3.fs _ = _; rw [sf]; exact (m3 trivial).2
      · show nodeAt w3.fs _ ≠ none
        rw [node_eq _ _ htp, mq.1] at hex2
        rw [sf]; exact hex2
      · rw [mq.1] at hsf2; exact hsf2
  · -- the directory cannot be made
    rw [hm] at m1 m2' mq
    simp only at m1 m2' mq
    rw [placeFile_mkdirFailed E cfg path name ym s w2 e hm]
    exact ⟨mq.extends, ⟨_, rfl⟩, ⟨[], by simp⟩, fun k n h _ => Or.inl (m1 k n h), m2',
      fun h => by simp at h, fun _ => ⟨rfl, m1⟩⟩

theorem resolve_abs (cwd : Path) (p : GoString) (h : isRooted p = true) :
    resolve cwd p = absPath p := resolve_rooted cwd p h

theorem CleanAbs.ne_nil {p : GoString} (h : CleanAbs p) : p ≠ [] := by
  rintro rfl; simp [CleanAbs, isRooted] at h

theorem CleanAbs.ne_dot {p : GoString} (h : CleanAbs p) : p ≠ ['.'] := by
  rintro rfl; simp [CleanAbs, isRooted] at h

/-- A name walked below a clean rooted directory: the directory, the
separator and the name; it is clean and rooted again and stands for one more
element. -/
theorem CleanAbs.join {p : GoString} (h : CleanAbs p) (n : GoString) (hn : properName n) :
    Join [p, n] = p ++ '/' :: n ∧ CleanAbs (Join [p, n]) ∧
      absPath (Join [p, n]) = absPath p ++ [n] := by
  obtain ⟨h1, h2, h3⟩ := h
  have hne : p ≠ [] := by rintro rfl; simp [isRooted] at h1
  obtain ⟨s1, s2, _⟩ := Join_shape p n hne hn
  refine ⟨Join_clean p n h2 h3 (CleanAbs.ne_dot ⟨h1, h2, h3⟩) hn,
    ⟨isRooted_Join p n h1, s1, s2⟩, ?_⟩
  have := resolve_Join [] p n h1 hn
  rwa [resolve_abs _ _ (isRooted_Join p n h1), resolve_abs _ _ h1] at this

theorem strOf_absPath {p : GoString} (h : CleanAbs p) : strOf (absPath p) = p := by
  obtain ⟨h1, h2, _⟩ := h
  have hne : p ≠ [] := by rintro rfl; simp [isRooted] at h1
  have := Clean_eq_render p hne
  rw [h2, h1] at this
  simpa [renderPath, strOf, absPath] using this.symm

theorem isRooted_targetDir (cfg : Config) (ym : GoString) (hr : isRooted cfg.outputDir = true) :
    isRooted (targetDir cfg ym) = true := isRooted_Join _ _ hr

theorem isRooted_targetPath (cfg : Config) (ym name : GoString)
    (hr : isRooted cfg.outputDir = true) : isRooted (targetPath cfg ym name) = true :=
  isRooted_Join _ _ (isRooted_Join _ _ hr)

theorem yearMonthOf_length (t : Time) : (yearMonthOf t).length = 7 := take7_length t

theorem absPath_targetDir (cfg : Config) (ym : GoString) (hr : isRooted cfg.outputDir = true)
    (hym : properName ym) : absPath (targetDir cfg ym) = absPath cfg.outputDir ++ [ym] := by
  have := resolve_targetDir [] cfg ym hr hym
  rwa [resolve_abs _ _ (isRooted_targetDir cfg ym hr), resolve_abs _ _ hr] at this

theorem absPath_targetPath (cfg : Config) (ym name : GoString)
    (hr : isRooted cfg.outputDir = true) (hym : properName ym) (hn : properName name) :
    absPath (targetPath cfg ym name) = absPath cfg.outputDir ++ [ym, name] := by
  have := resolve_targetPath [] cfg ym name hr hn
  rw [resolve_abs _ _ (isRooted_targetPath cfg ym name hr),
    resolve_abs _ _ (isRooted_targetDir cfg ym hr), absPath_targetDir cfg ym hr hym] at this
  simpa using this

/-- The hash of a regular file fails exactly when the oracle refuses it. -/
theorem computeMD5_file_cases (E : Env) (path : GoString) (w : World) (data : List Byte)
    (t : Time) (hnode : w.node path = some (.file data t)) :
    ((E.openFault (resolve w.cwd path) = true ∨ E.readFault (resolve w.cwd path) = true) ∧
      ∃ e, (computeMD5 E path w).2 = .error e) ∨
    (E.openFault (resolve w.cwd path) = false ∧ E.readFault (resolve w.cwd path) = false ∧
      computeMD5 E path w = (hashed w path, .ok (hexEncode (md5Sum data)))) := by
  by_cases h : E.openFault (resolve w.cwd path) = true ∨ E.readFault (resolve w.cwd path) = true
  · exact Or.inl ⟨h, computeMD5_error_of_fault E path w h⟩
  · simp only [not_or, Bool.not_eq_true] at h
    exact Or.inr ⟨h.1, h.2, computeMD5_file E path w data t hnode h.1 h.2⟩

/-- The callback on a supported regular file whose hash fails: the failure
is logged, nothing else changes. -/
theorem walkFn_hashFailed (E : Env) (cfg : Config) (path : GoString) (info : FileInfo)
    (s : State) (e : Error) (hdir : info.isDir = false)
    (hsup : fileExt E path ∈ cfg.supportedFormats)
    (hfail : (computeMD5 E path s.world).2 = .error e) :
    walkFn E cfg path (some info) none s =
      ({ s with world := (computeMD5 E path s.world).1, log := s.log ++ [.md5Failed path e] },
        .nil) := by
  rw [walkFn_supported E cfg path info s hdir hsup]
  rcases hc : computeMD5 E path s.world with ⟨w1, e1 | m⟩
  · rw [hc] at hfail
    simp only [Except.error.injEq] at hfail
    subst hfail; rfl
  · rw [hc] at hfail; simp at hfail

/-- The callback keeps to the frame of a walk below `R`, whatever fails. -/
theorem walkFn_frame (E : Env) (cfg : Config) (R : Path) (path : GoString)
    (info : Option FileInfo) (err : Option Error) (s : State)
    (hfmt : cfg.supportedFormats = supportedFormats)
    (hroot : isRooted cfg.outputDir = true)
    (hsep : Sep R (absPath cfg.outputDir))
    (hp : isRooted path = true) (hunder : R <+: absPath path)
    (hinfo : ∀ i, info = some i → ∃ nd, s.world.node path = some nd ∧ nd.info = i) :
    Frame R s (walkFn E cfg path info err s).1 := by
  cases err with
  | some e => exact Frame.refl R s
  | none =>
    cases info with
    | none => exact Frame.refl R s
    | some i =>
      obtain ⟨nd, hnd, hi⟩ := hinfo i rfl
      by_cases h : i.isDir = true ∨ fileExt E path ∉ cfg.supportedFormats
      · rw [walkFn_unsupported E cfg path i s h]; exact Frame.refl R s
      · simp only [not_or, not_not, Bool.not_eq_true] at h
        obtain ⟨hd, hs⟩ := h
        cases nd with
        | dir => rw [← hi] at hd; simp [Node.info] at hd
        | file data t =>
          have ht : i.modTime = t := by rw [← hi]; rfl
          subst ht
          have hpne : path ≠ [] := by rintro rfl; simp [World.node] at hnd
          rcases computeMD5_file_cases E path s.world data i.modTime hnd with
            ⟨_, e, he⟩ | ⟨ho, hr, hc⟩
          · rw [walkFn_hashFailed E cfg path i s e hd hs he]
            obtain ⟨c1, c2, ce, cl, c3⟩ := computeMD5_calls E path s.world
            exact ⟨c1, ⟨_, c3⟩, ⟨_, rfl⟩, ⟨[], by simp⟩,
              fun k n _ hh => by rw [← c2]; exact hh,
              fun k _ hh => by
                show nodeAt (computeMD5 E path s.world).1.fs k ≠ none; rw [c2]; exact hh,
              fun k hh => by
                show nodeAt (computeMD5 E path s.world).1.fs k = some .dir; rw [c2]; exact hh⟩
          · rw [walkFn_hashed E cfg path i s data hd hs hnd ho hr]
            have hn := nameOf_proper E cfg path data i.modTime hfmt hs
            have hym := yearMonthOf_proper i.modTime
            obtain ⟨f1, f2, f3, f4, f5, _, _⟩ := placeFile_frame E cfg path
              (nameOf E path data i.modTime) (yearMonthOf i.modTime)
              { s with world := hashed s.world path } data i.modTime hn hnd
            simp only [hashed_fs, hashed_cwd] at f4 f5
            have hsrc : resolve s.world.cwd path = absPath path := resolve_abs _ _ hp
            have htd : resolve s.world.cwd (targetDir cfg (yearMonthOf i.modTime)) =
                absPath cfg.outputDir ++ [yearMonthOf i.modTime] := by
              rw [resolve_abs _ _ (isRooted_targetDir cfg _ hroot),
                absPath_targetDir cfg _ hroot hym]
            have htp : resolve s.world.cwd (targetPath cfg (yearMonthOf i.modTime)
                (nameOf E path data i.modTime)) =
                absPath cfg.outputDir ++ [yearMonthOf i.modTime, nameOf E path data i.modTime] := by
              rw [resolve_abs _ _ (isRooted_targetPath cfg _ _ hroot),
                absPath_targetPath cfg _ _ hroot hym hn]
            have hex := (hashed_quiet s.world path).extends.chain f1
            refine ⟨hex.1, hex.2, f2, f3, ?_, ?_, ?_⟩
            · intro k n hk hh
              rcases f5 k n hh with h1 | ⟨_, h2⟩ | h3
              · exact h1
              · rw [htd] at h2
                exact absurd (hk.trans h2) (hsep _ [] (yearMonthOf_length _))
              · rw [htp] at h3
                rw [h3] at hk
                exact absurd hk (hsep _ [_] (yearMonthOf_length _))
            · intro k hk hh
              cases h0 : nodeAt s.world.fs k with
              | none => exact absurd h0 hh
              | some n =>
                have hks : k ≠ resolve s.world.cwd path := by
                  rintro rfl
                  rw [hsrc] at hk; exact hk hunder
                rcases f4 k n h0 hks with h1 | ⟨_, _, h3⟩
                · rw [h1]; simp
                · exact h3
            · intro k hh
              have hks : k ≠ resolve s.world.cwd path := by
                rintro rfl
                rw [node_eq _ _ hpne, hh] at hnd
                simp at hnd
              rcases f4 k _ hh hks with h1 | ⟨_, h2, _⟩
              · exact h1
              · exact absurd rfl h2

/-! ## The walk: structure -/

theorem walkFn_ret_nil (E : Env) (cfg : Config) (path : GoString) (info : FileInfo)
    (s : State) : (walkFn E cfg path (some info) none s).2 = .nil := by
  by_cases h : info.isDir = true ∨ fileExt E path ∉ cfg.supportedFormats
  · rw [walkFn_unsupported E cfg path info s h]
  · simp only [not_or, not_not, Bool.not_eq_true] at h
    rw [walkFn_supported E cfg path info s h.1 h.2]
    rcases computeMD5 E path s.world with ⟨w1, e | m⟩
    · rfl
    · exact placeFile_ret _ _ _ _ _ _

theorem walkFn_err (E : Env) (cfg : Config) (path : GoString) (info : Option FileInfo)
    (e : Error) (s : State) : walkFn E cfg path info (some e) s = (s, .err e) := rfl

theorem walkFn_dir (E : Env) (cfg : Config) (path : GoString) (info : FileInfo) (s : State)
    (h : info.isDir = true) : walkFn E cfg path (some info) none s = (s, .nil) :=
  walkFn_unsupported E cfg path info s (Or.inl h)

theorem walk_zero (E : Env) (fn : WalkFunc) (p : GoString) (info : FileInfo) (s : State) :
    walk E fn 0 p info s = (s, .outOfFuel) := rfl

theorem walk_file (E : Env) (fn : WalkFunc) (f : Nat) (p : GoString) (info : FileInfo)
    (s : State) (h : info.isDir = false) :
    walk E fn (f + 1) p info s = fn p (some info) none s := by
  simp [walk, h]

theorem walk_dir_err (E : Env) (cfg : Config) (f : Nat) (p : GoString) (info : FileInfo)
    (s : State) (w1 : World) (e : Error) (h : info.isDir = true)
    (hr : readDirNames E p s.world = (w1, .error e)) :
    walk E (walkFn E cfg) (f + 1) p info s = ({ s with world := w1 }, .err e) := by
  simp [walk, h, hr, walkFn_err]

theorem walk_dir_ok (E : Env) (cfg : Config) (f : Nat) (p : GoString) (info : FileInfo)
    (s : State) (w1 : World) (names : List GoString) (h : info.isDir = true)
    (hr : readDirNames E p s.world = (w1, .ok names)) :
    walk E (walkFn E cfg) (f + 1) p info s =
      walkLoop E (walkFn E cfg) (walk E (walkFn E cfg) f) p names { s with world := w1 } := by
  simp [walk, h, hr, walkFn_dir E cfg p info _ h]

theorem walkLoop_nil (E : Env) (fn : WalkFunc) (d : GoString → FileInfo → State → State × Ret)
    (p : GoString) (s : State) : walkLoop E fn d p [] s = (s, .nil) := rfl

theorem walkLoop_cons_err (E : Env) (cfg : Config)
    (d : GoString → FileInfo → State → State × Ret) (p name : GoString)
    (rest : List GoString) (s : State) (w1 : World) (e : Error)
    (hl : Lstat E (Join [p, name]) s.world = (w1, .error e)) (he : e ≠ .skipDir) :
    walkLoop E (walkFn E cfg) d p (name :: rest) s = ({ s with world := w1 }, .err e) := by
  simp only [walkLoop, hl, walkFn_err]
  cases e <;> first | rfl | exact absurd rfl he

theorem walkLoop_cons_ok (E : Env) (fn : WalkFunc)
    (d : GoString → FileInfo → State → State × Ret) (p name : GoString)
    (rest : List GoString) (s : State) (w1 : World) (fi : FileInfo)
    (hl : Lstat E (Join [p, name]) s.world = (w1, .ok fi)) :
    walkLoop E fn d p (name :: rest) s =
      match d (Join [p, name]) fi { s with world := w1 } with
      | (s1, .nil) => walkLoop E fn d p rest s1
      | (s1, .err e) =>
        if !fi.isDir || decide (e ≠ .skipDir) then (s1, .err e)
        else walkLoop E fn d p rest s1
      | (s1, r) => (s1, r) := by
  simp only [walkLoop, hl]
  try rfl

/-- What `os.Lstat` returns and leaves. -/
theorem Lstat_spec (E : Env) (name : GoString) (w : World) :
    (Lstat E name w).1.fs = w.fs ∧ (Lstat E name w).1.cwd = w.cwd ∧
    (Lstat E name w).1.calls = w.calls ++
      [(Call.lstat name, match (Lstat E name w).2 with | .ok _ => none | .error e => some e)] ∧
    (∀ e, (Lstat E name w).2 = .error e → e = .denied ∨ e = .notExist) ∧
    (∀ fi, (Lstat E name w).2 = .ok fi →
      E.lstatFault (resolve w.cwd name) = false ∧ ∃ nd, w.node name = some nd ∧ nd.info = fi) := by
  unfold Lstat
  by_cases hf : E.lstatFault (resolve w.cwd name) = true
  · rw [if_pos hf]
    exact ⟨rfl, rfl, rfl, fun e h => Or.inl (by simpa using h.symm), fun fi h => by simp at h⟩
  · rw [if_neg hf]
    cases hn : w.node name with
    | none =>
      exact ⟨rfl, rfl, rfl, fun e h => Or.inr (by simpa using h.symm), fun fi h => by simp at h⟩
    | some nd =>
      refine ⟨rfl, rfl, rfl, fun e h => by simp at h, fun fi h => ?_⟩
      simp only [Except.ok.injEq] at h
      exact ⟨Bool.eq_false_iff.mpr hf, nd, rfl, h⟩

/-- What the reading of a directory returns and leaves. -/
theorem readDirNames_spec (E : Env) (d : GoString) (w : World) :
    (readDirNames E d w).1.fs = w.fs ∧ (readDirNames E d w).1.cwd = w.cwd ∧
    (readDirNames E d w).1.calls = w.calls ++
      [(Call.readdir d,
        match (readDirNames E d w).2 with | .ok _ => none | .error e => some e)] ∧
    (∀ e, (readDirNames E d w).2 = .error e → TravErr e) ∧
    (∀ names, (readDirNames E d w).2 = .ok names →
      E.readdirFault (resolve w.cwd d) = false ∧ w.node d = some .dir ∧
      names = sortStrings (uniq (childNames w.fs (resolve w.cwd d)))) := by
  unfold readDirNames
  by_cases hf : E.readdirFault (resolve w.cwd d) = true
  · rw [if_pos hf]
    exact ⟨rfl, rfl, rfl, fun e h => Or.inl (by simpa using h.symm), fun fi h => by simp at h⟩
  · rw [if_neg hf]
    cases hn : w.node d with
    | none =>
      exact ⟨rfl, rfl, rfl, fun e h => Or.inr (Or.inl (by simpa using h.symm)),
        fun fi h => by simp at h⟩
    | some nd =>
      cases nd with
      | file dt t =>
        exact ⟨rfl, rfl, rfl, fun e h => Or.inr (Or.inr (by simpa using h.symm)),
          fun fi h => by simp at h⟩
      | dir =>
        refine ⟨rfl, rfl, rfl, fun e h => by simp at h, fun names h => ?_⟩
        simp only [Except.ok.injEq] at h
        exact ⟨Bool.eq_false_iff.mpr hf, rfl, h.symm⟩

theorem TravErr.ne_skipDir {e : Error} (h : TravErr e) : e ≠ .skipDir := by
  rcases h with rfl | rfl | rfl <;> simp

theorem TravErr.ne_skipAll {e : Error} (h : TravErr e) : e ≠ .skipAll := by
  rcases h with rfl | rfl | rfl <;> simp

theorem WalkOk.of_nil (s : State) : WalkOk s (s, .nil) :=
  ⟨rfl, [], by simp, Or.inl rfl⟩

/-- A walk that continues the walk so far. -/
theorem WalkOk.later {s : State} (s1 : State) {res : State × Ret}
    (h1 : s1.world.cwd = s.world.cwd) (h2 : ∃ l, s1.world.calls = s.world.calls ++ l)
    (h : WalkOk s1 res) : WalkOk s res := by
  obtain ⟨l1, e1⟩ := h2
  obtain ⟨c, l, e, hr⟩ := h
  refine ⟨c.trans h1, l1 ++ l, by rw [e, e1, List.append_assoc], ?_⟩
  rcases hr with h | h | ⟨er, h, ht, p, hp⟩
  · exact Or.inl h
  · exact Or.inr (Or.inl h)
  · refine Or.inr (Or.inr ⟨er, h, ht, p, ?_⟩)
    rcases hp with hp | hp
    · exact Or.inl (List.mem_append_right _ hp)
    · exact Or.inr (List.mem_append_right _ hp)

theorem walkLoop_ok (E : Env) (cfg : Config) (d : GoString → FileInfo → State → State × Ret)
    (p : GoString) (hd : ∀ q fi s, WalkOk s (d q fi s)) :
    ∀ (names : List GoString) (s : State), WalkOk s (walkLoop E (walkFn E cfg) d p names s) := by
  intro names
  induction names with
  | nil => intro s; exact WalkOk.of_nil s
  | cons name rest ih =>
    intro s
    obtain ⟨l1, l2, l3, l4, l5⟩ := Lstat_spec E (Join [p, name]) s.world
    rcases hl : Lstat E (Join [p, name]) s.world with ⟨w1, e | fi⟩
    · rw [hl] at l2 l3 l4
      simp only at l2 l3 l4
      have he : e = .denied ∨ e = .notExist := l4 e rfl
      have ht : TravErr e := by
        rcases he with h | h
        · exact Or.inl h
        · exact Or.inr (Or.inl h)
      rw [walkLoop_cons_err E cfg d p name rest s w1 e hl ht.ne_skipDir]
      exact ⟨l2, _, l3, Or.inr (Or.inr ⟨e, rfl, ht, Join [p, name], Or.inl (by simp)⟩)⟩
    · rw [hl] at l2 l3
      simp only at l2 l3
      rw [walkLoop_cons_ok E _ d p name rest s w1 fi hl]
      have hdq := hd (Join [p, name]) fi { s with world := w1 }
      have hpre : ∀ res, WalkOk { s with world := w1 } res → WalkOk s res :=
        fun res h => WalkOk.later { s with world := w1 } l2 ⟨_, l3⟩ h
      rcases hres : d (Join [p, name]) fi { s with world := w1 } with ⟨s1, r⟩
      rw [hres] at hdq
      cases r with
      | nil =>
        simp only
        exact hpre _ (WalkOk.later s1 hdq.1 ⟨hdq.2.choose, hdq.2.choose_spec.1⟩ (ih s1))
      | err e =>
        simp only
        obtain ⟨c, l, el, hr⟩ := hdq
        have ht : TravErr e := by
          rcases hr with h | h | ⟨er, h, ht, _⟩
          · simp at h
          · simp at h
          · simp only [Ret.err.injEq] at h; subst h; exact ht
        have : (!fi.isDir || decide (e ≠ .skipDir)) = true := by
          simp [ht.ne_skipDir]
        rw [if_pos this]
        exact hpre _ ⟨c, l, el, hr⟩
      | goPanic =>
        obtain ⟨c, l, el, hr⟩ := hdq
        rcases hr with h | h | ⟨er, h, _⟩ <;> simp at h
      | outOfFuel =>
        simp only
        exact hpre _ hdq

/-- Every walk with the callback of `main` ends in `nil`, in a traversal
error that is in the trace, or out of fuel: the callback itself never stops
it. -/
theorem walk_ok (E : Env) (cfg : Config) (f : Nat) :
    ∀ (p : GoString) (info : FileInfo) (s : State),
      WalkOk s (walk E (walkFn E cfg) f p info s) := by
  induction f with
  | zero =>
    intro p info s
    exact ⟨rfl, [], by simp [walk_zero], Or.inr (Or.inl rfl)⟩
  | succ f ih =>
    intro p info s
    by_cases hd : info.isDir = true
    · obtain ⟨r1, r2, r3, r4, r5⟩ := readDirNames_spec E p s.world
      rcases hr : readDirNames E p s.world with ⟨w1, e | names⟩
      · rw [hr] at r2 r3 r4
        simp only at r2 r3 r4
        rw [walk_dir_err E cfg f p info s w1 e hd hr]
        exact ⟨r2, _, r3, Or.inr (Or.inr ⟨e, rfl, r4 e rfl, p, Or.inr (by simp)⟩)⟩
      · rw [hr] at r2 r3
        simp only at r2 r3
        rw [walk_dir_ok E cfg f p info s w1 names hd hr]
        exact WalkOk.later { s with world := w1 } r2 ⟨_, r3⟩
          (walkLoop_ok E cfg _ p ih names _)
    · have hd' : info.isDir = false := by simpa using hd
      rw [walk_file E _ f p info s hd']
      have he := walkFn_extends E cfg p (some info) none s
      exact ⟨he.1, he.2.choose, he.2.choose_spec, Or.inl (walkFn_ret_nil E cfg p info s)⟩

/-! ## The run: a missing source directory -/

/-- Lines 32 to 37: without a directory at the source path the run ends
after the one call of `os.Stat`. -/
theorem archive_missing (E : Env) (cfg : Config) (fuel : Nat) (w : World)
    (h : w.node cfg.rawDir ≠ some .dir) :
    ∃ r, archive E cfg fuel w =
      some ⟨w.call (.stat cfg.rawDir) r, [missingMessage cfg.rawDir], [], 1, []⟩ := by
  unfold archive Stat
  by_cases hf : E.statFault (resolve w.cwd cfg.rawDir) = true
  · rw [if_pos hf]; exact ⟨_, rfl⟩
  · rw [if_neg hf]
    cases hn : w.node cfg.rawDir with
    | none => exact ⟨_, rfl⟩
    | some nd =>
      cases nd with
      | dir => exact absurd hn h
      | file d t => exact ⟨_, rfl⟩

/-- C9: when the working directory can be read and its `Raw` does not exist
or is not a directory, the run ends, whatever the recursion budget, with
exit code 1 after printing the one line of line 35; nothing is logged, the
duplicate list is empty and no report is printed, the file table and the
working directory are what they were, and the only calls made are
`os.Getwd` and the `os.Stat` of the source path: no directory is created,
no file is opened, read or renamed. -/
theorem C9_source_missing (E : Env) (fuel : Nat) (w : World)
    (hwd : E.getwdFault = false)
    (h : w.node (mainConfig ('/' :: joinSep w.cwd)).rawDir ≠ some .dir) :
    ∃ o r, main E fuel w = some o ∧ o.exitCode = 1 ∧ o.exitCode ≠ 0 ∧
      o.stdout = [missingMessage (mainConfig ('/' :: joinSep w.cwd)).rawDir] ∧
      o.log = [] ∧ o.duplicateFiles = [] ∧
      o.world.fs = w.fs ∧ o.world.cwd = w.cwd ∧
      o.world.calls = w.calls ++
        [(Call.getwd, none), (Call.stat (mainConfig ('/' :: joinSep w.cwd)).rawDir, r)] := by
  obtain ⟨r, hr⟩ := archive_missing E (mainConfig ('/' :: joinSep w.cwd)) fuel
    (w.call .getwd none) h
  have hm : main E fuel w = some ⟨(w.call .getwd none).call
      (.stat (mainConfig ('/' :: joinSep w.cwd)).rawDir) r,
      [missingMessage (mainConfig ('/' :: joinSep w.cwd)).rawDir], [], 1, []⟩ := by
    simp only [main, Getwd, hwd, Bool.false_eq_true, if_false]
    exact hr
  exact ⟨_, r, hm, rfl, Nat.one_ne_zero, rfl, rfl, rfl, rfl, rfl, by simp [World.call]⟩

theorem C9_source_missing_witness :
    ∃ o r, main exEnv 5 exWorldNoRaw = some o ∧ o.exitCode = 1 ∧ o.exitCode ≠ 0 ∧
      o.stdout = ["错误：路径 /home/u/Raw 不存在！".toList] ∧
      o.log = [] ∧ o.duplicateFiles = [] ∧
      o.world.fs = exWorldNoRaw.fs ∧ o.world.cwd = exWorldNoRaw.cwd ∧
      o.world.calls = exWorldNoRaw.calls ++
        [(Call.getwd, none), (Call.stat "/home/u/Raw".toList, r)] :=
  C9_source_missing exEnv 5 exWorldNoRaw rfl (by decide)

/-! ## The entries of a directory -/

theorem mem_insertSorted (x y : GoString) (l : List GoString) :
    y ∈ insertSorted x l ↔ y = x ∨ y ∈ l := by
  induction l with
  | nil => simp [insertSorted]
  | cons z zs ih =>
    unfold insertSorted
    by_cases h : strLE x z = true
    · rw [if_pos h]; simp
    · rw [if_neg h]
      simp only [List.mem_cons, ih]
      tauto

theorem mem_sortStrings (y : GoString) (l : List GoString) : y ∈ sortStrings l ↔ y ∈ l := by
  induction l with
  | nil => simp [sortStrings]
  | cons z zs ih => simp [sortStrings, mem_insertSorted, ih]

theorem mem_uniq (y : GoString) (l : List GoString) : y ∈ uniq l ↔ y ∈ l := by
  induction l with
  | nil => simp [uniq]
  | cons z zs ih =>
    unfold uniq
    by_cases h : z ∈ uniq zs
    · rw [if_pos h]
      simp only [List.mem_cons, ih]
      constructor
      · exact Or.inr
      · rintro (rfl | h2)
        · exact ih.mp h
        · exact h2
    · rw [if_neg h]; simp [ih]

theorem lookup_ne_none_iff (fs : List (Path × Node)) (k : Path) :
    lookup fs k ≠ none ↔ ∃ nd, (k, nd) ∈ fs := by
  induction fs with
  | nil => simp [lookup]
  | cons e rest ih =>
    rw [lookup_cons]
    by_cases h : e.1 = k
    · rw [if_pos h]
      simp only [ne_eq, reduceCtorEq, not_false_eq_true, List.mem_cons, true_iff]
      exact ⟨e.2, Or.inl (by rw [← h])⟩
    · rw [if_neg h, ih]
      constructor
      · rintro ⟨nd, hnd⟩; exact ⟨nd, List.mem_cons_of_mem _ hnd⟩
      · rintro ⟨nd, hnd⟩
        rcases List.mem_cons.mp hnd with h1 | h1
        · exact absurd (by rw [← h1]) h
        · exact ⟨nd, h1⟩

/-- The names read from a directory are those of the entries right below
it. -/
theorem mem_childNames (fs : List (Path × Node)) (d : Path) (n : GoString) :
    n ∈ childNames fs d ↔ nodeAt fs (d ++ [n]) ≠ none := by
  have hne : d ++ [n] ≠ [] := by simp
  rw [nodeAt, if_neg hne, lookup_ne_none_iff]
  unfold childNames
  rw [List.mem_filterMap]
  constructor
  · rintro ⟨⟨k, nd⟩, hmem, hk⟩
    by_cases hc : k ≠ [] ∧ k.dropLast = d
    · simp only [hc, ne_eq, not_false_eq_true, and_self, if_true] at hk
      have := List.dropLast_append_getLast? n hk
      rw [hc.2] at this
      exact ⟨nd, by rw [this]; exact hmem⟩
    · simp only [hc, if_false] at hk
      exact absurd hk (by simp)
  · rintro ⟨nd, hmem⟩
    exact ⟨(d ++ [n], nd), hmem, by simp⟩

theorem mem_readDirNames (E : Env) (d : GoString) (w : World) (names : List GoString)
    (h : (readDirNames E d w).2 = .ok names) (n : GoString) :
    n ∈ names ↔ nodeAt w.fs (resolve w.cwd d ++ [n]) ≠ none := by
  obtain ⟨_, _, _, _, r5⟩ := readDirNames_spec E d w
  rw [(r5 names h).2.2, mem_sortStrings, mem_uniq, mem_childNames]

/-! ## What a walk below the source root keeps -/

theorem Tidy.frame {R : Path} {s s1 : State} (hf : Frame R s s1) (h : Tidy R s.world.fs) :
    Tidy R s1.world.fs := by
  intro k nd hk hnd P n hP hPk
  obtain ⟨h1, h2⟩ := h k nd hk (hf.under k nd hk hnd) P n hP hPk
  exact ⟨h1, hf.dirs P h2⟩

/-- Below a file there is nothing. -/
theorem Tidy.file_leaf {R : Path} {fs : List (Path × Node)} (h : Tidy R fs) (P k : Path)
    (d : List Byte) (t : Time) (nd : Node) (hP : R <+: P) (hPk : P <+: k)
    (hfile : nodeAt fs P = some (.file d t)) (hnd : nodeAt fs k = some nd) : k = P := by
  obtain ⟨x, rfl⟩ := hPk
  cases x with
  | nil => simp
  | cons n x =>
    have := (h (P ++ n :: x) nd (hP.trans (List.prefix_append _ _)) hnd P n hP
      ⟨x, by simp⟩).2
    rw [hfile] at this
    simp at this

/-- An entry below a directory lies at or below one of the entries of the
directory. -/
theorem Tidy.child {R : Path} {fs : List (Path × Node)} (h : Tidy R fs) (P k : Path)
    (nd : Node) (hP : R <+: P) (hPk : P <+: k) (hne : k ≠ P) (hnd : nodeAt fs k = some nd) :
    ∃ n, P ++ [n] <+: k ∧ properName n ∧ nodeAt fs (P ++ [n]) ≠ none := by
  obtain ⟨x, rfl⟩ := hPk
  cases x with
  | nil => simp at hne
  | cons n x =>
    have hk := hP.trans (List.prefix_append P (n :: x))
    refine ⟨n, ⟨x, by simp⟩, (h _ nd hk hnd P n hP ⟨x, by simp⟩).1, ?_⟩
    cases x with
    | nil => rw [hnd]; simp
    | cons m y =>
      rw [(h _ nd hk hnd (P ++ [n]) m (hP.trans (List.prefix_append P [n]))
        ⟨y, by simp⟩).2]
      simp

/-! ## The walk below the source root -/

theorem node_abs (w : World) (p : GoString) (h : isRooted p = true) :
    w.node p = nodeAt w.fs (absPath p) := by
  have hne : p ≠ [] := by rintro rfl; simp [isRooted] at h
  rw [node_eq w p hne, resolve_abs _ _ h]

theorem Lstat_ok (E : Env) (name : GoString) (w w1 : World) (fi : FileInfo)
    (h : Lstat E name w = (w1, .ok fi)) :
    w1.fs = w.fs ∧ w1.cwd = w.cwd ∧ w1.calls = w.calls ++ [(Call.lstat name, none)] ∧
      E.lstatFault (resolve w.cwd name) = false ∧ ∃ nd, w.node name = some nd ∧ nd.info = fi := by
  obtain ⟨l1, l2, l3, _, l5⟩ := Lstat_spec E name w
  rw [h] at l1 l2 l3 l5
  exact ⟨l1, l2, l3, l5 fi rfl⟩

theorem Lstat_error (E : Env) (name : GoString) (w w1 : World) (e : Error)
    (h : Lstat E name w = (w1, .error e)) :
    w1.fs = w.fs ∧ w1.cwd = w.cwd ∧ w1.calls = w.calls ++ [(Call.lstat name, some e)] ∧
      TravErr e := by
  obtain ⟨l1, l2, l3, l4, _⟩ := Lstat_spec E name w
  rw [h] at l1 l2 l3 l4
  refine ⟨l1, l2, l3, ?_⟩
  rcases l4 e rfl with h | h
  · exact Or.inl h
  · exact Or.inr (Or.inl h)

theorem readDirNames_ok (E : Env) (d : GoString) (w w1 : World) (names : List GoString)
    (h : readDirNames E d w = (w1, .ok names)) :
    w1.fs = w.fs ∧ w1.cwd = w.cwd ∧ w1.calls = w.calls ++ [(Call.readdir d, none)] ∧
      E.readdirFault (resolve w.cwd d) = false ∧ w.node d = some .dir ∧
      ∀ n, n ∈ names ↔ nodeAt w.fs (resolve w.cwd d ++ [n]) ≠ none := by
  obtain ⟨l1, l2, l3, _, l5⟩ := readDirNames_spec E d w
  have hm := mem_readDirNames E d w names (by rw [h])
  rw [h] at l1 l2 l3 l5
  exact ⟨l1, l2, l3, (l5 names rfl).1, (l5 names rfl).2.1, hm⟩

theorem readDirNames_error (E : Env) (d : GoString) (w w1 : World) (e : Error)
    (h : readDirNames E d w = (w1, .error e)) :
    w1.fs = w.fs ∧ w1.cwd = w.cwd ∧ w1.calls = w.calls ++ [(Call.readdir d, some e)] ∧
      TravErr e := by
  obtain ⟨l1, l2, l3, l4, _⟩ := readDirNames_spec E d w
  rw [h] at l1 l2 l3 l4
  exact ⟨l1, l2, l3, l4 e rfl⟩

theorem Depth.kept {R P : Path} {B : Nat} {s s1 : State} (hf : Frame R s s1) (hP : R <+: P)
    (h : Depth s.world.fs P B) : Depth s1.world.fs P B :=
  fun k nd hk hnd => h k nd hk (hf.under k nd (hP.trans hk) hnd)

/-- The walk steps from a directory to one of its entries. -/
theorem At.descend {R : Path} {p : GoString} {s : State} (hc : CleanAbs p)
    (hb : R <+: absPath p) (ht : Tidy R s.world.fs)
    (E : Env) (n : GoString) (hn : properName n) (w1 : World) (fi : FileInfo)
    (hl : Lstat E (Join [p, n]) s.world = (w1, .ok fi)) :
    At R (Join [p, n]) fi { s with world := w1 } ∧ absPath (Join [p, n]) = absPath p ++ [n] ∧
      Frame R s { s with world := w1 } ∧ E.lstatFault (absPath p ++ [n]) = false := by
  obtain ⟨l1, l2, l3, l4, nd, l5, l6⟩ := Lstat_ok E _ _ _ _ hl
  obtain ⟨j1, j2, j3⟩ := hc.join n hn
  rw [node_abs _ _ j2.1] at l5
  rw [resolve_abs _ _ j2.1, j3] at l4
  refine ⟨⟨j2, ?_, ?_, nd, ?_, l6⟩, j3, Frame.of_extends R s w1 ⟨l2, _, l3⟩ l1, l4⟩
  · rw [j3]; exact hb.trans (List.prefix_append _ _)
  · show Tidy R w1.fs
    rw [l1]; exact ht
  · show nodeAt w1.fs _ = _
    rw [l1]; exact l5

/-- The loop over the entries of a directory keeps to the frame, and does
not run out of fuel when the recursive call does not. -/
theorem walkLoop_frame (E : Env) (cfg : Config) (R : Path)
    (d : GoString → FileInfo → State → State × Ret) (p : GoString) (B : Nat)
    (hc : CleanAbs p) (hb : R <+: absPath p)
    (hd : ∀ q fi s n, At R q fi s → absPath q = absPath p ++ [n] →
      Frame R s (d q fi s).1 ∧
        (Depth s.world.fs (absPath p) B → (d q fi s).2 ≠ .outOfFuel)) :
    ∀ (names : List GoString) (s : State), (∀ n ∈ names, properName n) → Tidy R s.world.fs →
      Frame R s (walkLoop E (walkFn E cfg) d p names s).1 ∧
      (Depth s.world.fs (absPath p) B →
        (walkLoop E (walkFn E cfg) d p names s).2 ≠ .outOfFuel) := by
  intro names
  induction names with
  | nil => intro s _ _; exact ⟨Frame.refl R s, fun _ => by simp [walkLoop_nil]⟩
  | cons name rest ih =>
    intro s hnames hat
    have hrest : ∀ n ∈ rest, properName n := fun n hn => hnames n (List.mem_cons_of_mem _ hn)
    rcases hl : Lstat E (Join [p, name]) s.world with ⟨w1, e | fi⟩
    · obtain ⟨l1, l2, l3, l4⟩ := Lstat_error E _ _ _ _ hl
      rw [walkLoop_cons_err E cfg d p name rest s w1 e hl l4.ne_skipDir]
      exact ⟨Frame.of_extends R s w1 ⟨l2, _, l3⟩ l1, fun _ => by simp⟩
    · obtain ⟨c1, c2, c3, _⟩ :=
        At.descend hc hb hat E name (hnames name (List.mem_cons_self _ _)) w1 fi hl
      rw [walkLoop_cons_ok E _ d p name rest s w1 fi hl]
      obtain ⟨hF, hO⟩ := hd _ fi _ name c1 c2
      rcases hres : d (Join [p, name]) fi { s with world := w1 } with ⟨s1, r⟩
      rw [hres] at hF hO
      have F1 : Frame R s s1 := c3.trans hF
      have hat1 : Tidy R s1.world.fs := Tidy.frame F1 hat
      obtain ⟨F2, O2⟩ := ih s1 hrest hat1
      cases r with
      | nil => exact ⟨F1.trans F2, fun hD => O2 (Depth.kept F1 hb hD)⟩
      | err e =>
        simp only
        split_ifs
        · exact ⟨F1, fun _ => by simp⟩
        · exact ⟨F1.trans F2, fun hD => O2 (Depth.kept F1 hb hD)⟩
      | goPanic => exact ⟨F1, fun _ => by simp⟩
      | outOfFuel => exact ⟨F1, fun hD => absurd rfl (hO (Depth.kept c3 hb hD))⟩

/-- The walk keeps to the frame, and does not run out of fuel when the
entries are less deep than the fuel allows. -/
theorem walk_frame (E : Env) (cfg : Config) (R : Path) (hA : Apart cfg R) (f : Nat) :
    ∀ (p : GoString) (info : FileInfo) (s : State), At R p info s →
      Frame R s (walk E (walkFn E cfg) f p info s).1 ∧
      (Depth s.world.fs (absPath p) ((absPath p).length + f) →
        (walk E (walkFn E cfg) f p info s).2 ≠ .outOfFuel) := by
  induction f with
  | zero =>
    intro p info s hat
    refine ⟨Frame.refl R s, fun hD => ?_⟩
    obtain ⟨nd, h1, _⟩ := hat.node
    exact absurd (hD _ nd (List.prefix_refl _) h1) (by simp)
  | succ f ih =>
    intro p info s hat
    obtain ⟨nd, hnd, hinfo⟩ := hat.node
    by_cases hdir : info.isDir = true
    · rcases hr : readDirNames E p s.world with ⟨w1, e | names⟩
      · obtain ⟨r1, r2, r3, _⟩ := readDirNames_error E _ _ _ _ hr
        rw [walk_dir_err E cfg f p info s w1 e hdir hr]
        exact ⟨Frame.of_extends R s w1 ⟨r2, _, r3⟩ r1, fun _ => by simp⟩
      · obtain ⟨r1, r2, r3, _, _, r6⟩ := readDirNames_ok E _ _ _ _ hr
        rw [walk_dir_ok E cfg f p info s w1 names hdir hr]
        have F0 : Frame R s { s with world := w1 } := Frame.of_extends R s w1 ⟨r2, _, r3⟩ r1
        have hnames : ∀ n ∈ names, properName n := by
          intro n hn
          have h1 := (r6 n).mp hn
          rw [resolve_abs _ _ hat.clean.1] at h1
          cases hx : nodeAt s.world.fs (absPath p ++ [n]) with
          | none => exact absurd hx h1
          | some x =>
            exact (hat.tidy _ x (hat.below.trans (List.prefix_append _ _)) hx (absPath p) n
              hat.below (List.prefix_refl _)).1
        obtain ⟨F1, O1⟩ := walkLoop_frame E cfg R (walk E (walkFn E cfg) f) p
          ((absPath p).length + (f + 1)) hat.clean hat.below
          (fun q fi s2 n hq habs => by
            obtain ⟨a, b⟩ := ih q fi s2 hq
            refine ⟨a, fun hD => b ?_⟩
            intro k x hk hx
            have := hD k x ((List.prefix_append _ _).trans (habs ▸ hk)) hx
            rw [habs]; simp only [List.length_append, List.length_singleton]
            omega)
          names { s with world := w1 } hnames (Tidy.frame F0 hat.tidy)
        exact ⟨F0.trans F1, fun hD => O1 (Depth.kept F0 hat.below hD)⟩
    · have hd : info.isDir = false := by simpa using hdir
      rw [walk_file E _ f p info s hd]
      refine ⟨walkFn_frame E cfg R p (some info) none s hA.fmt hA.root hA.sep hat.clean.1
        hat.below (fun i hi => ?_), fun _ => ?_⟩
      · simp only [Option.some.injEq] at hi
        subst hi
        exact ⟨nd, by rw [node_abs _ _ hat.clean.1]; exact hnd, hinfo⟩
      · rw [walkFn_ret_nil]; simp

/-! ## The order of the names of a directory -/

theorem strLE_total : ∀ a b : GoString, strLE a b = true ∨ strLE b a = true
  | [], _ => Or.inl rfl
  | _ :: _, [] => Or.inr rfl
  | a :: as, b :: bs => by
    unfold strLE
    by_cases h1 : a.toNat < b.toNat
    · left; simp [h1]
    · by_cases h2 : b.toNat < a.toNat
      · right; simp [h2]
      · simp only [h1, h2, if_false]
        exact strLE_total as bs

theorem strLE_trans : ∀ a b c : GoString, strLE a b = true → strLE b c = true →
    strLE a c = true
  | [], _, _, _, _ => rfl
  | _ :: _, [], _, h, _ => by simp [strLE] at h
  | _ :: _, _ :: _, [], _, h => by simp [strLE] at h
  | a :: as, b :: bs, c :: cs, h1, h2 => by
    unfold strLE at h1 h2 ⊢
    by_cases hab : a.toNat < b.toNat
    · by_cases hbc : b.toNat < c.toNat
      · simp [lt_trans hab hbc]
      · by_cases hcb : c.toNat < b.toNat
        · simp [hbc, hcb] at h2
        · have : b.toNat = c.toNat := by omega
          simp [← this, hab]
    · by_cases hba : b.toNat < a.toNat
      · simp [hab, hba] at h1
      · have hab2 : a.toNat = b.toNat := by omega
        simp only [hab, hba, if_false] at h1
        by_cases hbc : b.toNat < c.toNat
        · simp [hab2, hbc]
        · by_cases hcb : c.toNat < b.toNat
          · simp [hbc, hcb] at h2
          · simp only [hbc, hcb, if_false] at h2
            simp only [hab2, hbc, hcb, if_false]
            exact strLE_trans as bs cs h1 h2

theorem strLE_antisymm : ∀ a b : GoString, strLE a b = true → strLE b a = true → a = b
  | [], [], _, _ => rfl
  | [], _ :: _, _, h => by simp [strLE] at h
  | _ :: _, [], h, _ => by simp [strLE] at h
  | a :: as, b :: bs, h1, h2 => by
    unfold strLE at h1 h2
    by_cases hab : a.toNat < b.toNat
    · have : ¬ b.toNat < a.toNat := by omega
      simp [hab, this] at h2
    · by_cases hba : b.toNat < a.toNat
      · simp [hab, hba] at h1
      · simp only [hab, hba, if_false] at h1 h2
        have hn : a.toNat = b.toNat := by omega
        have hc : a = b := Char.ext (UInt32.ext (by simpa [Char.toNat] using hn))
        rw [hc, strLE_antisymm as bs h1 h2]

theorem mem_insertSorted_iff (x y : GoString) (l : List GoString) :
    y ∈ insertSorted x l ↔ y = x ∨ y ∈ l := by
  induction l with
  | nil => simp [insertSorted]
  | cons z zs ih =>
    unfold insertSorted
    split_ifs
    · simp
    · simp only [List.mem_cons, ih]; tauto

theorem sorted_insertSorted (x : GoString) (l : List GoString)
    (h : l.Sorted (fun a b => strLE a b = true)) :
    (insertSorted x l).Sorted (fun a b => strLE a b = true) := by
  induction l with
  | nil => simp [insertSorted]
  | cons y ys ih =>
    unfold insertSorted
    have hy := List.sorted_cons.mp h
    by_cases hxy : strLE x y = true
    · rw [if_pos hxy]
      refine List.sorted_cons.mpr ⟨?_, h⟩
      intro z hz
      rcases List.mem_cons.mp hz with rfl | hz
      · exact hxy
      · exact strLE_trans _ _ _ hxy (hy.1 z hz)
    · rw [if_neg hxy]
      refine List.sorted_cons.mpr ⟨?_, ih hy.2⟩
      intro z hz
      rcases (mem_insertSorted_iff x z ys).mp hz with rfl | hz
      · exact (strLE_total z y).resolve_left hxy
      · exact hy.1 z hz

theorem sorted_sortStrings (l : List GoString) :
    (sortStrings l).Sorted (fun a b => strLE a b = true) := by
  induction l with
  | nil => simp [sortStrings]
  | cons x xs ih => exact sorted_insertSorted x _ ih

theorem perm_insertSorted (x : GoString) (l : List GoString) :
    (insertSorted x l).Perm (x :: l) := by
  induction l with
  | nil => simp [insertSorted]
  | cons y ys ih =>
    unfold insertSorted
    split_ifs
    · exact List.Perm.refl _
    · exact (List.Perm.cons y ih).trans (List.Perm.swap x y ys)

theorem perm_sortStrings (l : List GoString) : (sortStrings l).Perm l := by
  induction l with
  | nil => simp [sortStrings]
  | cons x xs ih => exact (perm_insertSorted x _).trans (List.Perm.cons x ih)

theorem nodup_uniq (l : List GoString) : (uniq l).Nodup := by
  induction l with
  | nil => simp [uniq]
  | cons x xs ih =>
    unfold uniq
    split_ifs with h
    · exact ih
    · exact List.nodup_cons.mpr ⟨h, ih⟩

theorem nodup_names (l : List GoString) : (sortStrings (uniq l)).Nodup :=
  (perm_sortStrings _).nodup_iff.mpr (nodup_uniq l)

/-- The listing of a directory from which entries have gone is the old
listing without their names. -/
theorem names_filter (A B : List GoString) (q : GoString → Bool)
    (h : ∀ n, n ∈ B ↔ n ∈ A ∧ q n = true) :
    sortStrings (uniq B) = (sortStrings (uniq A)).filter q := by
  haveI : IsAntisymm GoString (fun a b => strLE a b = true) := ⟨strLE_antisymm⟩
  refine List.eq_of_perm_of_sorted ?_ (sorted_sortStrings _)
    ((sorted_sortStrings _).filter q)
  refine (List.perm_ext_iff_of_nodup (nodup_names B) ((nodup_names A).filter q)).mpr ?_
  intro n
  rw [mem_sortStrings, mem_uniq, List.mem_filter, mem_sortStrings, mem_uniq]
  exact h n

/-! ## Calls the oracle refuses, and the log of a walk -/

theorem Lstat_fault (E : Env) (name : GoString) (w : World)
    (h : E.lstatFault (resolve w.cwd name) = true) :
    Lstat E name w = (w.call (.lstat name) (some .denied), .error .denied) := by
  simp [Lstat, h]

theorem readDirNames_fault (E : Env) (d : GoString) (w : World)
    (h : E.readdirFault (resolve w.cwd d) = true) :
    readDirNames E d w = (w.call (.readdir d) (some .denied), .error .denied) := by
  simp [readDirNames, h]

/-- A failed `os.Lstat` of an entry that is there was refused by the
oracle. -/
theorem Lstat_error_fault (E : Env) (name : GoString) (w w1 : World) (e : Error)
    (h : Lstat E name w = (w1, .error e)) (hn : w.node name ≠ none) :
    E.lstatFault (resolve w.cwd name) = true ∧ e = .denied := by
  unfold Lstat at h
  by_cases hf : E.lstatFault (resolve w.cwd name) = true
  · rw [if_pos hf] at h
    simp only [Prod.mk.injEq, Except.error.injEq] at h
    exact ⟨hf, h.2.symm⟩
  · rw [if_neg hf] at h
    cases hx : w.node name with
    | none => exact absurd hx hn
    | some nd => rw [hx] at h; simp at h

/-- A failed reading of a directory that is there was refused by the
oracle. -/
theorem readDirNames_error_fault (E : Env) (d : GoString) (w w1 : World) (e : Error)
    (h : readDirNames E d w = (w1, .error e)) (hn : w.node d = some .dir) :
    E.readdirFault (resolve w.cwd d) = true ∧ e = .denied := by
  unfold readDirNames at h
  by_cases hf : E.readdirFault (resolve w.cwd d) = true
  · rw [if_pos hf] at h
    simp only [Prod.mk.injEq, Except.error.injEq] at h
    exact ⟨hf, h.2.symm⟩
  · rw [if_neg hf, hn] at h
    simp at h

/-- The callback logs nothing but failures of a hash, a directory creation
or a rename. -/
theorem walkFn_logs (E : Env) (cfg : Config) (path : GoString) (info : Option FileInfo)
    (err : Option Error) (s : State) :
    ∃ l, (walkFn E cfg path info err s).1.log = s.log ++ l ∧ ∀ x ∈ l, x.isFailure = true := by
  unfold walkFn
  cases err with
  | some e => exact ⟨[], by simp, by simp⟩
  | none =>
    cases info with
    | none => exact ⟨[], by simp, by simp⟩
    | some info =>
      simp only
      split_ifs
      · exact ⟨[], by simp, by simp⟩
      · exact ⟨[], by simp, by simp⟩
      · split
        · exact ⟨_, rfl, by simp [LogLine.isFailure]⟩
        · split
          · exact ⟨[], by simp, by simp⟩
          · unfold placeFile
            split
            · exact ⟨_, rfl, by simp [LogLine.isFailure]⟩
            · split
              · exact ⟨[], by simp, by simp⟩
              · split
                · exact ⟨_, rfl, by simp [LogLine.isFailure]⟩
                · exact ⟨[], by simp, by simp⟩

theorem walkLoop_logs (E : Env) (cfg : Config) (d : GoString → FileInfo → State → State × Ret)
    (p : GoString)
    (hd : ∀ q fi s, ∃ l, (d q fi s).1.log = s.log ++ l ∧ ∀ x ∈ l, x.isFailure = true) :
    ∀ (names : List GoString) (s : State),
      ∃ l, (walkLoop E (walkFn E cfg) d p names s).1.log = s.log ++ l ∧
        ∀ x ∈ l, x.isFailure = true := by
  intro names
  induction names with
  | nil => intro s; exact ⟨[], by simp [walkLoop_nil], by simp⟩
  | cons name rest ih =>
    intro s
    rcases hl : Lstat E (Join [p, name]) s.world with ⟨w1, e | fi⟩
    · obtain ⟨_, _, _, ht⟩ := Lstat_error E _ _ _ _ hl
      rw [walkLoop_cons_err E cfg d p name rest s w1 e hl ht.ne_skipDir]
      exact ⟨[], by simp, by simp⟩
    · rw [walkLoop_cons_ok E _ d p name rest s w1 fi hl]
      obtain ⟨l1, h1, h2⟩ := hd (Join [p, name]) fi { s with world := w1 }
      rcases hres : d (Join [p, name]) fi { s with world := w1 } with ⟨s1, r⟩
      rw [hres] at h1
      simp only at h1
      have hcont : ∃ l, (walkLoop E (walkFn E cfg) d p rest s1).1.log = s.log ++ l ∧
          ∀ x ∈ l, x.isFailure = true := by
        obtain ⟨l2, h3, h4⟩ := ih s1
        refine ⟨l1 ++ l2, by rw [h3, h1, List.append_assoc], ?_⟩
        intro x hx
        rcases List.mem_append.mp hx with hx | hx
        · exact h2 x hx
        · exact h4 x hx
      cases r with
      | nil => exact hcont
      | err e =>
        simp only
        split_ifs
        · exact ⟨l1, h1, h2⟩
        · exact hcont
      | goPanic => exact ⟨l1, h1, h2⟩
      | outOfFuel => exact ⟨l1, h1, h2⟩

/-- A walk logs nothing but failures of a hash, a directory creation or a
rename. -/
theorem walk_logs (E : Env) (cfg : Config) (f : Nat) :
    ∀ (p : GoString) (info : FileInfo) (s : State),
      ∃ l, (walk E (walkFn E cfg) f p info s).1.log = s.log ++ l ∧
        ∀ x ∈ l, x.isFailure = true := by
  induction f with
  | zero => intro p info s; exact ⟨[], by simp [walk_zero], by simp⟩
  | succ f ih =>
    intro p info s
    by_cases hd : info.isDir = true
    · rcases hr : readDirNames E p s.world with ⟨w1, e | names⟩
      · rw [walk_dir_err E cfg f p info s w1 e hd hr]
        exact ⟨[], by simp, by simp⟩
      · rw [walk_dir_ok E cfg f p info s w1 names hd hr]
        exact walkLoop_logs E cfg _ p ih names _
    · have hd' : info.isDir = false := by simpa using hd
      rw [walk_file E _ f p info s hd']
      exact walkFn_logs E cfg p (some info) none s

/-! ## A second walk -/

theorem info_file {nd : Node} {info : FileInfo} (h : nd.info = info) (hd : info.isDir = false) :
    ∃ d, nd = .file d info.modTime := by
  cases nd with
  | dir => rw [← h] at hd; simp [Node.info] at hd
  | file d t => exact ⟨d, by rw [← h]; rfl⟩

theorem info_dir {nd : Node} {info : FileInfo} (h : nd.info = info) (hd : info.isDir = true) :
    nd = .dir := by
  cases nd with
  | dir => rfl
  | file d t => rw [← h] at hd; simp [Node.info] at hd

/-- A log that is the same at the end was the same in between. -/
theorem log_squeeze {R : Path} {a b c : State} (h1 : Frame R a b) (h2 : Frame R b c)
    (h : c.log = a.log) : b.log = a.log ∧ c.log = b.log := by
  obtain ⟨l1, e1⟩ := h1.log
  obtain ⟨l2, e2⟩ := h2.log
  rw [e2, e1, List.append_assoc] at h
  have h0 : l1 ++ l2 = [] := by simpa using h
  obtain ⟨rfl, rfl⟩ := List.append_eq_nil.mp h0
  simp [e1, e2]

theorem Lstat_node (E : Env) (name : GoString) (w : World) (nd : Node)
    (hf : E.lstatFault (resolve w.cwd name) = false) (hn : w.node name = some nd) :
    Lstat E name w = (w.call (.lstat name) none, .ok nd.info) := by
  simp [Lstat, hf, hn]

theorem readDirNames_dir (E : Env) (d : GoString) (w : World)
    (hf : E.readdirFault (resolve w.cwd d) = false) (hn : w.node d = some .dir) :
    readDirNames E d w = (w.call (.readdir d) none,
      .ok (sortStrings (uniq (childNames w.fs (resolve w.cwd d))))) := by
  simp [readDirNames, hf, hn]

/-- Placing a file whose target directory is there and whose target path
is taken and can be examined: the record is added and the table stays as it
is. -/
theorem placeFile_again (E : Env) (cfg : Config) (path name ym : GoString) (s : State)
    (hym : properName ym)
    (hdir : nodeAt s.world.fs (resolve s.world.cwd (targetDir cfg ym)) = some .dir)
    (hsf : E.statFault (resolve s.world.cwd (targetPath cfg ym name)) = false)
    (hex : s.world.node (targetPath cfg ym name) ≠ none) :
    ∃ w3, placeFile E cfg path name ym s =
        ({ s with
            world := w3
            duplicateFiles := s.duplicateFiles ++
              [duplicateRecord (Base path) (relPath cfg (targetPath cfg ym name))] }, .nil) ∧
      w3.fs = s.world.fs ∧ Quiet s.world w3 := by
  have hm := MkdirAll_of_dir E (targetDir cfg ym) s.world (targetDir_ne_nil cfg ym hym) hdir
  have hq1 : Quiet s.world (s.world.call (.mkdirAll (targetDir cfg ym)) none) :=
    quiet_call _ _ _ (by simp)
  rcases hs : Stat E (targetPath cfg ym name) (s.world.call (.mkdirAll (targetDir cfg ym)) none)
    with ⟨w3, e | fi⟩
  · rcases Stat_error E _ _ e (by rw [hs]) with h | h
    · exact absurd hsf (by rw [show (s.world.call (.mkdirAll (targetDir cfg ym)) none).cwd =
        s.world.cwd from rfl] at h; simp [h])
    · exact absurd h hex
  · refine ⟨w3, placeFile_duplicate E cfg path name ym s _ w3 fi hm hs, ?_, ?_⟩
    · have := Stat_fs E (targetPath cfg ym name)
        (s.world.call (.mkdirAll (targetDir cfg ym)) none)
      rw [hs] at this
      exact this
    · have := Stat_quiet E (targetPath cfg ym name)
        (s.world.call (.mkdirAll (targetDir cfg ym)) none)
      rw [hs] at this
      exact hq1.append this

theorem Apart.deeper {cfg : Config} {R P : Path} (h : Apart cfg R) (hP : R <+: P) :
    Apart cfg P :=
  ⟨h.fmt, h.root, fun ym x hy hp => h.sep ym x hy (hP.trans hp)⟩

theorem Tidy.narrow {R P : Path} {fs : List (Path × Node)} (h : Tidy R fs) (hP : R <+: P) :
    Tidy P fs :=
  fun k nd hk hnd Q n hQ hQk => h k nd (hP.trans hk) hnd Q n (hP.trans hQ) hQk

theorem At.here {R : Path} {p : GoString} {info : FileInfo} {s : State}
    (h : At R p info s) : At (absPath p) p info s :=
  ⟨h.clean, List.prefix_refl _, h.tidy.narrow h.below, h.node⟩

/-- Below the source root whatever lies above an entry is there. -/
theorem Tidy.above {R : Path} {fs : List (Path × Node)} (h : Tidy R fs) (Q k : Path)
    (nd : Node) (hQ : R <+: Q) (hQk : Q <+: k) (hnd : nodeAt fs k = some nd) :
    nodeAt fs Q ≠ none := by
  obtain ⟨x, rfl⟩ := hQk
  cases x with
  | nil => rw [List.append_nil] at hnd; rw [hnd]; simp
  | cons m y =>
    rw [(h _ nd (hQ.trans (List.prefix_append Q _)) hnd Q m hQ ⟨y, by simp⟩).2]
    simp

theorem child_unique (P k : Path) (m n : GoString) (h1 : P ++ [m] <+: k)
    (h2 : P ++ [n] <+: k) : m = n := by
  obtain ⟨x, rfl⟩ := h1
  obtain ⟨y, hy⟩ := h2
  simp only [List.append_assoc, List.singleton_append] at hy
  have := List.append_cancel_left hy
  simp only [List.cons.injEq] at this
  exact this.1.symm

/-- A walk changes nothing below the source root off the place where it
stands. -/
theorem walk_keeps (E : Env) (cfg : Config) (R : Path) (hA : Apart cfg R) (f : Nat)
    (p : GoString) (info : FileInfo) (s : State) (hat : At R p info s) (k : Path)
    (hk : R <+: k) (hn : ¬ absPath p <+: k) :
    nodeAt (walk E (walkFn E cfg) f p info s).1.world.fs k = nodeAt s.world.fs k :=
  Frame.keeps (walk_frame E cfg R hA f p info s hat).1
    (walk_frame E cfg _ (hA.deeper hat.below) f p info s hat.here).1 k hk hn

/-- The walk of the entries of a directory changes nothing below the
source root off these entries. -/
theorem walkLoop_keeps (E : Env) (cfg : Config) (R : Path) (hA : Apart cfg R) (f : Nat)
    (p : GoString) (hc : CleanAbs p) (hb : R <+: absPath p) :
    ∀ (names : List GoString) (s : State), (∀ n ∈ names, properName n) →
      Tidy R s.world.fs → ∀ k, R <+: k → (∀ n ∈ names, ¬ absPath p ++ [n] <+: k) →
      nodeAt (walkLoop E (walkFn E cfg) (walk E (walkFn E cfg) f) p names s).1.world.fs k =
        nodeAt s.world.fs k := by
  intro names
  induction names with
  | nil => intro s _ _ k _ _; rfl
  | cons n rest ih =>
    intro s hprop ht k hk hnk
    rcases hl : Lstat E (Join [p, n]) s.world with ⟨w1, e | fi⟩
    · obtain ⟨l1, _, _, hte⟩ := Lstat_error E _ _ _ _ hl
      rw [walkLoop_cons_err E cfg _ p n rest s w1 e hl hte.ne_skipDir]
      show nodeAt w1.fs k = _
      rw [l1]
    · obtain ⟨hat1, habs, hfr1, _⟩ :=
        At.descend hc hb ht E n (hprop n (List.mem_cons_self _ _)) w1 fi hl
      obtain ⟨l1, _⟩ := Lstat_ok E _ _ _ _ hl
      rw [walkLoop_cons_ok E _ _ p n rest s w1 fi hl]
      have hk1 := walk_keeps E cfg R hA f (Join [p, n]) fi { s with world := w1 } hat1 k hk
        (by rw [habs]; exact hnk n (List.mem_cons_self _ _))
      have hw := (walk_frame E cfg R hA f (Join [p, n]) fi { s with world := w1 } hat1).1
      rcases hres : walk E (walkFn E cfg) f (Join [p, n]) fi { s with world := w1 }
        with ⟨s1, rc⟩
      rw [hres] at hk1 hw
      simp only at hk1 hw
      have hs1 : nodeAt s1.world.fs k = nodeAt s.world.fs k := by
        rw [hk1]; show nodeAt w1.fs k = _; rw [l1]
      have hrest := ih s1 (fun m hm => hprop m (List.mem_cons_of_mem _ hm))
        (Tidy.frame hw hat1.tidy) k hk (fun m hm => hnk m (List.mem_cons_of_mem _ hm))
      cases rc with
      | nil => simp only; rw [hrest, hs1]
      | err e =>
        simp only
        split_ifs
        · exact hs1
        · rw [hrest, hs1]
      | goPanic => exact hs1
      | outOfFuel => exact hs1

theorem Replayed.of_quiet {E : Env} {cfg : Config} {roots : List Path} {r : Ret} {s : State}
    {w1 : World} {res : State × Ret} (hq : Quiet s.world w1) (hfs : w1.fs = s.world.fs)
    (h : Replayed E cfg roots r { s with world := w1 } res) : Replayed E cfg roots r s res := by
  obtain ⟨b1, b2, b3, b4, l2, b5, b6⟩ := h
  exact ⟨b1, b2.trans hfs, b3, hq.append b4, l2, b5,
    fun hr P hP k d t hk hnd hs => b6 hr P hP k d t hk (by simpa [hfs] using hnd) hs⟩

/-- The walk of one entry followed by the walk of others. -/
theorem Replayed.after {E : Env} {cfg : Config} {r1 r2 : List Path} {r : Ret} {s : State}
    {res1 res : State × Ret} (h1 : Replayed E cfg r1 .nil s res1)
    (h2 : Replayed E cfg r2 r res1.1 res) : Replayed E cfg (r1 ++ r2) r s res := by
  obtain ⟨_, a2, a3, a4, l1, a5, a6⟩ := h1
  obtain ⟨b1, b2, b3, b4, l2, b5, b6⟩ := h2
  refine ⟨b1, b2.trans a2, b3.trans a3, a4.append b4, l1 ++ l2,
    by rw [b5, a5, List.append_assoc], ?_⟩
  intro hr P hP k d t hk hnd hs
  rcases List.mem_append.mp hP with hP | hP
  · exact List.mem_append_left _ (a6 rfl P hP k d t hk hnd hs)
  · exact List.mem_append_right _ (b6 hr P hP k d t hk (by rw [a2]; exact hnd) hs)

/-- The records are claimed for paths that cover the files in question. -/
theorem Replayed.cover {E : Env} {cfg : Config} {r1 r2 : List Path} {r : Ret} {s : State}
    {res : State × Ret}
    (hc : ∀ P ∈ r2, ∀ k d t, P <+: k → nodeAt s.world.fs k = some (.file d t) →
      ∃ Q ∈ r1, Q <+: k)
    (h : Replayed E cfg r1 r s res) : Replayed E cfg r2 r s res := by
  obtain ⟨b1, b2, b3, b4, l2, b5, b6⟩ := h
  refine ⟨b1, b2, b3, b4, l2, b5, ?_⟩
  intro hr P hP k d t hk hnd hs
  obtain ⟨Q, hQ, hQk⟩ := hc P hP k d t hk hnd
  exact b6 hr Q hQ k d t hQk hnd hs

/-- A walk that ended in an error claims no record. -/
theorem Replayed.of_err {E : Env} {cfg : Config} {r1 r2 : List Path} {r : Ret} {s : State}
    {res : State × Ret} (hr : r ≠ .nil) (h : Replayed E cfg r1 r s res) :
    Replayed E cfg r2 r s res := by
  obtain ⟨b1, b2, b3, b4, l2, b5, _⟩ := h
  exact ⟨b1, b2, b3, b4, l2, b5, fun h => absurd h hr⟩

/-- A regular file is handed to the callback, which returns `nil`, unless
the recursion budget is used up. -/
theorem walk_file_ret (E : Env) (cfg : Config) (f : Nat) (p : GoString) (info : FileInfo)
    (s : State) (h : info.isDir = false) :
    (walk E (walkFn E cfg) f p info s).2 = .nil ∨
      (walk E (walkFn E cfg) f p info s).2 = .outOfFuel := by
  cases f with
  | zero => right; rfl
  | succ f => left; rw [walk_file E _ f p info s h]; exact walkFn_ret_nil E cfg p info s

/-- The callback at a regular file that the first walk left where it was,
without logging a failure: the second walk records it, if it is supported,
and changes nothing. -/
theorem walkFn_replay (E : Env) (cfg : Config) (R : Path) (hA : Apart cfg R) (p : GoString)
    (info : FileInfo) (s s2 : State) (hat : At R p info s) (hat2 : At R p info s2)
    (hd : info.isDir = false)
    (hlog : (walkFn E cfg p (some info) none s).1.log = s.log)
    (hag : nodeAt s2.world.fs (absPath p) =
      nodeAt (walkFn E cfg p (some info) none s).1.world.fs (absPath p))
    (hout : Outside R (walkFn E cfg p (some info) none s).1.world.fs s2.world.fs) :
    Replayed E cfg [absPath p] .nil s2 (walkFn E cfg p (some info) none s2) := by
  obtain ⟨nd2, hnd2, hi2⟩ := hat2.node
  obtain ⟨d, rfl⟩ := info_file hi2 hd
  have hrooted := hat.clean.1
  have hres : resolve s.world.cwd p = absPath p := resolve_abs _ _ hrooted
  have hres2 : resolve s2.world.cwd p = absPath p := resolve_abs _ _ hrooted
  have hnode2 : s2.world.node p = some (.file d info.modTime) := by
    rw [node_abs _ _ hrooted]; exact hnd2
  have hleaf : ∀ k d2 t2, absPath p <+: k → nodeAt s2.world.fs k = some (.file d2 t2) →
      k = absPath p ∧ d2 = d ∧ t2 = info.modTime := by
    intro k d2 t2 hk hkn
    have := Tidy.file_leaf hat2.tidy (absPath p) k d info.modTime _ hat2.below hk hnd2 hkn
    subst this
    rw [hnd2] at hkn
    simp only [Option.some.injEq, Node.file.injEq] at hkn
    exact ⟨rfl, hkn.1.symm, hkn.2.symm⟩
  by_cases hs : fileExt E p ∈ cfg.supportedFormats
  · have hfr := walkFn_frame E cfg R p (some info) none s hA.fmt hA.root hA.sep hrooted
      hat.below (by
        intro i hi
        simp only [Option.some.injEq] at hi
        subst hi
        obtain ⟨nd, h1, h2⟩ := hat.node
        exact ⟨nd, by rw [node_abs _ _ hrooted]; exact h1, h2⟩)
    have hleft : nodeAt (walkFn E cfg p (some info) none s).1.world.fs (absPath p) =
        some (.file d info.modTime) := by rw [← hag]; exact hnd2
    have hnode : s.world.node p = some (.file d info.modTime) := by
      rw [node_abs _ _ hrooted]; exact hfr.under _ _ hat.below hleft
    rcases computeMD5_file_cases E p s.world d info.modTime hnode with
      ⟨_, e, he⟩ | ⟨ho, hr, _⟩
    · rw [walkFn_hashFailed E cfg p info s e hd hs he] at hlog
      simp at hlog
    · rw [walkFn_hashed E cfg p info s d hd hs hnode ho hr] at hlog hout hleft
      have hn := nameOf_proper E cfg p d info.modTime hA.fmt hs
      have hym := yearMonthOf_proper info.modTime
      obtain ⟨_, _, _, _, _, f6, _⟩ := placeFile_frame E cfg p
        (nameOf E p d info.modTime) (yearMonthOf info.modTime)
        { s with world := hashed s.world p } d info.modTime hn hnode
      simp only [hashed_fs, hashed_cwd] at f6
      have htd : ∀ c, resolve c (targetDir cfg (yearMonthOf info.modTime)) =
          absPath cfg.outputDir ++ [yearMonthOf info.modTime] := by
        intro c
        rw [resolve_abs _ _ (isRooted_targetDir cfg _ hA.root),
          absPath_targetDir cfg _ hA.root hym]
      have htp : ∀ c, resolve c (targetPath cfg (yearMonthOf info.modTime)
          (nameOf E p d info.modTime)) =
          absPath cfg.outputDir ++ [yearMonthOf info.modTime, nameOf E p d info.modTime] := by
        intro c
        rw [resolve_abs _ _ (isRooted_targetPath cfg _ _ hA.root),
          absPath_targetPath cfg _ _ hA.root hym hn]
      have hnd1 : ¬ R <+: absPath cfg.outputDir ++ [yearMonthOf info.modTime] :=
        hA.sep _ [] (yearMonthOf_length _)
      have hnd2' : ¬ R <+: absPath cfg.outputDir ++
          [yearMonthOf info.modTime, nameOf E p d info.modTime] :=
        hA.sep _ [_] (yearMonthOf_length _)
      rw [htd, htp, hres] at f6
      rcases f6 hlog with ⟨_, _, g3, g4, g5, _⟩ | ⟨_, _, g2⟩
      · have hdir2 := (hout _ hnd1).1 g3
        have hex2 := (hout _ hnd2').2 g4
        have ho2 : E.openFault (resolve s2.world.cwd p) = false := by
          rw [hres2, ← hres]; exact ho
        have hr2 : E.readFault (resolve s2.world.cwd p) = false := by
          rw [hres2, ← hres]; exact hr
        rw [walkFn_hashed E cfg p info s2 d hd hs hnode2 ho2 hr2]
        obtain ⟨w3, hpf, hfs, hq⟩ := placeFile_again E cfg p (nameOf E p d info.modTime)
          (yearMonthOf info.modTime) { s2 with world := hashed s2.world p } hym
          (by rw [htd]; exact hdir2) (by rw [htp]; exact g5)
          (by
            rw [node_eq _ _ (targetPath_ne_nil cfg _ _ hn), htp]
            exact hex2)
        rw [hpf]
        refine ⟨rfl, hfs, rfl, (hashed_quiet s2.world p).append hq, _, rfl, ?_⟩
        intro _ P hP k d2 t2 hk hkn hsup
        rw [List.mem_singleton] at hP
        subst hP
        obtain ⟨rfl, rfl, rfl⟩ := hleaf k d2 t2 hk hkn
        simp only [recordOf, strOf_absPath hat.clean, destOf, List.mem_singleton]
      · have hne : absPath p ≠ absPath cfg.outputDir ++
            [yearMonthOf info.modTime, nameOf E p d info.modTime] := by
          intro h
          have hb := hat.below
          rw [h] at hb
          exact hnd2' hb
        rw [g2 hne] at hleft
        simp at hleft
  · rw [walkFn_unsupported E cfg p info s2 (Or.inr hs)]
    refine ⟨rfl, rfl, rfl, Quiet.idle _, [], by simp, ?_⟩
    intro _ P hP k d2 t2 hk hkn hsup
    rw [List.mem_singleton] at hP
    subst hP
    obtain ⟨rfl, rfl, rfl⟩ := hleaf k d2 t2 hk hkn
    rw [strOf_absPath hat.clean] at hsup
    exact absurd hsup hs

theorem filter_present (fs : List (Path × Node)) (P : Path) (n : GoString)
    (rest : List GoString) (h : (nodeAt fs (P ++ [n])).isSome = true) :
    (n :: rest).filter (fun m => (nodeAt fs (P ++ [m])).isSome) =
      n :: rest.filter (fun m => (nodeAt fs (P ++ [m])).isSome) := by
  simp [List.filter_cons, h]

theorem filter_absent (fs : List (Path × Node)) (P : Path) (n : GoString)
    (rest : List GoString) (h : ¬ (nodeAt fs (P ++ [n])).isSome = true) :
    (n :: rest).filter (fun m => (nodeAt fs (P ++ [m])).isSome) =
      rest.filter (fun m => (nodeAt fs (P ++ [m])).isSome) := by
  simp [List.filter_cons, h]

theorem walkLoop_frame1 (E : Env) (cfg : Config) (R : Path) (hA : Apart cfg R) (f : Nat)
    (p : GoString) (hc : CleanAbs p) (hb : R <+: absPath p) (names : List GoString)
    (s : State) (hprop : ∀ n ∈ names, properName n) (ht : Tidy R s.world.fs) :
    Frame R s (walkLoop E (walkFn E cfg) (walk E (walkFn E cfg) f) p names s).1 :=
  (walkLoop_frame E cfg R _ p 0 hc hb
    (fun q fi s n hat habs => ⟨(walk_frame E cfg R hA f q fi s hat).1, fun hD => by
      obtain ⟨nd, hnd, _⟩ := hat.node
      have := hD _ nd (by rw [habs]; exact List.prefix_append _ _) hnd
      omega⟩) names s hprop ht).1

/-- The second walk of the entries of a directory: it takes the entries
that are left in the order of the first walk and ends as the first one
did. -/
theorem walkLoop_replay (E : Env) (cfg : Config) (R : Path) (hA : Apart cfg R) (f : Nat)
    (p : GoString) (hc : CleanAbs p) (hb : R <+: absPath p) (fs2 : List (Path × Node))
    (ih : ∀ (q : GoString) (fi : FileInfo) (s s2 : State), At R q fi s → At R q fi s2 →
      (walk E (walkFn E cfg) f q fi s).1.log = s.log →
      (walk E (walkFn E cfg) f q fi s).2 ≠ .outOfFuel →
      (∀ k, absPath q <+: k →
        nodeAt s2.world.fs k = nodeAt (walk E (walkFn E cfg) f q fi s).1.world.fs k) →
      Outside R (walk E (walkFn E cfg) f q fi s).1.world.fs s2.world.fs →
      Replayed E cfg [absPath q] (walk E (walkFn E cfg) f q fi s).2 s2
        (walk E (walkFn E cfg) f q fi s2)) :
    ∀ (names : List GoString) (s s2 : State),
      (∀ n ∈ names, properName n) → names.Nodup →
      Tidy R s.world.fs → Tidy R s2.world.fs → s2.world.fs = fs2 →
      (∀ n ∈ names, nodeAt s.world.fs (absPath p ++ [n]) ≠ none) →
      (walkLoop E (walkFn E cfg) (walk E (walkFn E cfg) f) p names s).1.log = s.log →
      (walkLoop E (walkFn E cfg) (walk E (walkFn E cfg) f) p names s).2 ≠ .outOfFuel →
      (∀ n ∈ names, ∀ k, absPath p ++ [n] <+: k → nodeAt fs2 k =
        nodeAt (walkLoop E (walkFn E cfg) (walk E (walkFn E cfg) f) p names s).1.world.fs k) →
      Outside R (walkLoop E (walkFn E cfg) (walk E (walkFn E cfg) f) p names s).1.world.fs
        fs2 →
      Replayed E cfg (names.map (fun n => absPath p ++ [n]))
        (walkLoop E (walkFn E cfg) (walk E (walkFn E cfg) f) p names s).2 s2
        (walkLoop E (walkFn E cfg) (walk E (walkFn E cfg) f) p
          (names.filter (fun n => (nodeAt fs2 (absPath p ++ [n])).isSome)) s2) := by
  intro names
  induction names with
  | nil =>
    intro s s2 _ _ _ _ _ _ _ _ _ _
    exact ⟨rfl, rfl, rfl, Quiet.idle _, [], (List.append_nil _).symm, by simp⟩
  | cons n rest ihn =>
    intro s s2 hprop hnod ht ht2 hfs hex hlog hfuel hag hout
    have hpn := hprop n (List.mem_cons_self _ _)
    have hprest : ∀ m ∈ rest, properName m := fun m hm => hprop m (List.mem_cons_of_mem _ hm)
    obtain ⟨hnr, hnodr⟩ := List.nodup_cons.mp hnod
    obtain ⟨hjoin, hcq, habs⟩ := CleanAbs.join hc n hpn
    have hexn := hex n (List.mem_cons_self _ _)
    have hRq : R <+: absPath p ++ [n] := hb.trans (List.prefix_append _ _)
    have hdiff : ∀ m ∈ rest, ∀ k, absPath p ++ [n] <+: k → ¬ absPath p ++ [m] <+: k := by
      intro m hm k hk h
      have := child_unique _ k m n h hk
      subst this
      exact hnr hm
    rcases hl : Lstat E (Join [p, n]) s.world with ⟨w1, e | fi⟩
    · -- the entry cannot be examined
      obtain ⟨l1, _, _, _⟩ := Lstat_error E _ _ _ _ hl
      have hnq : s.world.node (Join [p, n]) ≠ none := by
        rw [node_abs _ _ hcq.1, habs]; exact hexn
      obtain ⟨hf, rfl⟩ := Lstat_error_fault E _ s.world w1 e hl hnq
      have hstep := walkLoop_cons_err E cfg (walk E (walkFn E cfg) f) p n rest s w1 .denied hl
        (by decide)
      rw [hstep] at hag ⊢
      have hin : (nodeAt fs2 (absPath p ++ [n])).isSome = true := by
        rw [hag n (List.mem_cons_self _ _) _ (List.prefix_refl _)]
        show (nodeAt w1.fs _).isSome = true
        rw [l1]; exact Option.isSome_iff_ne_none.mpr hexn
      rw [filter_present fs2 _ n rest hin]
      have hf2 : E.lstatFault (resolve s2.world.cwd (Join [p, n])) = true := by
        rw [resolve_abs _ _ hcq.1] at hf ⊢; exact hf
      rw [walkLoop_cons_err E cfg _ p n _ s2 _ .denied (Lstat_fault E _ s2.world hf2)
        (by decide)]
      exact ⟨rfl, rfl, rfl, quiet_call _ _ _ (by simp), [], by simp, fun h => by simp at h⟩
    · -- the entry is walked
      obtain ⟨hat1, _, hfr1, hlf⟩ := At.descend hc hb ht E n hpn w1 fi hl
      obtain ⟨l1, _, _, _, nd, hnd, hnfi⟩ := Lstat_ok E _ _ _ _ hl
      have hstep := walkLoop_cons_ok E (walkFn E cfg) (walk E (walkFn E cfg) f) p n rest s w1
        fi hl
      have hw := (walk_frame E cfg R hA f (Join [p, n]) fi { s with world := w1 } hat1).1
      have hwok := walk_ok E cfg f (Join [p, n]) fi { s with world := w1 }
      have hfr := walk_file_ret E cfg f (Join [p, n]) fi { s with world := w1 }
      have hkeep1 := walk_keeps E cfg R hA f (Join [p, n]) fi { s with world := w1 } hat1
      have hih := ih (Join [p, n]) fi { s with world := w1 }
      rcases hres : walk E (walkFn E cfg) f (Join [p, n]) fi { s with world := w1 }
        with ⟨s1, rc⟩
      rw [hres] at hstep hw hwok hfr hkeep1 hih
      simp only at hstep hw hwok hfr hkeep1 hih
      have ht1 : Tidy R s1.world.fs := Tidy.frame hw hat1.tidy
      have hnode_s : nodeAt s.world.fs (absPath p ++ [n]) = some nd := by
        rw [node_abs _ _ hcq.1, habs] at hnd; exact hnd
      have hexr : ∀ m ∈ rest, nodeAt s1.world.fs (absPath p ++ [m]) ≠ none := by
        intro m hm
        rw [hkeep1 _ (hb.trans (List.prefix_append _ _)) (by
          rw [habs]
          intro h
          exact hdiff m hm _ h (List.prefix_refl _))]
        show nodeAt w1.fs _ ≠ none
        rw [l1]; exact hex m (List.mem_cons_of_mem _ hm)
      -- the second walk at the entry, when it is still there
      have hpresent : (nodeAt fs2 (absPath p ++ [n])).isSome = true →
          (∀ k, absPath p ++ [n] <+: k → nodeAt fs2 k = nodeAt s1.world.fs k) →
          Outside R s1.world.fs fs2 → s1.log = s.log → rc ≠ .outOfFuel →
          Lstat E (Join [p, n]) s2.world = (s2.world.call (.lstat (Join [p, n])) none, .ok fi) ∧
          Replayed E cfg [absPath p ++ [n]] rc
            { s2 with world := s2.world.call (.lstat (Join [p, n])) none }
            (walk E (walkFn E cfg) f (Join [p, n]) fi
              { s2 with world := s2.world.call (.lstat (Join [p, n])) none }) := by
        intro hin hagc houtc hl1 hrc
        have hn2 : s2.world.node (Join [p, n]) = some nd := by
          rw [node_abs _ _ hcq.1, habs, hfs]
          obtain ⟨x, hx⟩ := Option.isSome_iff_exists.mp hin
          have h1 := hagc _ (List.prefix_refl _)
          rw [hx] at h1
          have h2 : nodeAt w1.fs (absPath p ++ [n]) = some x := hw.under _ x hRq h1.symm
          rw [l1, hnode_s] at h2
          rw [hx, h2]
        have hlf2 : E.lstatFault (resolve s2.world.cwd (Join [p, n])) = false := by
          rw [resolve_abs _ _ hcq.1, habs]; exact hlf
        have hl2 := Lstat_node E _ s2.world nd hlf2 hn2
        rw [hnfi] at hl2
        obtain ⟨hat2, _, _, _⟩ := At.descend hc hb ht2 E n hpn _ fi hl2
        refine ⟨hl2, ?_⟩
        have := hih { s2 with world := s2.world.call (.lstat (Join [p, n])) none } hat1 hat2
          hl1 hrc
          (fun k hk => by
            show nodeAt s2.world.fs k = _
            rw [hfs]; exact hagc k (by rw [← habs]; exact hk))
          (by show Outside R s1.world.fs s2.world.fs; rw [hfs]; exact houtc)
        rw [habs] at this
        exact this
      cases rc with
      | nil =>
        simp only at hstep
        rw [hstep] at hlog hfuel hag hout ⊢
        have hF := walkLoop_frame1 E cfg R hA f p hc hb rest s1 hprest ht1
        have hkeepF := walkLoop_keeps E cfg R hA f p hc hb rest s1 hprest ht1
        obtain ⟨hl1, hl2⟩ := log_squeeze (hfr1.trans hw) hF hlog
        have hagc : ∀ k, absPath p ++ [n] <+: k → nodeAt fs2 k = nodeAt s1.world.fs k := by
          intro k hk
          rw [hag n (List.mem_cons_self _ _) k hk,
            hkeepF k (hRq.trans hk) (fun m hm => hdiff m hm k hk)]
        have houtc : Outside R s1.world.fs fs2 := fun k hk =>
          ⟨fun h => (hout k hk).1 (hF.dirs k h), fun h => (hout k hk).2 (hF.outside k hk h)⟩
        by_cases hin : (nodeAt fs2 (absPath p ++ [n])).isSome = true
        · rw [filter_present fs2 _ n rest hin]
          obtain ⟨hl2', hch⟩ := hpresent hin hagc houtc hl1 (by simp)
          rw [walkLoop_cons_ok E _ _ p n _ s2 _ fi hl2']
          rcases hres2 : walk E (walkFn E cfg) f (Join [p, n]) fi
            { s2 with world := s2.world.call (.lstat (Join [p, n])) none } with ⟨s1', rc'⟩
          rw [hres2] at hch
          have hrc : rc' = .nil := hch.1
          subst hrc
          simp only
          have hfs1 : s1'.world.fs = fs2 := hch.2.1.trans hfs
          have hrest := ihn s1 s1' hprest hnodr ht1 (by rw [hfs1, ← hfs]; exact ht2) hfs1 hexr
            hl2 hfuel (fun m hm => hag m (List.mem_cons_of_mem _ hm)) hout
          exact Replayed.of_quiet (quiet_call _ _ _ (by simp)) rfl (Replayed.after hch hrest)
        · rw [filter_absent fs2 _ n rest hin]
          have hrest := ihn s1 s2 hprest hnodr ht1 ht2 hfs hexr hl2 hfuel
            (fun m hm => hag m (List.mem_cons_of_mem _ hm)) hout
          refine Replayed.cover ?_ hrest
          intro P hP k d t hk hkn
          rcases List.mem_cons.mp hP with rfl | hP
          · have := Tidy.above ht2 _ k _ hRq hk hkn
            rw [hfs] at this
            exact absurd (Option.isSome_iff_ne_none.mpr this) hin
          · exact ⟨P, hP, hk⟩
      | err e =>
        have hte : TravErr e := by
          obtain ⟨_, l, _, hr⟩ := hwok
          rcases hr with h | h | ⟨er, h, hte, _⟩
          · simp at h
          · simp at h
          · simp only [Ret.err.injEq] at h; subst h; exact hte
        have hcond : (!fi.isDir || decide (e ≠ .skipDir)) = true := by simp [hte.ne_skipDir]
        simp only [hcond, if_true] at hstep
        rw [hstep] at hlog hfuel hag hout ⊢
        have hagc := hag n (List.mem_cons_self _ _)
        have hin : (nodeAt fs2 (absPath p ++ [n])).isSome = true := by
          cases hdir : fi.isDir with
          | false => rcases hfr hdir with h | h <;> simp at h
          | true =>
            have hnd' := info_dir hnfi hdir
            subst hnd'
            have h1 : nodeAt s1.world.fs (absPath p ++ [n]) = some .dir :=
              hw.dirs _ (by show nodeAt w1.fs _ = _; rw [l1]; exact hnode_s)
            rw [hagc _ (List.prefix_refl _)]
            show (nodeAt s1.world.fs _).isSome = true
            rw [h1]; rfl
        rw [filter_present fs2 _ n rest hin]
        obtain ⟨hl2', hch⟩ := hpresent hin hagc hout hlog (by simp)
        rw [walkLoop_cons_ok E _ _ p n _ s2 _ fi hl2']
        rcases hres2 : walk E (walkFn E cfg) f (Join [p, n]) fi
          { s2 with world := s2.world.call (.lstat (Join [p, n])) none } with ⟨s1', rc'⟩
        rw [hres2] at hch
        have hrc : rc' = .err e := hch.1
        subst hrc
        simp only [hcond, if_true]
        exact Replayed.of_quiet (quiet_call _ _ _ (by simp)) rfl
          (Replayed.of_err (by simp) hch)
      | goPanic =>
        obtain ⟨_, l, _, hr⟩ := hwok
        rcases hr with h | h | ⟨er, h, _⟩ <;> simp at h
      | outOfFuel =>
        simp only at hstep
        rw [hstep] at hfuel
        exact absurd rfl hfuel

/-- A second walk: when the first walk logged no failure, the second one,
started where the first one left the table below its place, ends as the
first one did, renames nothing, leaves the table as it finds it and records
every supported file it finds. -/
theorem walk_replay (E : Env) (cfg : Config) (R : Path) (hA : Apart cfg R) (f : Nat) :
    ∀ (p : GoString) (info : FileInfo) (s s2 : State), At R p info s → At R p info s2 →
      (walk E (walkFn E cfg) f p info s).1.log = s.log →
      (walk E (walkFn E cfg) f p info s).2 ≠ .outOfFuel →
      (∀ k, absPath p <+: k →
        nodeAt s2.world.fs k = nodeAt (walk E (walkFn E cfg) f p info s).1.world.fs k) →
      Outside R (walk E (walkFn E cfg) f p info s).1.world.fs s2.world.fs →
      Replayed E cfg [absPath p] (walk E (walkFn E cfg) f p info s).2 s2
        (walk E (walkFn E cfg) f p info s2) := by
  induction f with
  | zero => intro p info s s2 _ _ _ hfuel; exact absurd rfl hfuel
  | succ f ih =>
    intro p info s s2 hat hat2 hlog hfuel hag hout
    have hrt := hat.clean.1
    by_cases hd : info.isDir = true
    · obtain ⟨nd, hnd, hi⟩ := hat.node
      have := info_dir hi hd
      subst this
      obtain ⟨nd2, hnd2, hi2⟩ := hat2.node
      have := info_dir hi2 hd
      subst this
      have hn : s.world.node p = some .dir := by rw [node_abs _ _ hrt]; exact hnd
      have hn2 : s2.world.node p = some .dir := by rw [node_abs _ _ hrt]; exact hnd2
      have hwf := (walk_frame E cfg R hA (f + 1) p info s hat).1
      have hsub : ∀ n, nodeAt s2.world.fs (absPath p ++ [n]) ≠ none →
          nodeAt s.world.fs (absPath p ++ [n]) ≠ none := by
        intro n h
        obtain ⟨x, hx⟩ := Option.ne_none_iff_exists'.mp h
        have h1 := hag _ (List.prefix_append (absPath p) [n])
        rw [hx] at h1
        rw [hwf.under _ x (hat.below.trans (List.prefix_append _ _)) h1.symm]
        simp
      rcases hr : readDirNames E p s.world with ⟨w1, e | names⟩
      · obtain ⟨hf, rfl⟩ := readDirNames_error_fault E p s.world w1 e hr hn
        rw [walk_dir_err E cfg f p info s w1 .denied hd hr]
        have hf2 : E.readdirFault (resolve s2.world.cwd p) = true := by
          rw [resolve_abs _ _ hrt] at hf ⊢; exact hf
        rw [walk_dir_err E cfg f p info s2 _ .denied hd (readDirNames_fault E p s2.world hf2)]
        exact ⟨rfl, rfl, rfl, quiet_call _ _ _ (by simp), [], by simp, fun h => by simp at h⟩
      · obtain ⟨r1, _, _, rf, _, rmem⟩ := readDirNames_ok E p s.world w1 names hr
        have hnames : names = sortStrings (uniq (childNames s.world.fs (absPath p))) := by
          have := ((readDirNames_spec E p s.world).2.2.2.2 names (by rw [hr])).2.2
          rw [resolve_abs _ _ hrt] at this
          exact this
        rw [resolve_abs _ _ hrt] at rf rmem
        have hstep := walk_dir_ok E cfg f p info s w1 names hd hr
        rw [hstep] at hlog hfuel hag hout ⊢
        have rf2 : E.readdirFault (resolve s2.world.cwd p) = false := by
          rw [resolve_abs _ _ hrt]; exact rf
        have hr2 := readDirNames_dir E p s2.world rf2 hn2
        have hflt : sortStrings (uniq (childNames s2.world.fs (resolve s2.world.cwd p))) =
            names.filter (fun n => (nodeAt s2.world.fs (absPath p ++ [n])).isSome) := by
          rw [hnames, resolve_abs _ _ hrt]
          apply names_filter
          intro n
          rw [mem_childNames, mem_childNames]
          exact ⟨fun h => ⟨hsub n h, Option.isSome_iff_ne_none.mpr h⟩,
            fun h => Option.isSome_iff_ne_none.mp h.2⟩
        rw [hflt] at hr2
        rw [walk_dir_ok E cfg f p info s2 _ _ hd hr2]
        have hprop : ∀ n ∈ names, properName n := by
          intro n hn'
          obtain ⟨x, hx⟩ := Option.ne_none_iff_exists'.mp ((rmem n).mp hn')
          exact (hat.tidy _ x (hat.below.trans (List.prefix_append _ _)) hx (absPath p) n
            hat.below (List.prefix_refl _)).1
        have hloop := walkLoop_replay E cfg R hA f p hat.clean hat.below s2.world.fs ih names
          { s with world := w1 } { s2 with world := s2.world.call (.readdir p) none } hprop
          (by rw [hnames]; exact nodup_names _)
          (by show Tidy R w1.fs; rw [r1]; exact hat.tidy) hat2.tidy rfl
          (fun n hn' => by show nodeAt w1.fs _ ≠ none; rw [r1]; exact (rmem n).mp hn')
          hlog hfuel (fun n _ k hk => hag k ((List.prefix_append _ _).trans hk)) hout
        refine Replayed.of_quiet (quiet_call _ _ _ (by simp)) rfl (Replayed.cover ?_ hloop)
        intro P hP k d t hk hkn
        rw [List.mem_singleton] at hP
        subst hP
        have hne : k ≠ absPath p := by
          rintro rfl
          rw [show nodeAt (s2.world.call (.readdir p) none).fs (absPath p) =
            nodeAt s2.world.fs (absPath p) from rfl, hnd2] at hkn
          simp at hkn
        obtain ⟨n, hnk, _, hex⟩ := Tidy.child hat2.tidy (absPath p) k _ hat2.below hk hne hkn
        exact ⟨absPath p ++ [n], List.mem_map.mpr ⟨n, (rmem n).mpr (hsub n hex), rfl⟩, hnk⟩
    · have hd' : info.isDir = false := by simpa using hd
      rw [walk_file E _ f p info s hd'] at hlog hag hout ⊢
      rw [walk_file E _ f p info s2 hd', walkFn_ret_nil E cfg p info s]
      exact walkFn_replay E cfg R hA p info s s2 hat hat2 hd' hlog
        (hag _ (List.prefix_refl _)) hout

/-! ## The directories of `main` -/

theorem wellFormed_tidy (w : World) (h : w.wellFormed) (R : Path) : Tidy R w.fs := by
  intro k nd _ hnd P n _ hPk
  obtain ⟨x, rfl⟩ := hPk
  have hne : P ++ [n] ++ x ≠ [] := by simp
  rw [nodeAt, if_neg hne] at hnd
  obtain ⟨nd2, hmem⟩ := (lookup_ne_none_iff w.fs _).mp (by rw [hnd]; simp)
  have := h.2 _ hmem P.length (by simp)
  have e1 : (P ++ [n] ++ x).getD P.length [] = n := by
    rw [List.append_assoc, List.getD_append_right _ _ _ _ (le_refl _)]
    simp
  have e2 : (P ++ [n] ++ x).take P.length = P := by
    rw [List.append_assoc, List.take_left']
    rfl
  rwa [e1, e2] at this

theorem dropWhile_append_stop (q : Char → Bool) (l r : List Char) (c : Char)
    (hl : ∀ a ∈ l, q a = true) (hc : q c = false) :
    (l ++ c :: r).dropWhile q = c :: r := by
  induction l with
  | nil => simp [List.dropWhile, hc]
  | cons a l ih =>
    simp only [List.cons_append, List.dropWhile, hl a (List.mem_cons_self _ _)]
    exact ih (fun x hx => hl x (List.mem_cons_of_mem _ hx))

theorem cleanElems_append_nil (r : Bool) (es : List GoString) :
    cleanElems r (es ++ [[]]) = cleanElems r es := by
  simp [cleanElems, List.foldl_append, cleanStep]

theorem absPath_strOf (k : Path) (h : ∀ c ∈ k, properName c) : absPath (strOf k) = k := by
  by_cases hk : k = []
  · subst hk; decide
  · have : splitSep (strOf k) = [] :: splitSep (joinSep k) := by simp [strOf, splitSep]
    rw [absPath, this, cleanElems_nil_cons, splitSep_joinSep k hk (fun e he => (h e he).2.2.2),
      cleanElems_proper true k h]

theorem isRooted_strOf (k : Path) : isRooted (strOf k) = true := rfl

/-- A proper name joined to a rooted path. -/
theorem CleanAbs_Join (p n : GoString) (hp : isRooted p = true) (hn : properName n) :
    CleanAbs (Join [p, n]) ∧ absPath (Join [p, n]) = absPath p ++ [n] := by
  have hne : p ≠ [] := by rintro rfl; simp [isRooted] at hp
  have habs : absPath (Join [p, n]) = absPath p ++ [n] := by
    have := resolve_Join [] p n hp hn
    rwa [resolve_abs _ _ (isRooted_Join p n hp), resolve_abs _ _ hp] at this
  obtain ⟨s1, s2, _⟩ := Join_shape p n hne hn
  exact ⟨⟨isRooted_Join p n hp, s1, s2⟩, habs⟩

/-- The parent of a working directory, as `filepath.Dir` finds it. -/
theorem absPath_Dir (k : Path) (h : ∀ c ∈ k, properName c) :
    isRooted (Dir (strOf k)) = true ∧ absPath (Dir (strOf k)) = k.dropLast := by
  cases k using List.reverseRecOn with
  | nil => exact ⟨by decide, by decide⟩
  | append_singleton init last =>
    have hlast : properName last := h last (by simp)
    have hinit : ∀ c ∈ init, properName c := fun c hc => h c (by simp [hc])
    obtain ⟨pre, hpre, hx⟩ : ∃ pre, ((pre = [] ∧ init = []) ∨ pre = strOf init) ∧
        strOf (init ++ [last]) = pre ++ '/' :: last := by
      by_cases hi : init = []
      · subst hi; exact ⟨[], Or.inl ⟨rfl, rfl⟩, by simp [strOf, joinSep]⟩
      · exact ⟨strOf init, Or.inr rfl, by simp [strOf, joinSep_append_singleton init hi]⟩
    have hdir : Dir (strOf (init ++ [last])) = Clean (pre ++ ['/']) := by
      unfold Dir
      rw [hx]
      congr 1
      rw [List.reverse_append, List.reverse_cons, List.append_assoc, List.singleton_append,
        dropWhile_append_stop _ _ _ _ (fun a ha => by
          have : a ≠ '/' := fun hh => hlast.2.2.2 (by rw [← hh]; simpa using ha)
          simpa using this) (by simp)]
      simp
    have hroot : isRooted (pre ++ ['/']) = true := by
      rcases hpre with ⟨rfl, _⟩ | rfl
      · rfl
      · rfl
    rw [hdir]
    refine ⟨by rw [isRooted_Clean, hroot], ?_⟩
    have h1 := elems_Clean (pre ++ ['/'])
    rw [hroot] at h1
    rw [absPath, h1]
    have h2 : splitSep (pre ++ ['/']) = splitSep pre ++ [[]] := by
      rw [splitSep_append_sep]; rfl
    rw [h2, cleanElems_append_nil, List.dropLast_concat]
    rcases hpre with ⟨rfl, rfl⟩ | rfl
    · simp [splitSep, cleanElems, cleanStep]
    · exact absPath_strOf init hinit

theorem properName_Raw : properName "Raw".toList := by decide

theorem main_rawDir (cwd : Path) (h : ∀ c ∈ cwd, properName c) :
    CleanAbs (mainConfig (strOf cwd)).rawDir ∧
      absPath (mainConfig (strOf cwd)).rawDir = rawPath cwd := by
  have := CleanAbs_Join (strOf cwd) "Raw".toList rfl properName_Raw
  rw [absPath_strOf cwd h] at this
  exact this

theorem main_outputDir (cwd : Path) (h : ∀ c ∈ cwd, properName c) :
    CleanAbs (mainConfig (strOf cwd)).outputDir ∧
      absPath (mainConfig (strOf cwd)).outputDir = outPath cwd := by
  obtain ⟨d1, d2⟩ := absPath_Dir cwd h
  have := CleanAbs_Join (Dir (strOf cwd)) "柠泽".toList d1 properName_outDir
  rw [d2] at this
  exact this

/-- The source root is not at or above the output directory. -/
theorem rawPath_not_above (cwd : Path) (x : List GoString) (hx : ∀ ym ∈ x.head?, ym.length = 7) :
    ¬ rawPath cwd <+: outPath cwd ++ x := by
  unfold rawPath outPath
  cases cwd using List.reverseRecOn with
  | nil =>
    rintro ⟨t, ht⟩
    simp at ht
  | append_singleton init last =>
    rw [List.dropLast_concat, List.append_assoc, List.append_assoc]
    intro hp
    have hp2 := (List.prefix_append_right_inj init).mp hp
    simp only [List.singleton_append] at hp2
    obtain ⟨t, ht⟩ := hp2
    cases x with
    | nil => simp at ht
    | cons ym x =>
      simp only [List.cons_append, List.cons.injEq] at ht
      have h7 := hx ym (by simp)
      rw [← ht.2.1] at h7
      simp at h7

theorem main_apart (cwd : Path) (h : ∀ c ∈ cwd, properName c) :
    Apart (mainConfig (strOf cwd)) (rawPath cwd) := by
  obtain ⟨o1, o2⟩ := main_outputDir cwd h
  refine ⟨rfl, o1.1, ?_⟩
  rw [o2]
  intro ym x hym
  exact rawPath_not_above cwd (ym :: x) (by simpa using hym)

/-! ## The run -/

theorem walkResult_of_ok {s : State} {res : State × Ret} (h : WalkOk s res) :
    walkResult res = res := by
  obtain ⟨s1, r⟩ := res
  obtain ⟨_, l, _, hr⟩ := h
  cases r with
  | nil => rfl
  | goPanic => rfl
  | outOfFuel => rfl
  | err e =>
    have ht : TravErr e := by
      rcases hr with h | h | ⟨er, h, ht, _⟩
      · simp at h
      · simp at h
      · simp only [Ret.err.injEq] at h; subst h; exact ht
    rcases ht with rfl | rfl | rfl <;> rfl

theorem Walk_ok (E : Env) (cfg : Config) (fuel : Nat) (root : GoString) (s : State)
    (w1 : World) (info : FileInfo) (hl : Lstat E root s.world = (w1, .ok info)) :
    Walk E (walkFn E cfg) fuel root s =
      walk E (walkFn E cfg) fuel root info { s with world := w1 } := by
  simp only [Walk, hl]
  exact walkResult_of_ok (walk_ok E cfg fuel root info _)

theorem Walk_error (E : Env) (cfg : Config) (fuel : Nat) (root : GoString) (s : State)
    (w1 : World) (e : Error) (hl : Lstat E root s.world = (w1, .error e)) :
    Walk E (walkFn E cfg) fuel root s = ({ s with world := w1 }, .err e) := by
  obtain ⟨_, _, _, ht⟩ := Lstat_error E _ _ _ _ hl
  simp only [Walk, hl, walkFn_err]
  rcases ht with rfl | rfl | rfl <;> rfl

/-! ## The run, step by step -/

theorem Stat_congr (E : Env) (name : GoString) (w v : World) (hfs : v.fs = w.fs)
    (hc : resolve v.cwd name = resolve w.cwd name) :
    (Stat E name v).2 = (Stat E name w).2 := by
  have hn : v.node name = w.node name := by simp [World.node, hc, hfs]
  by_cases hf : E.statFault (resolve w.cwd name) = true
  · simp [Stat, hc, hf]
  · simp only [Stat, hc, hf, hn]
    cases w.node name <;> rfl

theorem Stat_ok_inv (E : Env) (name : GoString) (w w1 : World) (info : FileInfo)
    (h : Stat E name w = (w1, .ok info)) :
    E.statFault (resolve w.cwd name) = false ∧ w1 = w.call (.stat name) none ∧
      ∃ n, w.node name = some n ∧ n.info = info := by
  unfold Stat at h
  by_cases hf : E.statFault (resolve w.cwd name) = true
  · rw [if_pos hf] at h; simp at h
  · rw [if_neg hf] at h
    cases hn : w.node name with
    | none => rw [hn] at h; simp at h
    | some n =>
      rw [hn] at h
      simp only [Prod.mk.injEq, Except.ok.injEq] at h
      exact ⟨by simpa using hf, h.1.symm, n, rfl, h.2⟩

theorem archive_stat_error (E : Env) (cfg : Config) (fuel : Nat) (w w1 : World) (e : Error)
    (hs : Stat E cfg.rawDir w = (w1, .error e)) :
    archive E cfg fuel w = some ⟨w1, [missingMessage cfg.rawDir], [], 1, []⟩ := by
  simp only [archive, hs]

theorem archive_not_dir (E : Env) (cfg : Config) (fuel : Nat) (w w1 : World) (info : FileInfo)
    (hs : Stat E cfg.rawDir w = (w1, .ok info)) (hd : info.isDir = false) :
    archive E cfg fuel w = some ⟨w1, [missingMessage cfg.rawDir], [], 1, []⟩ := by
  simp [archive, hs, hd]

theorem archive_mkdirFailed (E : Env) (cfg : Config) (fuel : Nat) (w w1 w2 : World)
    (info : FileInfo) (e : Error)
    (hs : Stat E cfg.rawDir w = (w1, .ok info)) (hd : info.isDir = true)
    (hm : MkdirAll E cfg.outputDir w1 = (w2, some e)) :
    archive E cfg fuel w = some ⟨w2, [], [.fatalOutputDir cfg.outputDir e], 1, []⟩ := by
  simp [archive, hs, hd, hm]

/-- The run after the source directory was found and the output directory
made: the walk decides. -/
theorem archive_walk (E : Env) (cfg : Config) (fuel : Nat) (w w1 w2 : World)
    (info : FileInfo)
    (hs : Stat E cfg.rawDir w = (w1, .ok info)) (hd : info.isDir = true)
    (hm : MkdirAll E cfg.outputDir w1 = (w2, none)) :
    archive E cfg fuel w =
      match Walk E (walkFn E cfg) fuel cfg.rawDir ⟨w2, [], []⟩ with
      | (_, .outOfFuel) => none
      | (s, .goPanic) => some ⟨s.world, [], s.log, 2, s.duplicateFiles⟩
      | (s, .err e) => some ⟨s.world, [], s.log ++ [.fatalWalk e], 1, s.duplicateFiles⟩
      | (s, .nil) => some ⟨s.world, report s.duplicateFiles, s.log, 0, s.duplicateFiles⟩ := by
  simp only [archive, hs, hd, hm]
  rfl

/-- The run whose walk cannot examine the source directory. -/
theorem archive_lstatFailed (E : Env) (cfg : Config) (fuel : Nat) (w w1 w2 w3 : World)
    (info : FileInfo) (e : Error)
    (hs : Stat E cfg.rawDir w = (w1, .ok info)) (hd : info.isDir = true)
    (hm : MkdirAll E cfg.outputDir w1 = (w2, none))
    (hl : Lstat E cfg.rawDir w2 = (w3, .error e)) :
    archive E cfg fuel w = some ⟨w3, [], [.fatalWalk e], 1, []⟩ := by
  rw [archive_walk E cfg fuel w w1 w2 info hs hd hm,
    Walk_error E cfg fuel cfg.rawDir ⟨w2, [], []⟩ w3 e hl]
  rfl

/-- The run whose walk ends with the result `r`. -/
theorem archive_of_walk (E : Env) (cfg : Config) (fuel : Nat) (w w1 w2 w3 : World)
    (info rinfo : FileInfo) (s : State) (r : Ret)
    (hs : Stat E cfg.rawDir w = (w1, .ok info)) (hd : info.isDir = true)
    (hm : MkdirAll E cfg.outputDir w1 = (w2, none))
    (hl : Lstat E cfg.rawDir w2 = (w3, .ok rinfo))
    (hw : walk E (walkFn E cfg) fuel cfg.rawDir rinfo ⟨w3, [], []⟩ = (s, r)) :
    archive E cfg fuel w =
      match (s, r) with
      | (_, .outOfFuel) => none
      | (s, .goPanic) => some ⟨s.world, [], s.log, 2, s.duplicateFiles⟩
      | (s, .err e) => some ⟨s.world, [], s.log ++ [.fatalWalk e], 1, s.duplicateFiles⟩
      | (s, .nil) => some ⟨s.world, report s.duplicateFiles, s.log, 0, s.duplicateFiles⟩ := by
  rw [archive_walk E cfg fuel w w1 w2 info hs hd hm,
    Walk_ok E cfg fuel cfg.rawDir ⟨w2, [], []⟩ w3 rinfo hl]
  dsimp only
  rw [hw]

theorem main_eq (E : Env) (fuel : Nat) (w : World) (h : E.getwdFault = false) :
    main E fuel w = archive E (mainConfig (strOf w.cwd)) fuel (w.call .getwd none) := by
  simp [main, Getwd, h, strOf]

theorem main_getwdFailed (E : Env) (fuel : Nat) (w : World) (h : E.getwdFault = true) :
    main E fuel w = some ⟨w.call .getwd (some .denied), [], [.fatalGetwd .denied], 1, []⟩ := by
  simp [main, Getwd, h]

theorem mem_report (r : GoString) (dups : List GoString) (h : r ∈ dups) : r ∈ report dups := by
  unfold report
  have : 0 < dups.length := List.length_pos_of_mem h
  rw [if_pos this]
  simp [h]

/-- What making the output directory leaves of a world that is tidy below
the source root. -/
theorem MkdirAll_below (E : Env) (cfg : Config) (R : Path) (w w2 : World) (e : Option Error)
    (hroot : isRooted cfg.outputDir = true) (hout : ¬ R <+: absPath cfg.outputDir)
    (hm : MkdirAll E cfg.outputDir w = (w2, e)) :
    w2.cwd = w.cwd ∧ (∃ l, w2.calls = w.calls ++ l) ∧
    (∀ k n, nodeAt w.fs k = some n → nodeAt w2.fs k = some n) ∧
    (∀ k n, R <+: k → nodeAt w2.fs k = some n → nodeAt w.fs k = some n) ∧
    (Tidy R w.fs → Tidy R w2.fs) ∧
    (e = none → nodeAt w2.fs (absPath cfg.outputDir) = some .dir) := by
  obtain ⟨m1, m2, m3⟩ := MkdirAll_spec E cfg.outputDir w
  have hx := MkdirAll_extends E cfg.outputDir w
  rw [hm] at m1 m2 m3 hx
  rw [resolve_abs _ _ hroot] at m2 m3
  have hunder : ∀ k n, R <+: k → nodeAt w2.fs k = some n → nodeAt w.fs k = some n := by
    intro k n hk hn
    rcases m2 k n hn with h | ⟨_, h, _⟩
    · exact h
    · exact absurd (hk.trans h) hout
  refine ⟨hx.1, hx.2, m1, hunder, ?_, fun he => (m3 he).2⟩
  intro ht k nd hk hnd P n hP hPk
  obtain ⟨a, b⟩ := ht k nd hk (hunder k nd hk hnd) P n hP hPk
  exact ⟨a, m1 _ _ b⟩

/-- A log without a failure line that a walk has written is empty. -/
theorem log_nil_of_walk {s : State}
    (h : ∃ l, s.log = [] ++ l ∧ ∀ x ∈ l, x.isFailure = true)
    (hno : ∀ x ∈ s.log, x.isFailure = false) : s.log = [] := by
  obtain ⟨l, h1, h2⟩ := h
  rw [List.nil_append] at h1
  cases hsl : s.log with
  | nil => rfl
  | cons x xs =>
    have hx : x ∈ s.log := by rw [hsl]; simp
    have a := hno x hx
    have b := h2 x (by rw [← h1]; exact hx)
    rw [a] at b
    simp at b

/-! ## Two runs -/

/-- A run and the run after it: when the first run logs no failure of a
hash, a directory creation or a rename, the second run ends as the first one
did, renames nothing and leaves the file table as it finds it; after a first
run with exit code 0 it records every supported file below the source root
and prints the report. -/
theorem archive_twice (E : Env) (cfg : Config) (R : Path) (fuel : Nat) (w v : World)
    (o1 : Outcome) (hA : Apart cfg R) (hraw : CleanAbs cfg.rawDir)
    (habs : absPath cfg.rawDir = R) (hout : ¬ R <+: absPath cfg.outputDir)
    (htidy : Tidy R w.fs)
    (h : archive E cfg fuel w = some o1) (hlog : ∀ x ∈ o1.log, x.isFailure = false)
    (hv : v.fs = o1.world.fs) :
    o1.world.cwd = w.cwd ∧
    ∃ o2, archive E cfg fuel v = some o2 ∧ o2.exitCode = o1.exitCode ∧ o2.log = o1.log ∧
      o2.world.fs = o1.world.fs ∧ Quiet v o2.world ∧
      (o1.exitCode = 0 → o2.exitCode = 0 ∧ o2.stdout = report o2.duplicateFiles ∧
        ∀ k d t, R <+: k → nodeAt o1.world.fs k = some (.file d t) →
          fileExt E (strOf k) ∈ cfg.supportedFormats →
          recordOf E cfg k d t ∈ o2.duplicateFiles) := by
  have hrt := hraw.1
  have hres : ∀ c, resolve c cfg.rawDir = R := fun c => by rw [resolve_abs _ _ hrt, habs]
  have hone : cfg.outputDir ≠ [] := by
    intro h0; have := hA.root; rw [h0] at this; simp [isRooted] at this
  have hfs1 := Stat_fs E cfg.rawDir w
  have hq1 := Stat_quiet E cfg.rawDir w
  have hfs2 := Stat_fs E cfg.rawDir v
  have hq2 := Stat_quiet E cfg.rawDir v
  rcases hs : Stat E cfg.rawDir w with ⟨w1, e | info⟩
  · -- the source path cannot be examined or leads nowhere
    rw [hs] at hfs1 hq1
    rw [archive_stat_error E cfg fuel w w1 e hs] at h
    simp only [Option.some.injEq] at h
    subst h
    have hc := Stat_congr E cfg.rawDir w v (hv.trans hfs1) (by rw [hres, hres])
    rcases hs2 : Stat E cfg.rawDir v with ⟨v1, r⟩
    rw [hs, hs2] at hc
    rw [hs2] at hfs2 hq2
    simp only at hc
    subst hc
    exact ⟨hq1.1, _, archive_stat_error E cfg fuel v v1 e hs2, rfl, rfl, hfs2.trans hv, hq2,
      fun h0 => by simp at h0⟩
  · rw [hs] at hfs1 hq1
    by_cases hd : info.isDir = true
    swap
    · -- the source path is not a directory
      have hd' : info.isDir = false := by simpa using hd
      rw [archive_not_dir E cfg fuel w w1 info hs hd'] at h
      simp only [Option.some.injEq] at h
      subst h
      have hc := Stat_congr E cfg.rawDir w v (hv.trans hfs1) (by rw [hres, hres])
      rcases hs2 : Stat E cfg.rawDir v with ⟨v1, r⟩
      rw [hs, hs2] at hc
      rw [hs2] at hfs2 hq2
      simp only at hc
      subst hc
      exact ⟨hq1.1, _, archive_not_dir E cfg fuel v v1 info hs2 hd', rfl, rfl, hfs2.trans hv,
        hq2, fun h0 => by simp at h0⟩
    · obtain ⟨hsf, rfl, n, hn, hni⟩ := Stat_ok_inv E cfg.rawDir w w1 info hs
      have hnd := info_dir hni hd
      subst hnd
      rw [hres] at hsf
      have hR : nodeAt w.fs R = some .dir := by
        rw [node_abs _ _ hrt, habs] at hn; exact hn
      rcases hm : MkdirAll E cfg.outputDir (w.call (.stat cfg.rawDir) none) with ⟨w2, _ | e⟩
      swap
      · rw [archive_mkdirFailed E cfg fuel w _ w2 info e hs hd hm] at h
        simp only [Option.some.injEq] at h
        subst h
        have := hlog _ (List.mem_singleton_self _)
        simp [LogLine.isFailure] at this
      · obtain ⟨b1, _, b3, _, b5, b6⟩ := MkdirAll_below E cfg R _ w2 none hA.root hout hm
        have hR2 : nodeAt w2.fs R = some .dir := b3 _ _ hR
        have hO2 := b6 rfl
        -- the steps of the second run up to the walk
        have hstart : nodeAt v.fs R = some .dir →
            nodeAt v.fs (absPath cfg.outputDir) = some .dir →
            Stat E cfg.rawDir v = (v.call (.stat cfg.rawDir) none, .ok info) ∧
            MkdirAll E cfg.outputDir (v.call (.stat cfg.rawDir) none) =
              ((v.call (.stat cfg.rawDir) none).call (.mkdirAll cfg.outputDir) none, none) := by
          intro hvR hvO
          have := Stat_node E cfg.rawDir v .dir (by rw [hres]; exact hsf)
            (by rw [node_abs _ _ hrt, habs]; exact hvR)
          rw [hni] at this
          exact ⟨this, MkdirAll_of_dir E cfg.outputDir (v.call (.stat cfg.rawDir) none) hone
            (by rw [resolve_abs _ _ hA.root]; exact hvO)⟩
        have hquiet : Quiet v (((v.call (.stat cfg.rawDir) none).call
            (.mkdirAll cfg.outputDir) none).call (.lstat cfg.rawDir) none) :=
          (quiet_call v _ none (by simp)).append
            ((quiet_call _ _ none (by simp)).append (quiet_call _ _ none (by simp)))
        rcases hl : Lstat E cfg.rawDir w2 with ⟨w3, e | rinfo⟩
        · -- the source directory cannot be examined
          obtain ⟨l1, l2, _, _⟩ := Lstat_error E _ _ _ _ hl
          obtain ⟨hlf, rfl⟩ := Lstat_error_fault E _ w2 w3 e hl
            (by rw [node_abs _ _ hrt, habs, hR2]; simp)
          rw [hres] at hlf
          rw [archive_lstatFailed E cfg fuel w _ w2 w3 info .denied hs hd hm hl] at h
          simp only [Option.some.injEq] at h
          subst h
          have hv3 : v.fs = w2.fs := hv.trans l1
          obtain ⟨hs2, hm2⟩ := hstart (by rw [hv3]; exact hR2) (by rw [hv3]; exact hO2)
          have hl2 := Lstat_fault E cfg.rawDir
            ((v.call (.stat cfg.rawDir) none).call (.mkdirAll cfg.outputDir) none)
            (by rw [hres]; exact hlf)
          refine ⟨l2.trans b1, _,
            archive_lstatFailed E cfg fuel v _ _ _ info .denied hs2 hd hm2 hl2, rfl, rfl,
            hv, ?_, fun h0 => by simp at h0⟩
          exact (quiet_call v _ none (by simp)).append
            ((quiet_call _ _ none (by simp)).append (quiet_call _ _ _ (by simp)))
        · -- the walk
          obtain ⟨l1, l2, _, l4, nd, l5, l6⟩ := Lstat_ok E _ _ _ _ hl
          rw [hres] at l4
          rw [node_abs _ _ hrt, habs, hR2] at l5
          simp only [Option.some.injEq] at l5
          subst l5
          have hat : At R cfg.rawDir rinfo ⟨w3, [], []⟩ :=
            ⟨hraw, by rw [habs], by
              show Tidy R w3.fs
              rw [l1]; exact b5 htidy, .dir, by
              show nodeAt w3.fs _ = _
              rw [l1, habs]; exact hR2, l6⟩
          have hwf := (walk_frame E cfg R hA fuel cfg.rawDir rinfo ⟨w3, [], []⟩ hat).1
          have hwok := walk_ok E cfg fuel cfg.rawDir rinfo ⟨w3, [], []⟩
          have hlogs := walk_logs E cfg fuel cfg.rawDir rinfo ⟨w3, [], []⟩
          have hrep := walk_replay E cfg R hA fuel cfg.rawDir rinfo ⟨w3, [], []⟩
          rcases hw : walk E (walkFn E cfg) fuel cfg.rawDir rinfo ⟨w3, [], []⟩ with ⟨s, r⟩
          rw [hw] at hwf hwok hlogs hrep
          simp only at hlogs hrep
          rw [archive_of_walk E cfg fuel w _ w2 w3 info rinfo s r hs hd hm hl hw] at h
          have hcwd : s.world.cwd = w.cwd := hwf.cwd.trans (l2.trans b1)
          have hsR : nodeAt s.world.fs R = some .dir :=
            hwf.dirs R (by show nodeAt w3.fs R = _; rw [l1]; exact hR2)
          have hsO : nodeAt s.world.fs (absPath cfg.outputDir) = some .dir :=
            hwf.dirs _ (by show nodeAt w3.fs _ = _; rw [l1]; exact hO2)
          -- the second run, given that the walk of the first one logged nothing
          have hsecond : v.fs = s.world.fs → s.log = [] → r ≠ .outOfFuel →
              ∃ s2 : State, archive E cfg fuel v =
                  (match ((s2, r) : State × Ret) with
                  | (_, .outOfFuel) => none
                  | (s, .goPanic) => some ⟨s.world, [], s.log, 2, s.duplicateFiles⟩
                  | (s, .err e) =>
                    some ⟨s.world, [], s.log ++ [.fatalWalk e], 1, s.duplicateFiles⟩
                  | (s, .nil) =>
                    some ⟨s.world, report s.duplicateFiles, s.log, 0, s.duplicateFiles⟩) ∧
                s2.world.fs = s.world.fs ∧ s2.log = [] ∧ Quiet v s2.world ∧
                (r = .nil → ∀ k d t, R <+: k →
                  nodeAt s.world.fs k = some (.file d t) →
                  fileExt E (strOf k) ∈ cfg.supportedFormats →
                  recordOf E cfg k d t ∈ s2.duplicateFiles) := by
            intro hvs hsl hr
            obtain ⟨hs2, hm2⟩ := hstart (by rw [hvs]; exact hsR) (by rw [hvs]; exact hsO)
            have hl2 := Lstat_node E cfg.rawDir
              ((v.call (.stat cfg.rawDir) none).call (.mkdirAll cfg.outputDir) none) .dir
              (by rw [hres]; exact l4)
              (by rw [node_abs _ _ hrt, habs]; show nodeAt v.fs R = _; rw [hvs]; exact hsR)
            rw [l6] at hl2
            have hat2 : At R cfg.rawDir rinfo
                ⟨((v.call (.stat cfg.rawDir) none).call (.mkdirAll cfg.outputDir) none).call
                  (.lstat cfg.rawDir) none, [], []⟩ :=
              ⟨hraw, by rw [habs], by
                show Tidy R v.fs
                rw [hvs]; exact Tidy.frame hwf hat.tidy, .dir, by
                show nodeAt v.fs _ = _
                rw [hvs, habs]; exact hsR, l6⟩
            have hrp := hrep _ hat hat2 hsl hr
              (fun k _ => by show nodeAt v.fs k = _; rw [hvs])
              (fun k _ => ⟨fun hh => by show nodeAt v.fs k = _; rw [hvs]; exact hh,
                fun hh => by show nodeAt v.fs k ≠ _; rw [hvs]; exact hh⟩)
            rcases hw2 : walk E (walkFn E cfg) fuel cfg.rawDir rinfo
              ⟨((v.call (.stat cfg.rawDir) none).call (.mkdirAll cfg.outputDir) none).call
                (.lstat cfg.rawDir) none, [], []⟩ with ⟨s2, r2⟩
            rw [hw2] at hrp
            obtain ⟨a1, a2, a3, a4, l, a5, a6⟩ := hrp
            simp only at a1 a2 a3 a4 a5 a6
            subst a1
            refine ⟨s2, archive_of_walk E cfg fuel v _ _ _ info rinfo s2 r2 hs2 hd hm2 hl2 hw2,
              a2.trans hvs, a3, hquiet.append a4, ?_⟩
            intro hnil k d t hk hkn hsup
            rw [a5]
            have := a6 hnil (absPath cfg.rawDir) (by simp) k d t (by rw [habs]; exact hk)
              (by show nodeAt v.fs k = _; rw [hvs]; exact hkn) hsup
            simpa using this
          cases r with
          | outOfFuel => simp at h
          | goPanic =>
            obtain ⟨_, l, _, hr⟩ := hwok
            rcases hr with h' | h' | ⟨er, h', _⟩ <;> simp at h'
          | err e =>
            simp only [Option.some.injEq] at h
            subst h
            have hsl : s.log = [] := log_nil_of_walk hlogs
              (fun x hx => hlog x (List.mem_append_left _ hx))
            obtain ⟨s2, e1, e2, e3, e4, _⟩ := hsecond hv hsl (by simp)
            refine ⟨hcwd, _, e1, rfl, ?_, e2, e4, fun h0 => by simp at h0⟩
            show s2.log ++ _ = s.log ++ _
            rw [e3, hsl]
          | nil =>
            simp only [Option.some.injEq] at h
            subst h
            have hsl : s.log = [] := log_nil_of_walk hlogs hlog
            obtain ⟨s2, e1, e2, e3, e4, e5⟩ := hsecond hv hsl (by simp)
            refine ⟨hcwd, _, e1, rfl, ?_, e2, e4, fun _ => ⟨rfl, rfl, e5 rfl⟩⟩
            show s2.log = s.log
            rw [e3, hsl]

/-- C6, as stated, fails: in a world where the walk meets a directory it
cannot read before it reaches the photo `b.jpg`, hashing, directory creation
and renaming never fail (the log of the first run holds only the fatal line
of the walk), the photo is still below the source root after the first run,
and the second run, which ends the same way, reports no duplicate at all. -/
theorem C6_counterexample :
    exWorldBlocked.wellFormed ∧
    (main exEnvBlocked 5 exWorldBlocked).map (fun o => (o.exitCode, o.log)) =
      some (1, [.fatalWalk .denied]) ∧
    nodeAt exBlockedRun.world.fs (exPath ["home", "u", "Raw", "b.jpg"]) =
      some (.file exABC exTime) ∧
    fileExt exEnvBlocked "/home/u/Raw/b.jpg".toList ∈ supportedFormats ∧
    (main exEnvBlocked 5 exBlockedRun.world).map
      (fun o => (o.exitCode, o.duplicateFiles, o.stdout)) = some (1, [], []) := by
  refine ⟨by decide, by decide, by decide, by decide, by decide⟩

/-- C6, amended: run in a well-formed world, if the first run logs no
failure of a hash, a directory creation or a rename, then the second run,
with the same recursion budget, ends too, with the exit code and the log of
the first; it renames nothing; the file table after it is the table after
the first run; and if the first run ended with exit code 0, every supported
file below the source root after the first run has its record
`<base name> => 柠泽/<year-month>/<date>_<digest>.<ext>` in the duplicate
list of the second run and in what it prints. -/
theorem C6_second_run_idempotent (E : Env) (fuel : Nat) (w : World) (o1 : Outcome)
    (hwf : w.wellFormed) (h1 : main E fuel w = some o1)
    (hlog : ∀ x ∈ o1.log, x.isFailure = false) :
    ∃ o2, main E fuel o1.world = some o2 ∧ o2.exitCode = o1.exitCode ∧ o2.log = o1.log ∧
      Quiet o1.world o2.world ∧ o2.world.fs = o1.world.fs ∧
      (o1.exitCode = 0 →
        ∀ k d t, rawPath w.cwd <+: k → nodeAt o1.world.fs k = some (.file d t) →
          fileExt E (strOf k) ∈ supportedFormats →
          (Base (strOf k) ++ " => ".toList ++
              ("柠泽".toList ++ '/' :: yearMonthOf t ++ '/' :: nameOf E (strOf k) d t) ∈
            o2.duplicateFiles) ∧
          (Base (strOf k) ++ " => ".toList ++
              ("柠泽".toList ++ '/' :: yearMonthOf t ++ '/' :: nameOf E (strOf k) d t) ∈
            o2.stdout)) := by
  by_cases hg : E.getwdFault = true
  · rw [main_getwdFailed E fuel w hg] at h1
    simp only [Option.some.injEq] at h1
    subst h1
    exact ⟨_, main_getwdFailed E fuel _ hg, rfl, rfl, quiet_call _ _ _ (by simp), rfl,
      fun h0 => by simp at h0⟩
  · have hg' : E.getwdFault = false := by simpa using hg
    rw [main_eq E fuel w hg'] at h1
    have hA := main_apart w.cwd hwf.1
    obtain ⟨r1, r2⟩ := main_rawDir w.cwd hwf.1
    obtain ⟨q1, q2⟩ := main_outputDir w.cwd hwf.1
    have hout : ¬ rawPath w.cwd <+: absPath (mainConfig (strOf w.cwd)).outputDir := by
      rw [q2]
      simpa using rawPath_not_above w.cwd [] (by simp)
    obtain ⟨hcwd, o2, a1, a2, a3, a4, a5, a6⟩ := archive_twice E (mainConfig (strOf w.cwd))
      (rawPath w.cwd) fuel (w.call .getwd none) (o1.world.call .getwd none) o1 hA r1 r2 hout
      (wellFormed_tidy w hwf _) h1 hlog rfl
    have hcwd' : o1.world.cwd = w.cwd := hcwd
    refine ⟨o2, ?_, a2, a3, (quiet_call _ _ none (by simp)).append a5, a4, ?_⟩
    · rw [main_eq E fuel o1.world hg', hcwd']; exact a1
    · intro h0 k d t hk hkn hs
      obtain ⟨_, b2, b3⟩ := a6 h0
      have hrec := b3 k d t hk hkn hs
      have hn := nameOf_proper E (mainConfig (strOf w.cwd)) (strOf k) d t rfl hs
      have heq : recordOf E (mainConfig (strOf w.cwd)) k d t =
          Base (strOf k) ++ " => ".toList ++
            ("柠泽".toList ++ '/' :: yearMonthOf t ++ '/' :: nameOf E (strOf k) d t) := by
        unfold recordOf destOf duplicateRecord
        rw [relPath_mainConfig _ _ _ (yearMonthOf_proper t) hn]
      rw [heq] at hrec
      exact ⟨hrec, by rw [b2]; exact mem_report _ _ hrec⟩

set_option maxRecDepth 100000 in
/-- C6 at the world with `photo.JPG` and its copy `copy.jpg`: the first run
moves the copy and leaves `photo.JPG` as a duplicate; the second run changes
nothing and reports `photo.JPG` again. -/
theorem C6_second_run_witness :
    exWorldTwo.wellFormed ∧ main exEnv 5 exWorldTwo = some exFirstRun ∧
    (∀ x ∈ exFirstRun.log, x.isFailure = false) ∧ exFirstRun.exitCode = 0 ∧
    nodeAt exFirstRun.world.fs (exPath ["home", "u", "Raw", "photo.JPG"]) =
      some (.file exABC exTime) ∧
    ∃ o2, main exEnv 5 exFirstRun.world = some o2 ∧ o2.exitCode = exFirstRun.exitCode ∧
      o2.log = exFirstRun.log ∧
      Quiet exFirstRun.world o2.world ∧ o2.world.fs = exFirstRun.world.fs ∧
      (exFirstRun.exitCode = 0 →
        ∀ k d t, rawPath exWorldTwo.cwd <+: k →
          nodeAt exFirstRun.world.fs k = some (.file d t) →
          fileExt exEnv (strOf k) ∈ supportedFormats →
          (Base (strOf k) ++ " => ".toList ++
              ("柠泽".toList ++ '/' :: yearMonthOf t ++ '/' :: nameOf exEnv (strOf k) d t) ∈
            o2.duplicateFiles) ∧
          (Base (strOf k) ++ " => ".toList ++
              ("柠泽".toList ++ '/' :: yearMonthOf t ++ '/' :: nameOf exEnv (strOf k) d t) ∈
            o2.stdout)) :=
  ⟨by decide, by decide, by decide, by decide, by decide,
    C6_second_run_idempotent exEnv 5 exWorldTwo exFirstRun (by decide) (by decide)
      (by decide)⟩

/-! ## Failures and the exit code -/

theorem le_foldr_max (l : List Nat) (x : Nat) (h : x ∈ l) : x ≤ l.foldr max 0 := by
  induction l with
  | nil => simp at h
  | cons a l ih =>
    simp only [List.foldr_cons]
    rcases List.mem_cons.mp h with rfl | h
    · exact le_max_left _ _
    · exact (ih h).trans (le_max_right _ _)

theorem fuelFor_bound (w : World) (k : Path) (nd : Node) (h : nodeAt w.fs k = some nd) :
    k.length < fuelFor w := by
  unfold fuelFor
  by_cases hk : k = []
  · subst hk; simp
  · rw [nodeAt, if_neg hk] at h
    obtain ⟨n2, hmem⟩ := (lookup_ne_none_iff w.fs k).mp (by rw [h]; simp)
    have := le_foldr_max (w.fs.map (fun e => e.1.length)) k.length
      (List.mem_map.mpr ⟨(k, n2), hmem, rfl⟩)
    omega

/-- With a recursion budget that exceeds the depth of the table the run
ends. -/
theorem archive_completes (E : Env) (cfg : Config) (R : Path) (fuel : Nat) (w : World)
    (hA : Apart cfg R) (hraw : CleanAbs cfg.rawDir) (habs : absPath cfg.rawDir = R)
    (hout : ¬ R <+: absPath cfg.outputDir) (htidy : Tidy R w.fs)
    (hdepth : ∀ k nd, nodeAt w.fs k = some nd → k.length < fuel) :
    ∃ o, archive E cfg fuel w = some o := by
  have hfs1 := Stat_fs E cfg.rawDir w
  rcases hs : Stat E cfg.rawDir w with ⟨w1, e | info⟩
  · exact ⟨_, archive_stat_error E cfg fuel w w1 e hs⟩
  · rw [hs] at hfs1
    simp only at hfs1
    by_cases hd : info.isDir = true
    swap
    · exact ⟨_, archive_not_dir E cfg fuel w w1 info hs (by simpa using hd)⟩
    · rcases hm : MkdirAll E cfg.outputDir w1 with ⟨w2, _ | e⟩
      swap
      · exact ⟨_, archive_mkdirFailed E cfg fuel w w1 w2 info e hs hd hm⟩
      · obtain ⟨b1, _, b3, b4, b5, _⟩ := MkdirAll_below E cfg R _ w2 none hA.root hout hm
        rcases hl : Lstat E cfg.rawDir w2 with ⟨w3, e | rinfo⟩
        · exact ⟨_, archive_lstatFailed E cfg fuel w w1 w2 w3 info e hs hd hm hl⟩
        · obtain ⟨l1, l2, l3, l4, nd, l5, l6⟩ := Lstat_ok E _ _ _ _ hl
          rw [node_abs _ _ hraw.1, habs] at l5
          have hat : At R cfg.rawDir rinfo ⟨w3, [], []⟩ :=
            ⟨hraw, by rw [habs], by
              show Tidy R w3.fs
              rw [l1]; exact b5 (by rw [hfs1]; exact htidy), nd, by
              show nodeAt w3.fs _ = _
              rw [l1, habs]; exact l5, l6⟩
          obtain ⟨_, hfuel⟩ := walk_frame E cfg R hA fuel cfg.rawDir rinfo ⟨w3, [], []⟩ hat
          have hD : Depth w3.fs (absPath cfg.rawDir) ((absPath cfg.rawDir).length + fuel) := by
            intro k x hk hx
            rw [l1] at hx
            have h1 := b4 k x (by rw [← habs]; exact hk) hx
            rw [hfs1] at h1
            have := hdepth k x h1
            omega
          have hne := hfuel hD
          rcases hw : walk E (walkFn E cfg) fuel cfg.rawDir rinfo ⟨w3, [], []⟩ with ⟨s, r⟩
          rw [hw] at hne
          have harch := archive_of_walk E cfg fuel w w1 w2 w3 info rinfo s r hs hd hm hl hw
          cases r with
          | nil => exact ⟨_, harch⟩
          | outOfFuel => exact absurd rfl hne
          | goPanic => exact ⟨_, harch⟩
          | err e => exact ⟨_, harch⟩

/-- The same for `main`, in a well-formed world. -/
theorem main_completes (E : Env) (fuel : Nat) (w : World) (hwf : w.wellFormed)
    (hfuel : fuelFor w ≤ fuel) : ∃ o, main E fuel w = some o := by
  by_cases hg : E.getwdFault = true
  · exact ⟨_, main_getwdFailed E fuel w hg⟩
  · have hg2 : E.getwdFault = false := by simpa using hg
    have hA := main_apart w.cwd hwf.1
    obtain ⟨r1, r2⟩ := main_rawDir w.cwd hwf.1
    obtain ⟨q1, q2⟩ := main_outputDir w.cwd hwf.1
    have hout : ¬ rawPath w.cwd <+: absPath (mainConfig (strOf w.cwd)).outputDir := by
      rw [q2]
      simpa using rawPath_not_above w.cwd [] (by simp)
    obtain ⟨o, h1⟩ := archive_completes E _ (rawPath w.cwd) fuel (w.call .getwd none)
      hA r1 r2 hout (wellFormed_tidy w hwf _)
      (fun k nd h => lt_of_lt_of_le (fuelFor_bound w k nd h) hfuel)
    exact ⟨o, by rw [main_eq E fuel w hg2]; exact h1⟩

/-- A run that found its source directory, made its output directory and
met no failed `os.Lstat` and no failed reading of a directory ends with exit
code 0 and the report, whatever else failed. -/
theorem archive_exit_zero (E : Env) (cfg : Config) (R : Path) (fuel : Nat) (w : World)
    (o : Outcome) (hraw : CleanAbs cfg.rawDir) (habs : absPath cfg.rawDir = R)
    (h : archive E cfg fuel w = some o)
    (hsf : E.statFault R = false) (hn : nodeAt w.fs R = some .dir)
    (hmk : (MkdirAll E cfg.outputDir (w.call (.stat cfg.rawDir) none)).2 = none)
    (htr : ∀ l, o.world.calls = w.calls ++ l → ∀ c ∈ l, traversalFailure c = false) :
    o.exitCode = 0 ∧ o.stdout = report o.duplicateFiles := by
  have hs := Stat_node E cfg.rawDir w .dir (by rw [resolve_abs _ _ hraw.1, habs]; exact hsf)
    (by rw [node_abs _ _ hraw.1, habs]; exact hn)
  have hd : Node.dir.info.isDir = true := rfl
  rcases hm : MkdirAll E cfg.outputDir (w.call (.stat cfg.rawDir) none) with ⟨w2, _ | e⟩
  swap
  · rw [hm] at hmk; simp at hmk
  · obtain ⟨_, lm, hlm⟩ := MkdirAll_extends E cfg.outputDir (w.call (.stat cfg.rawDir) none)
    rw [hm] at hlm
    simp only at hlm
    rcases hl : Lstat E cfg.rawDir w2 with ⟨w3, e | rinfo⟩
    · obtain ⟨_, _, l3, _⟩ := Lstat_error E _ _ _ _ hl
      rw [archive_lstatFailed E cfg fuel w _ w2 w3 _ e hs hd hm hl] at h
      simp only [Option.some.injEq] at h
      subst h
      have := htr ((Call.stat cfg.rawDir, none) :: lm ++ [(Call.lstat cfg.rawDir, some e)])
        (by show w3.calls = _; rw [l3, hlm]; simp [World.call])
        (Call.lstat cfg.rawDir, some e) (by simp)
      simp [traversalFailure] at this
    · obtain ⟨_, _, l3, _⟩ := Lstat_ok E _ _ _ _ hl
      obtain ⟨_, lw, hc, hr⟩ := walk_ok E cfg fuel cfg.rawDir rinfo ⟨w3, [], []⟩
      rcases hw : walk E (walkFn E cfg) fuel cfg.rawDir rinfo ⟨w3, [], []⟩ with ⟨s, r⟩
      rw [hw] at hc hr
      simp only at hc hr
      rw [archive_of_walk E cfg fuel w _ w2 w3 _ rinfo s r hs hd hm hl hw] at h
      cases r with
      | nil =>
        simp only [Option.some.injEq] at h
        subst h
        exact ⟨rfl, rfl⟩
      | outOfFuel => simp at h
      | goPanic => rcases hr with h' | h' | ⟨er, h', _⟩ <;> simp at h'
      | err e =>
        simp only [Option.some.injEq] at h
        subst h
        rcases hr with h' | h' | ⟨er, h', _, p, hp⟩
        · simp at h'
        · simp at h'
        · have hcalls : s.world.calls = w.calls ++
              ((Call.stat cfg.rawDir, none) :: lm ++ [(Call.lstat cfg.rawDir, none)] ++ lw) := by
            rw [hc, l3, hlm]; simp [World.call]
          rcases hp with hp | hp
          · have := htr _ hcalls (Call.lstat p, some er) (List.mem_append_right _ hp)
            simp [traversalFailure] at this
          · have := htr _ hcalls (Call.readdir p, some er) (List.mem_append_right _ hp)
            simp [traversalFailure] at this

theorem main_exit_zero (E : Env) (fuel : Nat) (w : World) (o : Outcome) (hwf : w.wellFormed)
    (h : main E fuel w = some o) (hg : E.getwdFault = false)
    (hsf : E.statFault (rawPath w.cwd) = false) (hn : nodeAt w.fs (rawPath w.cwd) = some .dir)
    (hmk : (MkdirAll E (mainConfig (strOf w.cwd)).outputDir
      ((w.call .getwd none).call (.stat (mainConfig (strOf w.cwd)).rawDir) none)).2 = none)
    (htr : ∀ c ∈ o.world.calls.drop w.calls.length, traversalFailure c = false) :
    o.exitCode = 0 ∧ o.stdout = report o.duplicateFiles := by
  rw [main_eq E fuel w hg] at h
  obtain ⟨r1, r2⟩ := main_rawDir w.cwd hwf.1
  refine archive_exit_zero E _ (rawPath w.cwd) fuel (w.call .getwd none) o r1 r2 h hsf hn hmk ?_
  intro l hl c hc
  refine htr c ?_
  rw [hl]
  simp only [World.call, List.append_assoc, List.drop_left]
  exact List.mem_append_right _ hc

theorem Rename_error_fs (E : Env) (a b : GoString) (w w4 : World) (e : Error)
    (h : Rename E a b w = (w4, some e)) : w4.fs = w.fs ∧ w4.cwd = w.cwd := by
  unfold Rename at h
  split_ifs at h
  · simp only [Prod.mk.injEq] at h; rw [← h.1]; exact ⟨rfl, rfl⟩
  · simp only [Prod.mk.injEq] at h; rw [← h.1]; exact ⟨rfl, rfl⟩
  · split at h
    · simp only [Prod.mk.injEq] at h; rw [← h.1]; exact ⟨rfl, rfl⟩
    · simp at h

/-- The callback returns an error exactly when it was handed one. -/
theorem walkFn_err_iff (E : Env) (cfg : Config) (path : GoString) (info : Option FileInfo)
    (err : Option Error) (s : State) (e : Error) :
    (walkFn E cfg path info err s).2 = .err e ↔ err = some e := by
  cases err with
  | some e1 => rw [walkFn_err]; simp
  | none =>
    cases info with
    | none => simp [walkFn]
    | some i => rw [walkFn_ret_nil]; simp

/-- The callback on a supported file whose target directory cannot be
made. -/
theorem walkFn_mkdirFailed (E : Env) (cfg : Config) (path : GoString) (info : FileInfo)
    (s : State) (data : List Byte) (w2 : World) (e : Error)
    (hdir : info.isDir = false) (hsup : fileExt E path ∈ cfg.supportedFormats)
    (hnode : s.world.node path = some (.file data info.modTime))
    (hopen : E.openFault (resolve s.world.cwd path) = false)
    (hread : E.readFault (resolve s.world.cwd path) = false)
    (hmk : MkdirAll E (targetDir cfg (yearMonthOf info.modTime)) (hashed s.world path) =
      (w2, some e)) :
    walkFn E cfg path (some info) none s =
        ({ s with
            world := w2
            log := s.log ++ [.mkdirFailed (targetDir cfg (yearMonthOf info.modTime)) e] },
          .nil) ∧
      w2.node path = some (.file data info.modTime) ∧
      (∀ k n, nodeAt s.world.fs k = some n → nodeAt w2.fs k = some n) ∧
      Quiet s.world w2 := by
  have hpne : path ≠ [] := by rintro rfl; simp [World.node] at hnode
  obtain ⟨m1, _, _⟩ := MkdirAll_spec E (targetDir cfg (yearMonthOf info.modTime))
    (hashed s.world path)
  have mx := MkdirAll_extends E (targetDir cfg (yearMonthOf info.modTime)) (hashed s.world path)
  have mq := MkdirAll_quiet E (targetDir cfg (yearMonthOf info.modTime)) (hashed s.world path)
  rw [hmk] at m1 mx mq
  refine ⟨?_, ?_, m1, (hashed_quiet s.world path).append mq⟩
  · rw [walkFn_hashed E cfg path info s data hdir hsup hnode hopen hread]
    exact placeFile_mkdirFailed E cfg path _ _ _ w2 e hmk
  · rw [node_eq _ _ hpne] at hnode ⊢
    rw [mx.1]
    exact m1 _ _ hnode

/-- The callback on a supported file whose rename fails. -/
theorem walkFn_moveFailed (E : Env) (cfg : Config) (path : GoString) (info : FileInfo)
    (s : State) (data : List Byte) (w2 w3 w4 : World) (er e : Error)
    (hdir : info.isDir = false) (hsup : fileExt E path ∈ cfg.supportedFormats)
    (hnode : s.world.node path = some (.file data info.modTime))
    (hopen : E.openFault (resolve s.world.cwd path) = false)
    (hread : E.readFault (resolve s.world.cwd path) = false)
    (hmk : MkdirAll E (targetDir cfg (yearMonthOf info.modTime)) (hashed s.world path) =
      (w2, none))
    (hst : Stat E (destOf E cfg path data info.modTime) w2 = (w3, .error er))
    (hrn : Rename E path (destOf E cfg path data info.modTime) w3 = (w4, some e)) :
    walkFn E cfg path (some info) none s =
        ({ s with
            world := w4
            log := s.log ++ [.moveFailed path (destOf E cfg path data info.modTime) e] },
          .nil) ∧
      w4.node path = some (.file data info.modTime) ∧ w4.fs = w2.fs ∧
      (∀ k n, nodeAt s.world.fs k = some n → nodeAt w4.fs k = some n) := by
  have hpne : path ≠ [] := by rintro rfl; simp [World.node] at hnode
  obtain ⟨m1, _, _⟩ := MkdirAll_spec E (targetDir cfg (yearMonthOf info.modTime))
    (hashed s.world path)
  have mx := MkdirAll_extends E (targetDir cfg (yearMonthOf info.modTime)) (hashed s.world path)
  rw [hmk] at m1 mx
  have s1 := Stat_fs E (destOf E cfg path data info.modTime) w2
  have s2 := Stat_extends E (destOf E cfg path data info.modTime) w2
  rw [hst] at s1 s2
  obtain ⟨r1, r2⟩ := Rename_error_fs E _ _ _ _ _ hrn
  have hfs : w4.fs = w2.fs := r1.trans s1
  refine ⟨?_, ?_, hfs, fun k n h => by rw [hfs]; exact m1 k n h⟩
  · rw [walkFn_hashed E cfg path info s data hdir hsup hnode hopen hread]
    exact placeFile_moveFailed E cfg path _ _ _ w2 w3 w4 er e hmk hst hrn
  · rw [node_eq _ _ hpne] at hnode ⊢
    rw [hfs, r2, s2.1, mx.1]
    exact m1 _ _ hnode

/-- C8: failures of single files are recoverable and never abort the run.
The walk callback returns a non-nil error exactly when it was handed one,
and `nil` whenever it was handed none (so also after a duplicate was
recorded).  For a supported regular file: when hashing fails, the failure is
logged and the file table and the duplicate list are unchanged, without any
rename; when the target directory cannot be made, the failure is logged, the
file is still at its path with its content, nothing that existed is gone,
the duplicate list is unchanged and nothing was renamed; when the rename
fails, the failure is logged, the file is still at its path with its
content, the table is what it was after the target directory was made, and
the duplicate list is unchanged.  And a run in a well-formed world, given a
recursion budget above the depth of the table, ends; and when `os.Getwd`
succeeded, the source directory is there and can be examined, the output
directory was made, and no `os.Lstat` and no reading of a directory failed
during the run (the walk handed the callback no traversal error), the run
ends with exit code 0 and the report, whatever hashes, directory creations
and renames of single files failed. -/
theorem C8_failures_do_not_abort (E : Env) (w : World) (hwf : w.wellFormed) :
    (∀ cfg path info err s e, (walkFn E cfg path info err s).2 = .err e ↔ err = some e) ∧
    (∀ cfg path info s, (walkFn E cfg path (some info) none s).2 = .nil) ∧
    (∀ cfg path (info : FileInfo) s e, info.isDir = false →
      fileExt E path ∈ cfg.supportedFormats →
      (computeMD5 E path s.world).2 = .error e →
      (walkFn E cfg path (some info) none s).2 = .nil ∧
      (walkFn E cfg path (some info) none s).1.world.fs = s.world.fs ∧
      (walkFn E cfg path (some info) none s).1.duplicateFiles = s.duplicateFiles ∧
      (walkFn E cfg path (some info) none s).1.log = s.log ++ [.md5Failed path e] ∧
      Quiet s.world (walkFn E cfg path (some info) none s).1.world) ∧
    (∀ cfg path (info : FileInfo) s data w2 e, info.isDir = false →
      fileExt E path ∈ cfg.supportedFormats →
      s.world.node path = some (.file data info.modTime) →
      E.openFault (resolve s.world.cwd path) = false →
      E.readFault (resolve s.world.cwd path) = false →
      MkdirAll E (targetDir cfg (yearMonthOf info.modTime)) (hashed s.world path) =
        (w2, some e) →
      (walkFn E cfg path (some info) none s).2 = .nil ∧
      (walkFn E cfg path (some info) none s).1.world.node path =
        some (.file data info.modTime) ∧
      (∀ k n, nodeAt s.world.fs k = some n →
        nodeAt (walkFn E cfg path (some info) none s).1.world.fs k = some n) ∧
      (walkFn E cfg path (some info) none s).1.duplicateFiles = s.duplicateFiles ∧
      (walkFn E cfg path (some info) none s).1.log =
        s.log ++ [.mkdirFailed (targetDir cfg (yearMonthOf info.modTime)) e] ∧
      Quiet s.world (walkFn E cfg path (some info) none s).1.world) ∧
    (∀ cfg path (info : FileInfo) s data w2 w3 w4 er e, info.isDir = false →
      fileExt E path ∈ cfg.supportedFormats →
      s.world.node path = some (.file data info.modTime) →
      E.openFault (resolve s.world.cwd path) = false →
      E.readFault (resolve s.world.cwd path) = false →
      MkdirAll E (targetDir cfg (yearMonthOf info.modTime)) (hashed s.world path) =
        (w2, none) →
      Stat E (destOf E cfg path data info.modTime) w2 = (w3, .error er) →
      Rename E path (destOf E cfg path data info.modTime) w3 = (w4, some e) →
      (walkFn E cfg path (some info) none s).2 = .nil ∧
      (walkFn E cfg path (some info) none s).1.world.node path =
        some (.file data info.modTime) ∧
      (walkFn E cfg path (some info) none s).1.world.fs = w2.fs ∧
      (∀ k n, nodeAt s.world.fs k = some n →
        nodeAt (walkFn E cfg path (some info) none s).1.world.fs k = some n) ∧
      (walkFn E cfg path (some info) none s).1.duplicateFiles = s.duplicateFiles ∧
      (walkFn E cfg path (some info) none s).1.log =
        s.log ++ [.moveFailed path (destOf E cfg path data info.modTime) e]) ∧
    (∀ fuel, fuelFor w ≤ fuel → ∃ o, main E fuel w = some o) ∧
    (∀ fuel o, main E fuel w = some o →
      E.getwdFault = false → E.statFault (rawPath w.cwd) = false →
      nodeAt w.fs (rawPath w.cwd) = some .dir →
      (MkdirAll E (mainConfig (strOf w.cwd)).outputDir
        ((w.call .getwd none).call (.stat (mainConfig (strOf w.cwd)).rawDir) none)).2 = none →
      (∀ c ∈ o.world.calls.drop w.calls.length, traversalFailure c = false) →
      o.exitCode = 0 ∧ o.stdout = report o.duplicateFiles) := by
  refine ⟨fun cfg path info err s e => walkFn_err_iff E cfg path info err s e,
    fun cfg path info s => walkFn_ret_nil E cfg path info s, ?_, ?_, ?_,
    fun fuel hf => main_completes E fuel w hwf hf,
    fun fuel o h hg hsf hn hmk htr => main_exit_zero E fuel w o hwf h hg hsf hn hmk htr⟩
  · intro cfg path info s e hdir hsup hfail
    rw [walkFn_hashFailed E cfg path info s e hdir hsup hfail]
    exact ⟨rfl, (computeMD5_calls E path s.world).2.1, rfl, rfl, computeMD5_quiet E path s.world⟩
  · intro cfg path info s data w2 e hdir hsup hnode hopen hread hmk
    obtain ⟨a1, a2, a3, a4⟩ :=
      walkFn_mkdirFailed E cfg path info s data w2 e hdir hsup hnode hopen hread hmk
    rw [a1]
    exact ⟨rfl, a2, a3, rfl, rfl, a4⟩
  · intro cfg path info s data w2 w3 w4 er e hdir hsup hnode hopen hread hmk hst hrn
    obtain ⟨a1, a2, a3, a4⟩ :=
      walkFn_moveFailed E cfg path info s data w2 w3 w4 er e hdir hsup hnode hopen hread
        hmk hst hrn
    rw [a1]
    exact ⟨rfl, a2, a3, a4, rfl, rfl⟩

set_option maxRecDepth 100000 in
/-- C8 at a world with three photos: the first cannot be opened, the target
directory of the second cannot be made, the third cannot be renamed; the
three failures are logged, no traversal error occurs, and the run ends with
exit code 0. -/
theorem C8_failures_witness :
    exWorldMixed.wellFormed ∧
    (main exEnvMixed 5 exWorldMixed).map (fun o => (o.exitCode, o.log, o.stdout)) =
      some (0,
        [.md5Failed "/home/u/Raw/a.jpg".toList .denied,
          .mkdirFailed "/home/柠泽/2023-10".toList .denied,
          .moveFailed "/home/u/Raw/c.mov".toList
            "/home/柠泽/2024-02/2024-02-03_080509_902fbdd2b1df0c4f70b4a5d23525e932.mov".toList
            .denied],
        ["没有重复文件。".toList, "整理完成！".toList]) ∧
    main exEnvMixed 5 exWorldMixed = some exMixedRun ∧
    exMixedRun.exitCode = 0 ∧ exMixedRun.stdout = report exMixedRun.duplicateFiles :=
  ⟨by decide, by decide, by decide,
    (C8_failures_do_not_abort exEnvMixed exWorldMixed (by decide)).2.2.2.2.2.2 5 exMixedRun
      (by decide) (by decide) (by decide) (by decide) (by decide) (by decide)⟩

/-! ## The callback: what it takes up and what it leaves -/

/-- The callback at a supported regular file, when it logs no failure: the
file is recorded as a duplicate and stays, or it is at its target path and
gone from its own. -/
theorem walkFn_placed (E : Env) (cfg : Config) (path : GoString) (info : FileInfo)
    (s : State) (data : List Byte) (hfmt : cfg.supportedFormats = supportedFormats)
    (hdir : info.isDir = false) (hsup : fileExt E path ∈ cfg.supportedFormats)
    (hnode : s.world.node path = some (.file data info.modTime))
    (hlog : (walkFn E cfg path (some info) none s).1.log = s.log) :
    ((walkFn E cfg path (some info) none s).1.duplicateFiles = s.duplicateFiles ++
        [duplicateRecord (Base path) (relPath cfg (destOf E cfg path data info.modTime))] ∧
      Quiet s.world (walkFn E cfg path (some info) none s).1.world ∧
      (walkFn E cfg path (some info) none s).1.world.node path =
        some (.file data info.modTime)) ∨
    ((walkFn E cfg path (some info) none s).1.duplicateFiles = s.duplicateFiles ∧
      (walkFn E cfg path (some info) none s).1.world.node
        (destOf E cfg path data info.modTime) = some (.file data info.modTime) ∧
      (resolve s.world.cwd path ≠ resolve s.world.cwd (destOf E cfg path data info.modTime) →
        (walkFn E cfg path (some info) none s).1.world.node path = none)) := by
  have hpne : path ≠ [] := by rintro rfl; simp [World.node] at hnode
  rcases computeMD5_file_cases E path s.world data info.modTime hnode with
    ⟨_, e, he⟩ | ⟨ho, hr, _⟩
  · rw [walkFn_hashFailed E cfg path info s e hdir hsup he] at hlog
    simp at hlog
  · rw [walkFn_hashed E cfg path info s data hdir hsup hnode ho hr] at hlog ⊢
    have hn := nameOf_proper E cfg path data info.modTime hfmt hsup
    have hd := targetPath_ne_nil cfg (yearMonthOf info.modTime) _ hn
    obtain ⟨f1, _, _, _, _, f6, _⟩ := placeFile_frame E cfg path
      (nameOf E path data info.modTime) (yearMonthOf info.modTime)
      { s with world := hashed s.world path } data info.modTime hn hnode
    simp only [hashed_fs, hashed_cwd] at f6
    have hcwd := f1.1
    simp only [hashed_cwd] at hcwd
    rcases f6 hlog with ⟨g1, g2, _, _, _, g6⟩ | ⟨g1, g2, g3⟩
    · refine Or.inl ⟨g1, (hashed_quiet s.world path).append g2, ?_⟩
      rw [node_eq _ _ hpne, hcwd]
      rw [node_eq _ _ hpne] at hnode
      exact g6 _ _ hnode
    · refine Or.inr ⟨g1, ?_, ?_⟩
      · unfold destOf
        rw [node_eq _ _ hd, hcwd]
        exact g2
      · intro hne
        rw [node_eq _ _ hpne, hcwd]
        exact g3 hne

set_option maxRecDepth 100000 in
/-- C1, as stated, fails: a file with a supported extension is not always
hashed and then archived or recorded.  In the world with three photos,
`a.jpg` cannot be opened: it is not hashed, stays where it is and is not
recorded; the target directory of `b.png` cannot be made and `c.mov` cannot
be renamed: they are hashed, stay where they are and are not recorded. -/
theorem C1_counterexample :
    fileExt exEnvMixed "/home/u/Raw/a.jpg".toList = "jpg".toList ∧
    walkFn exEnvMixed exCfg "/home/u/Raw/a.jpg".toList (some ⟨false, exTime⟩) none
        ⟨exWorldMixed, [], []⟩ =
      (⟨exWorldMixed.call (.open "/home/u/Raw/a.jpg".toList) (some .denied), [],
        [.md5Failed "/home/u/Raw/a.jpg".toList .denied]⟩, .nil) ∧
    fileExt exEnvMixed "/home/u/Raw/b.png".toList = "png".toList ∧
    (walkFn exEnvMixed exCfg "/home/u/Raw/b.png".toList (some ⟨false, exTime⟩) none
        ⟨exWorldMixed, [], []⟩).1.duplicateFiles = [] ∧
    (walkFn exEnvMixed exCfg "/home/u/Raw/b.png".toList (some ⟨false, exTime⟩) none
        ⟨exWorldMixed, [], []⟩).1.world.node "/home/u/Raw/b.png".toList =
      some (.file exABC exTime) ∧
    (walkFn exEnvMixed exCfg "/home/u/Raw/b.png".toList (some ⟨false, exTime⟩) none
        ⟨exWorldMixed, [], []⟩).1.world.node
        "/home/柠泽/2023-10/2023-10-05_143000_902fbdd2b1df0c4f70b4a5d23525e932.png".toList =
      none ∧
    fileExt exEnvMixed "/home/u/Raw/c.mov".toList = "mov".toList ∧
    (walkFn exEnvMixed exCfg "/home/u/Raw/c.mov".toList (some ⟨false, exTime2⟩) none
        ⟨exWorldMixed, [], []⟩).1.duplicateFiles = [] ∧
    (walkFn exEnvMixed exCfg "/home/u/Raw/c.mov".toList (some ⟨false, exTime2⟩) none
        ⟨exWorldMixed, [], []⟩).1.world.node "/home/u/Raw/c.mov".toList =
      some (.file exABC exTime2) ∧
    (walkFn exEnvMixed exCfg "/home/u/Raw/c.mov".toList (some ⟨false, exTime2⟩) none
        ⟨exWorldMixed, [], []⟩).1.world.node
        "/home/柠泽/2024-02/2024-02-03_080509_902fbdd2b1df0c4f70b4a5d23525e932.mov".toList =
      none := by
  refine ⟨by decide, by decide, by decide, by decide, by decide, by decide, by decide,
    by decide, by decide, by decide⟩

/-- C1, amended: a non-directory entry handed to the callback without a
traversal error is taken up, that is the callback goes on to hash it (its
next operating-system call opens the file), if and only if its extension,
lower cased and without the dot, is one of `jpg`, `jpeg`, `png`, `mp4`,
`mov`, `heic`; otherwise the callback changes nothing.  A regular file that
is taken up is archived or recorded as a duplicate unless a failure is logged
(lines 79, 93 and 109: the hash, the creation of the target directory or the
rename failed): without a logged failure either the one record of the file
is appended to the duplicate list, no rename was called and the file is still
at its path, or the duplicate list is unchanged, the file is at its target
path and, the target path being another one, no longer at its own.  The
decision does not depend on letter case: two paths that differ only in an
extension with the same lower-case form are classified alike, in particular
two ASCII extensions that agree once `A` .. `Z` are lowered. -/
theorem C1_extension_filter (E : Env) (cfg : Config) (path : GoString) (info : FileInfo)
    (s : State) (hfmt : cfg.supportedFormats = supportedFormats)
    (hdir : info.isDir = false) :
    ((∃ e l, (walkFn E cfg path (some info) none s).1.world.calls =
          s.world.calls ++ (Call.open path, e) :: l) ↔
      fileExt E path ∈ ["jpg".toList, "jpeg".toList, "png".toList, "mp4".toList,
        "mov".toList, "heic".toList]) ∧
    (fileExt E path ∉ ["jpg".toList, "jpeg".toList, "png".toList, "mp4".toList,
        "mov".toList, "heic".toList] → walkFn E cfg path (some info) none s = (s, .nil)) ∧
    (fileExt E path ∈ ["jpg".toList, "jpeg".toList, "png".toList, "mp4".toList,
        "mov".toList, "heic".toList] →
      ∀ data, s.world.node path = some (.file data info.modTime) →
      (walkFn E cfg path (some info) none s).1.log = s.log →
      ((walkFn E cfg path (some info) none s).1.duplicateFiles = s.duplicateFiles ++
          [duplicateRecord (Base path) (relPath cfg (destOf E cfg path data info.modTime))] ∧
        Quiet s.world (walkFn E cfg path (some info) none s).1.world ∧
        (walkFn E cfg path (some info) none s).1.world.node path =
          some (.file data info.modTime)) ∨
      ((walkFn E cfg path (some info) none s).1.duplicateFiles = s.duplicateFiles ∧
        (walkFn E cfg path (some info) none s).1.world.node
          (destOf E cfg path data info.modTime) = some (.file data info.modTime) ∧
        (resolve s.world.cwd path ≠
            resolve s.world.cwd (destOf E cfg path data info.modTime) →
          (walkFn E cfg path (some info) none s).1.world.node path = none))) ∧
    (∀ pre e1 e2 : GoString, '.' ∉ e1 → '/' ∉ e1 → '.' ∉ e2 → '/' ∉ e2 →
      ToLower E.unicodeToLower e1 = ToLower E.unicodeToLower e2 →
      (isSupported cfg.supportedFormats (fileExt E (pre ++ '.' :: e1)) =
        isSupported cfg.supportedFormats (fileExt E (pre ++ '.' :: e2)))) ∧
    (∀ pre e1 e2 : GoString, '.' ∉ e1 → '/' ∉ e1 → '.' ∉ e2 → '/' ∉ e2 →
      isASCII e1 = true → isASCII e2 = true → e1.map lowerASCII = e2.map lowerASCII →
      (isSupported cfg.supportedFormats (fileExt E (pre ++ '.' :: e1)) =
        isSupported cfg.supportedFormats (fileExt E (pre ++ '.' :: e2)))) := by
  have hlist : supportedFormats = ["jpg".toList, "jpeg".toList, "png".toList, "mp4".toList,
      "mov".toList, "heic".toList] := rfl
  rw [← hlist, ← hfmt]
  refine ⟨⟨?_, ?_⟩, ?_, ?_, ?_, ?_⟩
  · rintro ⟨e, l, h⟩
    by_contra hs
    rw [walkFn_unsupported E cfg path info s (Or.inr hs)] at h
    have := congrArg List.length h
    simp at this
  · intro hs
    rw [walkFn_supported E cfg path info s hdir hs]
    obtain ⟨_, _, e, l, hc⟩ := computeMD5_calls E path s.world
    split
    · next w1 er he => rw [he] at hc; exact ⟨e, l, hc⟩
    · next w1 m he =>
      rw [he] at hc
      obtain ⟨_, l2, h2⟩ := placeFile_extends E cfg path
        (newFileName (Format info.modTime fileDateLayout) m (fileExt E path))
        ((Format info.modTime fileDateLayout).take 7) { s with world := w1 }
      refine ⟨e, l ++ l2, ?_⟩
      rw [h2]
      show w1.calls ++ l2 = _
      rw [hc]
      simp
  · intro hs
    exact walkFn_unsupported E cfg path info s (Or.inr hs)
  · intro hs data hnode hlog
    exact walkFn_placed E cfg path info s data hfmt hdir hs hnode hlog
  · intro pre e1 e2 a1 a2 b1 b2 h
    rw [fileExt_dot E pre e1 a1 a2, fileExt_dot E pre e2 b1 b2, h]
  · intro pre e1 e2 a1 a2 b1 b2 c1 c2 h
    rw [fileExt_dot E pre e1 a1 a2, fileExt_dot E pre e2 b1 b2, ToLower_ascii _ e1 c1,
      ToLower_ascii _ e2 c2, h]

set_option maxRecDepth 100000 in
/-- C1 at `/home/u/Raw/photo.JPG`: the extension is `jpg`, the file is
hashed and, nothing failing, moved to its target path; `photo.JPG` and
`photo.jpg` are classified alike. -/
theorem C1_extension_filter_witness :
    fileExt exEnv exPhoto = "jpg".toList ∧
    (∃ e l, (walkFn exEnv exCfg exPhoto (some ⟨false, exTime⟩) none exState).1.world.calls =
      exState.world.calls ++ (Call.open exPhoto, e) :: l) ∧
    (walkFn exEnv exCfg exPhoto (some ⟨false, exTime⟩) none exState).1.world.node exDest =
      some (.file exABC exTime) ∧
    (walkFn exEnv exCfg exPhoto (some ⟨false, exTime⟩) none exState).1.world.node exPhoto =
      none ∧
    isSupported exCfg.supportedFormats
        (fileExt exEnv ("/home/u/Raw/photo".toList ++ '.' :: "JPG".toList)) =
      isSupported exCfg.supportedFormats
        (fileExt exEnv ("/home/u/Raw/photo".toList ++ '.' :: "jpg".toList)) :=
  ⟨by decide,
   (C1_extension_filter exEnv exCfg exPhoto ⟨false, exTime⟩ exState rfl rfl).1.mpr (by decide),
   by decide, by decide,
   (C1_extension_filter exEnv exCfg exPhoto ⟨false, exTime⟩ exState rfl rfl).2.2.2.2
     "/home/u/Raw/photo".toList "JPG".toList "jpg".toList (by decide) (by decide) (by decide)
     (by decide) (by decide) (by decide) (by decide)⟩

set_option maxRecDepth 100000 in
/-- C3 fails on the code when `os.Stat` of the target path fails although
an entry is there: line 99 takes every error of `os.Stat` for absence.  For
`photo.JPG` in `exWorldTaken`, whose target path is taken: in a target
directory without search permission the hash and the directory creation
succeed, `os.Stat` fails, `os.Rename` is called and refused, the failure is
logged and no record is appended; and when only `os.Stat` fails the rename
goes through: the entry at the target path is overwritten, the source is
gone, and no record is appended. -/
theorem C3_stat_failure :
    fileExt exEnvNoAccess exPhoto ∈ supportedFormats ∧
    destOf exEnvNoAccess exCfg exPhoto exABC exTime = exDest ∧
    exWorldTaken.node exPhoto = some (.file exABC exTime) ∧
    exWorldTaken.node exDest = some (.file [1] exTime) ∧
    exNoAccessStep.world.calls =
      [(.open exPhoto, none), (.read exPhoto, none),
        (.mkdirAll "/home/柠泽/2023-10".toList, none), (.stat exDest, some .denied),
        (.rename exPhoto exDest, some .denied)] ∧
    exNoAccessStep.duplicateFiles = [] ∧
    exNoAccessStep.log = [.moveFailed exPhoto exDest .denied] ∧
    exNoStatStep.world.calls =
      [(.open exPhoto, none), (.read exPhoto, none),
        (.mkdirAll "/home/柠泽/2023-10".toList, none), (.stat exDest, some .denied),
        (.rename exPhoto exDest, none)] ∧
    exNoStatStep.duplicateFiles = [] ∧
    exNoStatStep.world.node exDest = some (.file exABC exTime) ∧
    exNoStatStep.world.node exPhoto = none := by
  refine ⟨by decide, by decide, by decide, by decide, by decide, by decide, by decide,
    by decide, by decide, by decide, by decide⟩

set_option maxRecDepth 100000 in
/-- C5 fails on the code when `os.Stat` of the common target path fails
after the first copy was moved there: line 99 takes every error of `os.Stat`
for absence.  For `copy.jpg` and `photo.JPG` of `exWorldTwo`, of the same
content and the same second, whose common target path is free: hashes,
directory creations and renames all succeed; the first copy is moved; for
the second `os.Stat` fails and `os.Rename` is called: the second copy is not
left in place, it replaces the first at the target path, and no record is
appended. -/
theorem C5_stat_failure :
    exWorldTwo.node exCopy = some (.file exABC exTimeLater) ∧
    exWorldTwo.node exPhoto = some (.file exABC exTime) ∧
    destOf exEnvNoStat exCfg exCopy exABC exTimeLater = exDest ∧
    destOf exEnvNoStat exCfg exPhoto exABC exTime = exDest ∧
    exWorldTwo.node exDest = none ∧
    exTwoFirst.world.node exCopy = none ∧
    exTwoFirst.world.node exDest = some (.file exABC exTimeLater) ∧
    exTwoFirst.log = [] ∧
    exTwoSecond.world.calls.drop exTwoFirst.world.calls.length =
      [(.open exPhoto, none), (.read exPhoto, none),
        (.mkdirAll "/home/柠泽/2023-10".toList, none), (.stat exDest, some .denied),
        (.rename exPhoto exDest, none)] ∧
    exTwoSecond.world.node exPhoto = none ∧
    exTwoSecond.world.node exDest = some (.file exABC exTime) ∧
    exTwoSecond.duplicateFiles = [] ∧
    exTwoSecond.log = [] := by
  refine ⟨by decide, by decide, by decide, by decide, by decide, by decide, by decide,
    by decide, by decide, by decide, by decide, by decide, by decide⟩

/-- C7, as stated, fails: an entry that is a directory, or has no supported
extension, does not always make the callback return no error.  The directory
`/home/u/Raw/a` cannot be read: the walk hands it to the callback with the
error of the reading, and the callback returns that error (lines 50 to 52),
which ends the walk; the same for `notes.txt` handed over with the error of a
failed `os.Lstat`. -/
theorem C7_counterexample :
    nodeAt exWorldBlocked.fs (exPath ["home", "u", "Raw", "a"]) = some .dir ∧
    walkFn exEnvBlocked exCfg "/home/u/Raw/a".toList (some Node.dir.info) (some .denied)
        ⟨exWorldBlocked, [], []⟩ = (⟨exWorldBlocked, [], []⟩, .err .denied) ∧
    (walk exEnvBlocked (walkFn exEnvBlocked exCfg) 3 "/home/u/Raw/a".toList Node.dir.info
        ⟨exWorldBlocked, [], []⟩).2 = .err .denied ∧
    fileExt exEnv exNotes ∉ supportedFormats ∧
    walkFn exEnv exCfg exNotes none (some .denied) exState = (exState, .err .denied) := by
  refine ⟨by decide, by decide, by decide, by decide, by decide⟩

/-- C7, amended: an entry that is a directory, or whose lower-cased
extension is not in the supported list, or that has no extension at all, is
left alone: the callback returns the state it was given (the same file
table, the same trace of operating-system calls, so no hash and no directory
creation, the same duplicate list and log); it returns `nil` when it was
handed no traversal error, and the traversal error it was handed
otherwise. -/
theorem C7_unsupported_untouched (E : Env) (cfg : Config) (path : GoString)
    (info : Option FileInfo) (err : Option Error) (s : State)
    (hfmt : cfg.supportedFormats = supportedFormats)
    (h : (∃ i, info = some i ∧ i.isDir = true) ∨
      fileExt E path ∉ ["jpg".toList, "jpeg".toList, "png".toList, "mp4".toList,
        "mov".toList, "heic".toList] ∨ Ext path = []) :
    (walkFn E cfg path info err s).1 = s ∧
    (∀ e, err = some e → (walkFn E cfg path info err s).2 = .err e) ∧
    (err = none → info ≠ none → (walkFn E cfg path info err s).2 = .nil) ∧
    ((walkFn E cfg path info err s).2 = .nil → err = none) := by
  cases err with
  | some e =>
    rw [walkFn_err]
    exact ⟨rfl, fun e1 he => by simp only [Option.some.injEq] at he; rw [he],
      fun he => by simp at he, fun he => by simp at he⟩
  | none =>
    cases info with
    | none =>
      exact ⟨rfl, fun e he => by simp at he, fun _ hi => absurd rfl hi, fun _ => rfl⟩
    | some i =>
      have hu : walkFn E cfg path (some i) none s = (s, .nil) := by
        apply walkFn_unsupported
        rw [hfmt]
        rcases h with ⟨j, hj, hd⟩ | h | h
        · simp only [Option.some.injEq] at hj
          subst hj
          exact Or.inl hd
        · exact Or.inr h
        · right
          rw [fileExt_of_Ext_nil E path h]
          decide
      rw [hu]
      exact ⟨rfl, fun e he => by simp at he, fun _ _ => rfl, fun _ => rfl⟩

/-- C7 at `/home/u/Raw/notes.txt`: the callback returns the state unchanged
and `nil`. -/
theorem C7_unsupported_untouched_witness :
    fileExt exEnv exNotes = "txt".toList ∧
    (walkFn exEnv exCfg exNotes (some ⟨false, exTime⟩) none exState).1 = exState ∧
    (walkFn exEnv exCfg exNotes (some ⟨false, exTime⟩) none exState).2 = .nil :=
  ⟨by decide,
   (C7_unsupported_untouched exEnv exCfg exNotes (some ⟨false, exTime⟩) none exState rfl
     (Or.inr (Or.inl (by decide)))).1,
   (C7_unsupported_untouched exEnv exCfg exNotes (some ⟨false, exTime⟩) none exState rfl
     (Or.inr (Or.inl (by decide)))).2.2.1 rfl (by simp)⟩

end PhotoSorter
